import Mathlib

/-! known_hosts manager: entry parser and host collection.

A shallow embedding of `internal/knownhosts/parser.go`, and of `deleteHost` of
the command line (`ui.go`).

* A Go `string` is modelled as the list of its Unicode code points (`Str`); the
  embedding therefore covers valid UTF-8 text.
* A `*Host` is modelled as a `HostRef`: the allocation identity of the record
  together with the record it points to.  No code path writes to a `Host` after
  `parseHostLine` returned it, so the record can travel with its identity.
  Pointer comparison (the keys of `map[*Host]bool`) is comparison of `ref`;
  slots never hold a nil pointer, since `AddHost` refuses one.
* A Go `map[string]V` is modelled as an association list; lookups take the
  first binding, deletions remove every binding of the key.
* The file system is a finite map from paths to contents with two sets of
  failing paths (`locked`: open/create fail, `full`: writes fail) and the set
  of directories that do not exist: at a path into one of them, as at the empty
  path, the system finds no file and creates none.
* A Go `error` result is `Option Err` (`none` is `nil`).
-/

namespace KnownHosts

/-- Go `string`, as a sequence of code points. -/
abbrev Str := List Char

/-! ## The `strings` package -/

/-- Go `unicode.IsSpace`: the Unicode White_Space property. -/
def isSpace (c : Char) : Bool :=
  let n := c.toNat
  (9 ≤ n && n ≤ 13) || n == 32 || n == 0x85 || n == 0xA0 || n == 0x1680 ||
  (0x2000 ≤ n && n ≤ 0x200A) || n == 0x2028 || n == 0x2029 || n == 0x202F ||
  n == 0x205F || n == 0x3000

/-- Go `strings.TrimSpace`: drop leading and trailing white space. -/
def TrimSpace (s : Str) : Str := (s.dropWhile isSpace).rdropWhile isSpace

/-- Go `strings.HasPrefix`. -/
def HasPrefix (s pre : Str) : Bool := pre.isPrefixOf s

/-- Scanning loop of `strings.Fields`: `cur` is the field being read. -/
def fieldsFrom : Str → Str → List Str
  | [], cur => if cur = [] then [] else [cur]
  | c :: cs, cur =>
    if isSpace c then
      if cur = [] then fieldsFrom cs [] else cur :: fieldsFrom cs []
    else fieldsFrom cs (cur ++ [c])

/-- Go `strings.Fields`: the maximal runs of non-space characters. -/
def Fields (s : Str) : List Str := fieldsFrom s []

/-- Go `strings.Split(s, sep)` for a one-character separator. -/
def Split (s : Str) (sep : Char) : List Str := s.splitOn sep

/-- Go `strings.Join`. -/
def Join (xs : List Str) (sep : Str) : Str := sep.intercalate xs

/-! ## Host records -/

/-- The Go struct `Host` (`KeyType` is the field `Type`, a reserved word here). -/
structure Host where
  Addresses : List Str
  KeyType : Str
  Key : Str
  Comment : Str
  LineNumber : Int
  IsHashed : Bool
  HashValue : Str
  deriving DecidableEq, Repr

/-- The zero value of `Host`. -/
def Host.zero : Host :=
  { Addresses := [], KeyType := [], Key := [], Comment := [], LineNumber := 0,
    IsHashed := false, HashValue := [] }

/-- The loop `for _, h := range rawHosts` of `parseHostLine`: trim every token,
skip the empty ones, append the others to `addrs`. -/
def collectAddresses : List Str → List Str → List Str
  | [], addrs => addrs
  | h :: rest, addrs =>
    let h := TrimSpace h
    if h = [] then collectAddresses rest addrs
    else collectAddresses rest (addrs ++ [h])

/-- Go `parseHostLine`; `none` is the `nil` result. -/
def parseHostLine (line : Str) (lineNumber : Int) : Option Host :=
  let parts := Fields line
  if parts.length < 3 then none
  else
    let rawHosts := Split (parts.getD 0 []) ','
    if rawHosts.length = 0 then none
    else
      let host : Host := { Host.zero with Addresses := [], LineNumber := lineNumber }
      let host := { host with Addresses := collectAddresses rawHosts host.Addresses }
      if host.Addresses.length = 0 then none
      else
        let host :=
          if HasPrefix (host.Addresses.getD 0 []) ['|'] then
            { host with IsHashed := true, HashValue := host.Addresses.getD 0 [] }
          else host
        let host := if parts.length > 1 then { host with KeyType := parts.getD 1 [] } else host
        let host := if parts.length > 2 then { host with Key := parts.getD 2 [] } else host
        let host :=
          if parts.length > 3 then { host with Comment := Join (parts.drop 3) [' '] } else host
        some host

/-! ## Go maps as association lists -/

/-- Lookup `m[k]` with the "comma ok" result: `none` when the key is absent. -/
def mapGet {V : Type} : List (Str × V) → Str → Option V
  | [], _ => none
  | (k', v) :: rest, k => if k' = k then some v else mapGet rest k

/-- Assignment `m[k] = v`: overwrite the binding of `k`, or add one. -/
def mapSet {V : Type} : List (Str × V) → Str → V → List (Str × V)
  | [], k, v => [(k, v)]
  | (k', v') :: rest, k, v =>
    if k' = k then (k, v) :: rest else (k', v') :: mapSet rest k v

/-- Go `delete(m, k)`. -/
def mapDelete {V : Type} : List (Str × V) → Str → List (Str × V)
  | [], _ => []
  | (k', v) :: rest, k =>
    if k' = k then mapDelete rest k else (k', v) :: mapDelete rest k

/-- The keys of a map, in the order the model stores them. -/
def mapKeys {V : Type} (m : List (Str × V)) : List Str := m.map Prod.fst

/-! ## The collection -/

/-- A non-nil `*Host`: `ref` is the identity of the allocation, `host` the
record stored there. -/
structure HostRef where
  ref : Nat
  host : Host
  deriving DecidableEq, Repr

/-- The Go struct `HostCollection`. -/
structure HostCollection where
  Hosts : List (Str × List HostRef)
  File : Str
  deriving DecidableEq, Repr

/-- The error values returned by the package, one constructor per message. -/
inductive Err where
  | hostNotFound
  | stashPathNotAvailable
  | failedToOpenKnownHosts
  | errorReadingKnownHosts
  | failedToCreateBackup
  | failedToCreateFile
  | failedToWrite
  | failedToCreateTarget
  | failedToOpenTarget
  | failedToWriteTarget
  | failedToCreateStash
  | failedToParseStash
  | failedToOpenStash
  | failedToWriteStash
  | failedToSaveAfterStash
  | stashFileNotFound
  | failedToParseKnownHosts
  | noStashedEntries
  | failedToSaveAfterUnstash
  | failedToSaveStashAfterUnstash
  | failedToDeleteHost
  | failedToSaveAfterDelete
  deriving DecidableEq, Repr

/-- Go `NewHostCollection`. -/
def NewHostCollection (filePath : Str) : HostCollection :=
  { Hosts := [], File := filePath }

/-- The loop `for _, addr := range host.Addresses` of `AddHost`. -/
def addHostLoop : List Str → HostRef → List (Str × List HostRef) → List (Str × List HostRef)
  | [], _, m => m
  | addr :: rest, host, m =>
    let m := if (mapGet m addr).isNone then mapSet m addr [] else m
    let m := mapSet m addr ((mapGet m addr).getD [] ++ [host])
    addHostLoop rest host m

/-- Go `AddHost`; `none` is a nil pointer. -/
def AddHost (hc : HostCollection) (host : Option HostRef) : HostCollection :=
  match host with
  | none => hc
  | some h =>
    if h.host.Addresses.length = 0 then hc
    else { hc with Hosts := addHostLoop h.host.Addresses h hc.Hosts }

/-- Go `GetHostsByAddress`: `hc.Hosts[address]`, the empty (nil) slice when the
key is absent. -/
def GetHostsByAddress (hc : HostCollection) (address : Str) : List HostRef :=
  (mapGet hc.Hosts address).getD []

/-- Go `GetAllAddresses`. -/
def GetAllAddresses (hc : HostCollection) : List Str := mapKeys hc.Hosts

/-- Go `RemoveHost`: the new collection and the returned error. -/
def RemoveHost (hc : HostCollection) (address : Str) (index : Int) :
    HostCollection × Option Err :=
  match mapGet hc.Hosts address with
  | none => (hc, some Err.hostNotFound)
  | some hosts =>
    if index < 0 ∨ index ≥ (hosts.length : Int) then (hc, some Err.hostNotFound)
    else
      let m := mapSet hc.Hosts address
        (hosts.take index.toNat ++ hosts.drop (index.toNat + 1))
      let m := if ((mapGet m address).getD []).length = 0 then mapDelete m address else m
      ({ hc with Hosts := m }, none)

/-- Go `RemoveAllHosts`. -/
def RemoveAllHosts (hc : HostCollection) (address : Str) : HostCollection × Option Err :=
  match mapGet hc.Hosts address with
  | none => (hc, some Err.hostNotFound)
  | some _ => ({ hc with Hosts := mapDelete hc.Hosts address }, none)

/-- The body of the scanning loop of `ParseKnownHosts` for one physical line:
trim, skip blank and comment lines, otherwise `parseHostLine`. -/
def parseStep (raw : Str) (lineNumber : Int) : Option Host :=
  let line := TrimSpace raw
  if line = [] ∨ HasPrefix line ['#'] = true then none
  else parseHostLine line lineNumber

/-- The loop `for scanner.Scan()` of `ParseKnownHosts` over the scanned lines.
`lineNumber` is the counter before the line is read, `next` the identity the
next allocated `Host` receives. -/
def parseLoop : List Str → Int → Nat → HostCollection → HostCollection
  | [], _, _, hc => hc
  | raw :: rest, lineNumber, next, hc =>
    let lineNumber := lineNumber + 1
    match parseStep raw lineNumber with
    | none => parseLoop rest lineNumber next hc
    | some h => parseLoop rest lineNumber (next + 1) (AddHost hc (some ⟨next, h⟩))

/-- The collection `ParseKnownHosts` builds from the scanned lines of the file
at `filePath`; allocations receive the identities `base`, `base + 1`, ... -/
def parseLines (filePath : Str) (base : Nat) (lines : List Str) : HostCollection :=
  parseLoop lines 0 base (NewHostCollection filePath)

/-- The hosts returned by the per-line step, in file order, each parsed with the
1-based number of its physical line. -/
def parsedHosts (lines : List Str) : List Host :=
  lines.enum.filterMap (fun p => parseStep p.2 ((p.1 : Int) + 1))

/-- The entries parsed from the lines: the parsed hosts with their identities. -/
def parsedEntries (base : Nat) (lines : List Str) : List HostRef :=
  ((parsedHosts lines).enumFrom base).map (fun p => ⟨p.1, p.2⟩)

/-! ## Formatting and identity keys -/

/-- Go `formatKnownHostsLine` on a non-nil host. -/
def formatKnownHostsLine (host : Host) : Str :=
  let addressField := if host.Addresses.length > 0 then Join host.Addresses [','] else []
  let line := addressField ++ [' '] ++ host.KeyType ++ [' '] ++ host.Key
  if host.Comment ≠ [] then line ++ [' '] ++ host.Comment else line

/-- Go `stashKey` on a non-nil host. -/
def stashKey (h : Host) : Str :=
  let addrField := Join h.Addresses [',']
  let addrField :=
    if addrField = [] ∧ h.IsHashed = true ∧ h.HashValue ≠ [] then h.HashValue else addrField
  if addrField = [] ∨ h.KeyType = [] ∨ h.Key = [] then []
  else addrField ++ [' '] ++ h.KeyType ++ [' '] ++ h.Key

/-! ## The file system -/

/-- The errors of the `os` package the code distinguishes. -/
inductive OsErr where
  | notExist
  | permission
  | noSpace
  deriving DecidableEq, Repr

/-- The files (path and content), the paths on which opening and creating fail
for want of permission (`locked`), the paths on which writing fails (`full`),
the value of `getDefaultKnownHostsPath()` in this environment, and the
directories that do not exist (`missingDirs`, each written as the directory
part of the paths in it). -/
structure FS where
  files : List (Str × Str)
  locked : List Str
  full : List Str
  defaultKnownHosts : Str
  missingDirs : List Str
  deriving DecidableEq, Repr

/-- The directory part of a path: all of it up to and including the last `/`. -/
def dirPart (name : Str) : Str := name.rdropWhile (fun c => decide (c ≠ '/'))

/-- The paths at which the system finds no file and can create none (`ENOENT`):
the empty path, and every path into a directory that does not exist. -/
def noEntry (fs : FS) (name : Str) : Prop := name = [] ∨ dirPart name ∈ fs.missingDirs

instance (fs : FS) (name : Str) : Decidable (noEntry fs name) :=
  inferInstanceAs (Decidable (name = [] ∨ dirPart name ∈ fs.missingDirs))

/-- Go `os.Open` followed by reading the whole file. -/
def osOpen (fs : FS) (name : Str) : Except OsErr Str :=
  if name ∈ fs.locked then Except.error OsErr.permission
  else if noEntry fs name then Except.error OsErr.notExist
  else
    match mapGet fs.files name with
    | none => Except.error OsErr.notExist
    | some content => Except.ok content

/-- Go `os.Create`: create or truncate.  It fails where the path is empty or
leads into a directory that does not exist. -/
def osCreate (fs : FS) (name : Str) : Except OsErr FS :=
  if name ∈ fs.locked then Except.error OsErr.permission
  else if noEntry fs name then Except.error OsErr.notExist
  else Except.ok { fs with files := mapSet fs.files name [] }

/-- Whether `os.IsNotExist(err)` holds for the error of `os.Stat(name)`. -/
def osStatNotExist (fs : FS) (name : Str) : Bool :=
  decide (name ∉ fs.locked) && (decide (noEntry fs name) || (mapGet fs.files name).isNone)

/-- Go `os.OpenFile(name, os.O_APPEND|os.O_WRONLY, 0644)`: the error, if any. -/
def osOpenAppend (fs : FS) (name : Str) : Option OsErr :=
  if name ∈ fs.locked then some OsErr.permission
  else if noEntry fs name then some OsErr.notExist
  else if (mapGet fs.files name).isNone then some OsErr.notExist
  else none

/-- One write of `data` at the end of an open file; writing nothing succeeds. -/
def osWrite (fs : FS) (name : Str) (data : Str) : Except OsErr FS :=
  if data = [] then Except.ok fs
  else if name ∈ fs.full then Except.error OsErr.noSpace
  else Except.ok { fs with files := mapSet fs.files name ((mapGet fs.files name).getD [] ++ data) }

/-- A sequence of writes to the same file, stopping at the first failure. -/
def osWriteAll : FS → Str → List Str → FS × Option OsErr
  | fs, _, [] => (fs, none)
  | fs, name, chunk :: rest =>
    match osWrite fs name chunk with
    | Except.error e => (fs, some e)
    | Except.ok fs1 => osWriteAll fs1 name rest

/-- Go `CopyFile`.  The source is read after the destination was created. -/
def CopyFile (fs : FS) (src dst : Str) : FS × Option OsErr :=
  match osOpen fs src with
  | Except.error e => (fs, some e)
  | Except.ok _ =>
    match osCreate fs dst with
    | Except.error e => (fs, some e)
    | Except.ok fs1 =>
      match osWrite fs1 dst ((mapGet fs1.files src).getD []) with
      | Except.error e => (fs1, some e)
      | Except.ok fs2 => (fs2, none)

/-! ## Reading a file -/

/-- Go `bufio.MaxScanTokenSize`. -/
def maxScanTokenSize : Nat := 64 * 1024

/-- Length in bytes of the UTF-8 encoding. -/
def byteLen (s : Str) : Nat := (s.map Char.utf8Size).sum

/-- The physical lines of a file: the pieces between line feeds, and the
unterminated rest when it is not empty. -/
def splitLinesFrom : Str → Str → List Str
  | [], cur => if cur = [] then [] else [cur]
  | c :: cs, cur =>
    if c = '\n' then cur :: splitLinesFrom cs [] else splitLinesFrom cs (cur ++ [c])

/-- Go `dropCR` of `bufio.ScanLines`. -/
def dropCR (s : Str) : Str := if s.getLast? = some '\r' then s.dropLast else s

/-- Go `ParseKnownHosts`.  The scanner fails with `ErrTooLong` on a line of
`maxScanTokenSize` bytes or more, and the call then returns the error. -/
def ParseKnownHosts (fs : FS) (base : Nat) (filePath : Str) : Except Err HostCollection :=
  let filePath := if filePath = [] then fs.defaultKnownHosts else filePath
  match osOpen fs filePath with
  | Except.error _ => Except.error Err.failedToOpenKnownHosts
  | Except.ok content =>
    let raw := splitLinesFrom content []
    if raw.any (fun l => decide (maxScanTokenSize ≤ byteLen l)) then
      Except.error Err.errorReadingKnownHosts
    else Except.ok (parseLines filePath base (raw.map dropCR))

/-! ## Saving -/

/-- Go string comparison `a <= b`: lexicographic, code point by code point. -/
def strLe : Str → Str → Bool
  | [], _ => true
  | _ :: _, [] => false
  | a :: as, b :: bs => decide (a.toNat < b.toNat) || (decide (a.toNat = b.toNat) && strLe as bs)

/-- The order `sort.Strings` sorts by. -/
def StrLE (a b : Str) : Prop := strLe a b = true

instance : DecidableRel StrLE := fun a b => inferInstanceAs (Decidable (strLe a b = true))

/-- Go `sort.Strings`. -/
def sortStrings (l : List Str) : List Str := l.insertionSort StrLE

/-- The text written before the entries: `header + "\n"`. -/
def saveHeader : Str :=
  "# SSH Known Hosts File\n".toList ++ "# Managed by ssh-knownhosts-manager\n".toList ++ ['\n']

/-- The loop `for _, host := range hc.Hosts[addr]` of `SaveToFile`; the state is
the set `written` and the text written so far. -/
def saveSlot : List HostRef → List Nat × Str → List Nat × Str
  | [], st => st
  | host :: rest, (written, out) =>
    if host.ref ∈ written then saveSlot rest (written, out)
    else saveSlot rest (host.ref :: written, out ++ (formatKnownHostsLine host.host ++ ['\n']))

/-- The loop `for _, addr := range addresses` of `SaveToFile`. -/
def saveAddrs (m : List (Str × List HostRef)) : List Str → List Nat × Str → List Nat × Str
  | [], st => st
  | addr :: rest, st => saveAddrs m rest (saveSlot ((mapGet m addr).getD []) st)

/-- Everything `SaveToFile` writes through its buffered writer. -/
def saveContent (hc : HostCollection) : Str :=
  (saveAddrs hc.Hosts (sortStrings (mapKeys hc.Hosts)) ([], saveHeader)).2

/-- Go `SaveToFile`: backup, truncate-create, write and flush.  The buffered
text reaches the file in full or, on a path where writes fail, not at all. -/
def SaveToFile (fs : FS) (hc : HostCollection) (filePath : Str) : FS × Option Err :=
  let backupPath := filePath ++ ".backup".toList
  let copied := CopyFile fs filePath backupPath
  if copied.2 ≠ none ∧ copied.2 ≠ some OsErr.notExist then
    (copied.1, some Err.failedToCreateBackup)
  else
    match osCreate copied.1 filePath with
    | Except.error _ => (copied.1, some Err.failedToCreateFile)
    | Except.ok fs2 =>
      match osWrite fs2 filePath (saveContent hc) with
      | Except.error _ => (fs2, some Err.failedToWrite)
      | Except.ok fs3 => (fs3, none)

/-- Go `Save`. -/
def Save (fs : FS) (hc : HostCollection) : FS × Option Err := SaveToFile fs hc hc.File

/-- The entries met when the slots are visited in the order of `addrs`, each
slot in slot order (with repetitions). -/
def visits (m : List (Str × List HostRef)) (addrs : List Str) : List HostRef :=
  addrs.flatMap (fun addr => (mapGet m addr).getD [])

/-- The entries of a visit sequence whose identity is neither in `seen` nor met
earlier in the sequence. -/
def firstVisitsFrom : List Nat → List HostRef → List HostRef
  | _, [] => []
  | seen, h :: rest =>
    if h.ref ∈ seen then firstVisitsFrom seen rest
    else h :: firstVisitsFrom (h.ref :: seen) rest

/-- The first visit of every allocation: an entry is kept unless its identity
was met earlier in the sequence. -/
def firstVisits (l : List HostRef) : List HostRef := firstVisitsFrom [] l

/-- The lines written for a list of entries. -/
def linesOf (l : List HostRef) : Str :=
  l.flatMap (fun e => formatKnownHostsLine e.host ++ ['\n'])

/-- The distinct entries of the index in the order `SaveToFile` meets them. -/
def distinctEntries (hc : HostCollection) : List HostRef :=
  firstVisits (visits hc.Hosts (sortStrings (mapKeys hc.Hosts)))

/-! ## Stashing -/

/-- The set `existing` built from the parsed stash: the non-empty identity keys
of the entries in its slots. -/
def existingKeys (stash : HostCollection) : List Str :=
  ((stash.Hosts.flatMap (fun p => p.2)).map (fun h => stashKey h.host)).filter
    (fun k => decide (k ≠ []))

/-- The loop `for _, h := range hosts` of `StashAddressWithPath`: the entries for
which a line is written, in order.  `seenHost` and `existing` are the two sets
of the code. -/
def stashLoop : List HostRef → List Nat → List Str → List HostRef
  | [], _, _ => []
  | h :: rest, seenHost, existing =>
    if h.ref ∈ seenHost then stashLoop rest seenHost existing
    else
      let seenHost := h.ref :: seenHost
      let key := stashKey h.host
      if key ≠ [] ∧ key ∈ existing then stashLoop rest seenHost existing
      else
        let existing := if key ≠ [] then key :: existing else existing
        let line := formatKnownHostsLine h.host
        if line = [] then stashLoop rest seenHost existing
        else h :: stashLoop rest seenHost existing

/-- Go `StashAddressWithPath`: the file system, the collection and the error it
leaves.  The stash is parsed into a collection of its own (identities from 0),
of which only the identity keys are used. -/
def StashAddressWithPath (fs : FS) (hc : HostCollection) (address stashPath : Str) :
    FS × HostCollection × Option Err :=
  match mapGet hc.Hosts address with
  | none => (fs, hc, some Err.hostNotFound)
  | some hosts =>
    if hosts.length = 0 then (fs, hc, some Err.hostNotFound)
    else if stashPath = [] then (fs, hc, some Err.stashPathNotAvailable)
    else
      match (if osStatNotExist fs stashPath then osCreate fs stashPath else Except.ok fs) with
      | Except.error _ => (fs, hc, some Err.failedToCreateStash)
      | Except.ok fs1 =>
        match ParseKnownHosts fs1 0 stashPath with
        | Except.error _ => (fs1, hc, some Err.failedToParseStash)
        | Except.ok stash =>
          match osOpenAppend fs1 stashPath with
          | some _ => (fs1, hc, some Err.failedToOpenStash)
          | none =>
            let appended := stashLoop hosts [] (existingKeys stash)
            let written := osWriteAll fs1 stashPath
              (appended.map (fun h => formatKnownHostsLine h.host ++ ['\n']))
            if written.2 ≠ none then (written.1, hc, some Err.failedToWriteStash)
            else
              let hc1 := { hc with Hosts := mapDelete hc.Hosts address }
              let saved := SaveToFile written.1 hc1 hc1.File
              if saved.2 ≠ none then (saved.1, hc1, some Err.failedToSaveAfterStash)
              else (saved.1, hc1, none)

/-- The fields by which entries are compared across a save: addresses, key
type, key and comment. -/
def entryFields (h : Host) : List Str × Str × Str × Str :=
  (h.Addresses, h.KeyType, h.Key, h.Comment)

/-! ## A worked example -/

/-- A small known_hosts file: a two-address entry, a comment line and a second
entry for one of the addresses. -/
def exampleText : Str :=
  "b.example,a.example ssh-rsa AAAA\n# note\na.example ssh-ed25519 BBBB old key\n".toList

/-- A file system holding the example file at `kh`. -/
def exampleFS : FS :=
  { files := [("kh".toList, exampleText)], locked := [], full := [],
    defaultKnownHosts := "kh".toList, missingDirs := [] }

/-- The collection parsed from the example file. -/
def exampleHC : HostCollection :=
  parseLines "kh".toList 0 ((splitLinesFrom exampleText []).map dropCR)

/-- The example file system with a stash file `st` that already holds the second
entry of `a.example`, under another comment. -/
def stashFS : FS :=
  { exampleFS with
    files := exampleFS.files ++
      [("st".toList, "a.example ssh-ed25519 BBBB kept earlier\n".toList)] }

/-- A known_hosts file whose only line has an empty first address token and the
address `#foo`. -/
def commentFS : FS :=
  { files := [("kh".toList, ",#foo ssh-rsa KEY\n".toList)], locked := [], full := [],
    defaultKnownHosts := "kh".toList, missingDirs := [] }

/-- A known_hosts file with one entry, and a stash file whose last line is not
terminated by a line feed. -/
def unterminatedFS : FS :=
  { files := [("kh".toList, "bar ssh-rsa K2\n".toList), ("st".toList, "foo ssh-rsa K".toList)],
    locked := [], full := [], defaultKnownHosts := "kh".toList, missingDirs := [] }

/-- The documented hashed line. -/
def hashedLine : Str := "|1|abc123base64|def456base64= ssh-ed25519 AAAAC3...".toList

/-- The entry the documented hashed line parses to, as line 1. -/
def hashedHost : Host :=
  { Addresses := ["|1|abc123base64|def456base64=".toList], KeyType := "ssh-ed25519".toList,
    Key := "AAAAC3...".toList, Comment := [], LineNumber := 1, IsHashed := true,
    HashValue := "|1|abc123base64|def456base64=".toList }

/-- A line whose first field holds a hash token followed by a plain address. -/
def hashedListLine : Str := "|1|abc|def=,other.example ssh-rsa KEY".toList

/-- A comment line of 65537 bytes. -/
def longCommentLine : Str := '#' :: List.replicate 65536 'x'

/-- A file system whose known_hosts file is that single comment line. -/
def longCommentFS : FS :=
  { files := [("kh".toList, longCommentLine)], locked := [], full := [],
    defaultKnownHosts := "kh".toList, missingDirs := [] }

/-! ## The index invariant -/

/-- Every entry stored in the slot of an address lists that address. -/
def IndexInv (hc : HostCollection) : Prop :=
  ∀ p ∈ hc.Hosts, ∀ e ∈ p.2, p.1 ∈ e.host.Addresses

instance (hc : HostCollection) : Decidable (IndexInv hc) :=
  inferInstanceAs (Decidable (∀ p ∈ hc.Hosts, ∀ e ∈ p.2, p.1 ∈ e.host.Addresses))

/-- One call on the index of a collection. -/
inductive IndexOp where
  | add (host : Option HostRef)
  | remove (address : Str) (index : Int)
  | removeAll (address : Str)
  deriving DecidableEq, Repr

/-- The collection after one call (the error of a removal is dropped). -/
def applyOp (hc : HostCollection) : IndexOp → HostCollection
  | IndexOp.add host => AddHost hc host
  | IndexOp.remove address index => (RemoveHost hc address index).1
  | IndexOp.removeAll address => (RemoveAllHosts hc address).1

/-- The collection after a sequence of calls. -/
def applyOps (hc : HostCollection) (ops : List IndexOp) : HostCollection :=
  ops.foldl applyOp hc

/-! ## Moving entries to another file -/

/-- Go `MoveHostToFile`: the file system, the collection and the error it
leaves. -/
def MoveHostToFile (fs : FS) (hc : HostCollection) (address : Str) (index : Int)
    (targetFile : Str) : FS × HostCollection × Option Err :=
  match mapGet hc.Hosts address with
  | none => (fs, hc, some Err.hostNotFound)
  | some hosts =>
    if index < 0 ∨ index ≥ (hosts.length : Int) then (fs, hc, some Err.hostNotFound)
    else
      match hosts[index.toNat]? with
      | none => (fs, hc, some Err.hostNotFound)
      | some host =>
        match (if osStatNotExist fs targetFile then osCreate fs targetFile
               else Except.ok fs) with
        | Except.error _ => (fs, hc, some Err.failedToCreateTarget)
        | Except.ok fs1 =>
          match osOpenAppend fs1 targetFile with
          | some _ => (fs1, hc, some Err.failedToOpenTarget)
          | none =>
            match osWrite fs1 targetFile (formatKnownHostsLine host.host ++ ['\n']) with
            | Except.error _ => (fs1, hc, some Err.failedToWriteTarget)
            | Except.ok fs2 =>
              let removed := RemoveHost hc address index
              (fs2, removed.1, removed.2)

/-- Go `MoveAllHostsToFile`.  The loop with the set `seen` writes one line for
the first visit of every allocation in the slot. -/
def MoveAllHostsToFile (fs : FS) (hc : HostCollection) (address targetFile : Str) :
    FS × HostCollection × Option Err :=
  match mapGet hc.Hosts address with
  | none => (fs, hc, some Err.hostNotFound)
  | some hosts =>
    if hosts.length = 0 then (fs, hc, some Err.hostNotFound)
    else
      match (if osStatNotExist fs targetFile then osCreate fs targetFile
             else Except.ok fs) with
      | Except.error _ => (fs, hc, some Err.failedToCreateTarget)
      | Except.ok fs1 =>
        match osOpenAppend fs1 targetFile with
        | some _ => (fs1, hc, some Err.failedToOpenTarget)
        | none =>
          let written := osWriteAll fs1 targetFile
            ((firstVisitsFrom [] hosts).map (fun h => formatKnownHostsLine h.host ++ ['\n']))
          if written.2 ≠ none then (written.1, hc, some Err.failedToWriteTarget)
          else (written.1, { hc with Hosts := mapDelete hc.Hosts address }, none)

/-! ## Unstashing -/

/-- Go `StashFilePath`; `stashOf` is `filepath.Join(filepath.Dir(file), "stash_hosts")`
as a function of the file path. -/
def StashFilePath (stashOf : Str → Str) (hc : HostCollection) : Str :=
  if hc.File = [] then [] else stashOf hc.File

/-- The set `existing` of `UnstashAddress`: the non-empty identity keys of the
entries the primary collection holds under the address. -/
def unstashExisting (mainCol : HostCollection) (address : Str) : List Str :=
  match mapGet mainCol.Hosts address with
  | none => []
  | some currentHosts =>
    (currentHosts.map (fun h => stashKey h.host)).filter (fun k => decide (k ≠ []))

/-- The loop `for _, h := range stashHosts` of `UnstashAddress`. -/
def unstashLoop : List HostRef → List Str → HostCollection → HostCollection
  | [], _, mainCol => mainCol
  | h :: rest, existing, mainCol =>
    let k := stashKey h.host
    if k ≠ [] ∧ k ∈ existing then unstashLoop rest existing mainCol
    else
      let existing := if k ≠ [] then k :: existing else existing
      unstashLoop rest existing (AddHost mainCol (some h))

/-- An identity above those of all entries a collection holds: where the next
allocations start. -/
def freshRef (hc : HostCollection) : Nat :=
  ((hc.Hosts.flatMap (fun p => p.2)).map (fun e => e.ref + 1)).foldr max 0

/-- Go `UnstashAddress`: the file system and the error it leaves.  The receiver
is read for its `File` only; the call works on two collections it parses
itself. -/
def UnstashAddress (stashOf : Str → Str) (fs : FS) (hc : HostCollection) (address : Str) :
    FS × Option Err :=
  let stashPath := StashFilePath stashOf hc
  if stashPath = [] then (fs, some Err.stashPathNotAvailable)
  else if osStatNotExist fs stashPath then (fs, some Err.stashFileNotFound)
  else
    match ParseKnownHosts fs 0 hc.File with
    | Except.error _ => (fs, some Err.failedToParseKnownHosts)
    | Except.ok mainCol =>
      match ParseKnownHosts fs (freshRef mainCol) stashPath with
      | Except.error _ => (fs, some Err.failedToParseStash)
      | Except.ok stashCol =>
        let existing := unstashExisting mainCol address
        match mapGet stashCol.Hosts address with
        | none => (fs, some Err.noStashedEntries)
        | some stashHosts =>
          if stashHosts.length = 0 then (fs, some Err.noStashedEntries)
          else
            let mainCol1 := unstashLoop stashHosts existing mainCol
            let stashCol1 := { stashCol with Hosts := mapDelete stashCol.Hosts address }
            let saved := SaveToFile fs mainCol1 mainCol1.File
            if saved.2 ≠ none then (saved.1, some Err.failedToSaveAfterUnstash)
            else
              let saved2 := SaveToFile saved.1 stashCol1 stashCol1.File
              if saved2.2 ≠ none then (saved2.1, some Err.failedToSaveStashAfterUnstash)
              else (saved2.1, none)

/-! ## The delete command -/

/-- Go `deleteHost` of the command line; `envPath` is the value of
`getKnownHostsPath()`. -/
def deleteHost (envPath : Str) (fs : FS) (knownHostsPath host : Str) : FS × Option Err :=
  let knownHostsPath := if knownHostsPath = [] then envPath else knownHostsPath
  match ParseKnownHosts fs 0 knownHostsPath with
  | Except.error _ => (fs, some Err.failedToParseKnownHosts)
  | Except.ok collection =>
    let removed := RemoveAllHosts collection host
    if removed.2 ≠ none then (fs, some Err.failedToDeleteHost)
    else
      let saved := SaveToFile fs removed.1 removed.1.File
      if saved.2 ≠ none then (saved.1, some Err.failedToSaveAfterDelete)
      else (saved.1, none)

/-- The address field of an identity key as the specification words it: the
addresses joined by commas, or the hash value when the address list is empty
and the entry is hashed. -/
def specAddressField (h : Host) : Str :=
  if h.Addresses = [] ∧ h.IsHashed = true then h.HashValue else Join h.Addresses [',']

/-- The documented two-address line as a known_hosts file. -/
def sharedFS : FS :=
  { files := [("kh".toList,
      "example.com,192.168.1.1 ssh-rsa AAAAB3NzaC1yc2EA... comment here\n".toList)],
    locked := [], full := [], defaultKnownHosts := "kh".toList, missingDirs := [] }

/-- An empty known_hosts file `kh` next to a stash file `stash_hosts` that holds
the same key for `a` twice, under two comments. -/
def twinStashFS : FS :=
  { files := [("kh".toList, []),
      ("stash_hosts".toList, "a ssh-rsa K first\na ssh-rsa K second\n".toList)],
    locked := [], full := [], defaultKnownHosts := "kh".toList, missingDirs := [] }

/-! ## Lemmas on the string functions -/

theorem fieldsFrom_clean (s : Str) :
    ∀ cur : Str, (∀ c ∈ cur, isSpace c = false) →
      ∀ f ∈ fieldsFrom s cur, f ≠ [] ∧ ∀ c ∈ f, isSpace c = false := by
  induction s with
  | nil =>
    intro cur hcur f hf
    by_cases h : cur = []
    · simp [fieldsFrom, h] at hf
    · simp [fieldsFrom, h] at hf
      subst hf
      exact ⟨h, hcur⟩
  | cons c cs ih =>
    intro cur hcur f hf
    by_cases hc : isSpace c = true
    · by_cases h : cur = []
      · simp [fieldsFrom, hc, h] at hf
        exact ih [] (by simp) f hf
      · simp [fieldsFrom, hc, h] at hf
        rcases hf with hf | hf
        · subst hf
          exact ⟨h, hcur⟩
        · exact ih [] (by simp) f hf
    · simp [fieldsFrom, hc] at hf
      refine ih (cur ++ [c]) ?_ f hf
      intro d hd
      rcases List.mem_append.1 hd with hd | hd
      · exact hcur d hd
      · simp at hd
        subst hd
        simpa using hc

/-- Every field returned by `Fields` is non-empty and free of white space. -/
theorem Fields_clean (s : Str) (f : Str) (hf : f ∈ Fields s) :
    f ≠ [] ∧ ∀ c ∈ f, isSpace c = false :=
  fieldsFrom_clean s [] (by simp) f hf

theorem mem_intercalate_of_mem {α : Type} (sep : List α) (ls : List (List α))
    (t : List α) (ht : t ∈ ls) (c : α) (hc : c ∈ t) : c ∈ sep.intercalate ls := by
  induction ls with
  | nil => simp at ht
  | cons l ls ih =>
    cases ls with
    | nil =>
      simp at ht
      subst ht
      simpa [List.intercalate, List.intersperse] using hc
    | cons l2 ls2 =>
      have hcons : sep.intercalate (l :: l2 :: ls2) = l ++ sep ++ sep.intercalate (l2 :: ls2) := by
        simp [List.intercalate, List.intersperse]
      rw [hcons]
      rcases List.mem_cons.1 ht with h | h
      · subst h
        simp [hc]
      · simp only [List.mem_append]
        exact Or.inr (ih h)

/-- The characters of a token of `Split s sep` are characters of `s`. -/
theorem mem_of_mem_Split (s : Str) (sep : Char) (t : Str) (ht : t ∈ Split s sep)
    (c : Char) (hc : c ∈ t) : c ∈ s := by
  have h := mem_intercalate_of_mem [sep] (s.splitOn sep) t ht c hc
  rwa [List.intercalate_splitOn] at h

/-- Trimming a string without white space changes nothing. -/
theorem TrimSpace_of_clean (t : Str) (h : ∀ c ∈ t, isSpace c = false) : TrimSpace t = t := by
  have h1 : t.dropWhile isSpace = t := by
    cases t with
    | nil => rfl
    | cons a as => simp [List.dropWhile, h a (by simp)]
  unfold TrimSpace
  rw [h1]
  rw [List.rdropWhile_eq_self_iff]
  intro hne
  have := h (t.getLast hne) (List.getLast_mem hne)
  simp [this]

theorem collectAddresses_eq (raw : List Str) :
    ∀ addrs, collectAddresses raw addrs
      = addrs ++ (raw.map TrimSpace).filter (fun t => decide (t ≠ [])) := by
  induction raw with
  | nil => intro addrs; simp [collectAddresses]
  | cons h rest ih =>
    intro addrs
    by_cases hh : TrimSpace h = []
    · simp [collectAddresses, hh, ih]
    · simp [collectAddresses, hh, ih]


/-- The value of `parseHostLine` on a line with at least three fields and a
surviving address token, field by field. -/
theorem parseHostLine_eq (line : Str) (n : Int) (f0 f1 f2 : Str) (rest : List Str)
    (hparts : Fields line = f0 :: f1 :: f2 :: rest)
    (haddr : collectAddresses (Split f0 ',') [] ≠ []) :
    parseHostLine line n = some
      { Addresses := collectAddresses (Split f0 ',') [],
        KeyType := f1, Key := f2, Comment := Join rest [' '], LineNumber := n,
        IsHashed := HasPrefix ((collectAddresses (Split f0 ',') []).getD 0 []) ['|'],
        HashValue :=
          if HasPrefix ((collectAddresses (Split f0 ',') []).getD 0 []) ['|'] then
            (collectAddresses (Split f0 ',') []).getD 0 []
          else [] } := by
  have hraw : (Split f0 ',').length ≠ 0 := by
    intro h0
    rw [List.length_eq_zero] at h0
    rw [h0] at haddr
    exact haddr rfl
  have hlen : (collectAddresses (Split f0 ',') []).length ≠ 0 := by
    rw [Ne, List.length_eq_zero]
    exact haddr
  have h3 : ¬ (f0 :: f1 :: f2 :: rest).length < 3 := by simp
  unfold parseHostLine
  simp only [hparts, h3, if_false, List.getD_cons_zero, hraw, Host.zero, hlen]
  generalize collectAddresses (Split f0 ',') [] = A
  generalize A.getD 0 [] = first
  by_cases hp : HasPrefix first ['|'] = true
  · cases rest with
    | nil => simp [hp, Join, List.intercalate, List.intersperse]
    | cons r rs => simp [hp, Join]
  · cases rest with
    | nil => simp [hp, Join, List.intercalate, List.intersperse]
    | cons r rs => simp [hp, Join]

/-! ## C1: the fields of a parsed line -/

/-- C1: for a line with at least three white-space separated fields whose first
field has a non-empty comma-separated token, `parseHostLine line n` returns an
entry whose addresses are the trimmed non-empty tokens of field 0 in order
(these are already the non-empty tokens themselves), whose type is field 1,
whose key is field 2, whose comment is fields 3.. joined by single spaces and
whose line number is `n`. -/
theorem parseHostLine_fields (line : Str) (n : Int) (f0 f1 f2 : Str) (rest : List Str)
    (hparts : Fields line = f0 :: f1 :: f2 :: rest)
    (htok : ∃ t ∈ Split f0 ',', t ≠ []) :
    ∃ h : Host, parseHostLine line n = some h ∧
      h.Addresses = ((Split f0 ',').map TrimSpace).filter (fun t => decide (t ≠ [])) ∧
      h.Addresses = (Split f0 ',').filter (fun t => decide (t ≠ [])) ∧
      h.KeyType = f1 ∧ h.Key = f2 ∧ h.Comment = Join rest [' '] ∧ h.LineNumber = n := by
  have hf0 : ∀ c ∈ f0, isSpace c = false :=
    (Fields_clean line f0 (by rw [hparts]; simp)).2
  have htrim : (Split f0 ',').map TrimSpace = Split f0 ',' := by
    conv_rhs => rw [← List.map_id (Split f0 ',')]
    apply List.map_congr_left
    intro t ht
    exact TrimSpace_of_clean t (fun c hc => hf0 c (mem_of_mem_Split f0 ',' t ht c hc))
  obtain ⟨t, ht, htne⟩ := htok
  have hne : (Split f0 ',').filter (fun t => decide (t ≠ [])) ≠ [] := by
    intro h0
    have : t ∈ (Split f0 ',').filter (fun t => decide (t ≠ [])) := by
      simp [List.mem_filter, ht, htne]
    rw [h0] at this
    simp at this
  have hraw : (Split f0 ',').length ≠ 0 := by
    intro h0
    rw [List.length_eq_zero] at h0
    rw [h0] at ht
    simp at ht
  have hlen : ((Split f0 ',').filter (fun t => decide (t ≠ []))).length ≠ 0 := by
    simpa [List.length_eq_zero] using hne
  have haddr : collectAddresses (Split f0 ',') [] ≠ [] := by
    rw [collectAddresses_eq, htrim]
    simpa using hne
  refine ⟨_, parseHostLine_eq line n f0 f1 f2 rest hparts haddr, ?_, ?_, rfl, rfl, rfl, rfl⟩
  · simp [collectAddresses_eq]
  · simp [collectAddresses_eq, htrim]

/-- C1, the documented example line. -/
theorem parseHostLine_fields_witness :
    (∃ t ∈ Split "example.com,192.168.1.1".toList ',', t ≠ []) ∧
    ∃ h : Host,
      parseHostLine "example.com,192.168.1.1 ssh-rsa AAAAB3NzaC1yc2EA... comment here".toList 7
        = some h ∧
      h.Addresses = (("example.com,192.168.1.1".toList.splitOn ',').map TrimSpace).filter
        (fun t => decide (t ≠ [])) ∧
      h.Addresses = ["example.com".toList, "192.168.1.1".toList] ∧
      h.KeyType = "ssh-rsa".toList ∧ h.Key = "AAAAB3NzaC1yc2EA...".toList ∧
      h.Comment = "comment here".toList ∧ h.LineNumber = 7 := by
  have htok : ∃ t ∈ Split "example.com,192.168.1.1".toList ',', t ≠ [] :=
    ⟨"example.com".toList, by decide, by decide⟩
  obtain ⟨h, h1, h2, h3, h4, h5, h6, h7⟩ :=
    parseHostLine_fields
      "example.com,192.168.1.1 ssh-rsa AAAAB3NzaC1yc2EA... comment here".toList 7
      "example.com,192.168.1.1".toList "ssh-rsa".toList "AAAAB3NzaC1yc2EA...".toList
      ["comment".toList, "here".toList] (by decide) htok
  refine ⟨htok, h, h1, h2, ?_, h4, h5, ?_, h7⟩
  · rw [h3]; decide
  · rw [h6]; decide

/-! ## Lemmas on maps and on `AddHost` -/

theorem mapGet_mapSet {V : Type} (m : List (Str × V)) (k a : Str) (v : V) :
    mapGet (mapSet m k v) a = if k = a then some v else mapGet m a := by
  induction m with
  | nil => simp [mapSet, mapGet]
  | cons p rest ih =>
    obtain ⟨k', v'⟩ := p
    by_cases h : k' = k
    · subst h
      by_cases h2 : k' = a <;> simp [mapSet, mapGet, h2]
    · by_cases h2 : k = a
      · subst h2
        simp [mapSet, mapGet, h, ih]
      · by_cases h3 : k' = a
        · subst h3
          simp [mapSet, mapGet, h, h2]
        · simp [mapSet, mapGet, h, h2, h3, ih]

theorem addHostLoop_get (addrs : List Str) (h : HostRef) (a : Str) :
    ∀ m : List (Str × List HostRef),
      (mapGet (addHostLoop addrs h m) a).getD []
        = (mapGet m a).getD [] ++ List.replicate (addrs.count a) h := by
  induction addrs with
  | nil => intro m; simp [addHostLoop]
  | cons x rest ih =>
    intro m
    simp only [addHostLoop]
    rw [ih]
    by_cases hx : x = a
    · subst hx
      by_cases hn : (mapGet m x).isNone = true
      · simp [mapGet_mapSet, hn, List.replicate_succ]
        simp [Option.isNone_iff_eq_none] at hn
        simp [hn]
      · simp [mapGet_mapSet, hn, List.replicate_succ]
    · by_cases hn : (mapGet m x).isNone = true
      · simp [mapGet_mapSet, hn, hx, List.count_cons]
      · simp [mapGet_mapSet, hn, hx, List.count_cons]

/-! ## C2: the slots of a parsed collection -/

/-- How often the slot of `a` receives the entry `e` when it is added. -/
theorem AddHost_get (hc : HostCollection) (e : HostRef) (a : Str) :
    GetHostsByAddress (AddHost hc (some e)) a
      = GetHostsByAddress hc a ++ List.replicate (e.host.Addresses.count a) e := by
  unfold AddHost GetHostsByAddress
  by_cases h : e.host.Addresses.length = 0
  · rw [List.length_eq_zero] at h
    simp [h]
  · simp only [h, if_false]
    exact addHostLoop_get e.host.Addresses e a hc.Hosts

theorem parseLoop_get (a : Str) (lines : List Str) :
    ∀ (k next : Nat) (hc : HostCollection),
      GetHostsByAddress (parseLoop lines (k : Int) next hc) a
        = GetHostsByAddress hc a ++
          ((((lines.enumFrom k).filterMap
              (fun p => parseStep p.2 ((p.1 : Int) + 1))).enumFrom next).map
              (fun p => (⟨p.1, p.2⟩ : HostRef))).flatMap
            (fun e => List.replicate (e.host.Addresses.count a) e) := by
  induction lines with
  | nil => intro k next hc; simp [parseLoop]
  | cons raw rest ih =>
    intro k next hc
    have hk : ((k : Int) + 1) = ((k + 1 : Nat) : Int) := by push_cast; rfl
    simp only [parseLoop, List.enumFrom_cons, List.filterMap_cons]
    cases hstep : parseStep raw ((k : Int) + 1) with
    | none =>
      simp only []
      rw [hk, ih]
    | some h =>
      simp only []
      rw [hk, ih, AddHost_get]
      simp [List.enumFrom_cons, List.flatMap_cons, List.append_assoc]

theorem parseHostLine_lineNumber (line : Str) (n : Int) (h : Host)
    (hp : parseHostLine line n = some h) : h.LineNumber = n := by
  unfold parseHostLine at hp
  simp only [] at hp
  split at hp
  · simp at hp
  · split at hp
    · simp at hp
    · split at hp
      · simp at hp
      · simp only [Option.some.injEq] at hp
        subst hp
        split <;> split <;> split <;> split <;> rfl

theorem parseStep_lineNumber (raw : Str) (n : Int) (h : Host)
    (hp : parseStep raw n = some h) : h.LineNumber = n := by
  unfold parseStep at hp
  simp only [] at hp
  split at hp
  · simp at hp
  · exact parseHostLine_lineNumber _ n h hp

/-- The slot of `a` after parsing: every parsed entry, once per occurrence of
`a` in its address list. -/
theorem parseLines_get (filePath : Str) (base : Nat) (lines : List Str) (a : Str) :
    GetHostsByAddress (parseLines filePath base lines) a
      = (parsedEntries base lines).flatMap
          (fun e => List.replicate (e.host.Addresses.count a) e) := by
  have h := parseLoop_get a lines 0 base (NewHostCollection filePath)
  simpa [parseLines, parsedEntries, parsedHosts, List.enum, GetHostsByAddress,
    NewHostCollection, mapGet] using h

/-- C2 (as amended): the slot of `a` in the parsed collection is the list, in
file order, of the entries parsed from the lines, each repeated once per
occurrence of `a` in its address list; it is empty exactly when no parsed entry
lists `a`; and every entry in it was parsed from some physical line `i`
(0-based) with line number `i + 1`, which it carries. -/
theorem ParseKnownHosts_slot (filePath : Str) (base : Nat) (lines : List Str) (a : Str) :
    GetHostsByAddress (parseLines filePath base lines) a
        = (parsedEntries base lines).flatMap
            (fun e => List.replicate (e.host.Addresses.count a) e) ∧
    (GetHostsByAddress (parseLines filePath base lines) a = [] ↔
        ∀ e ∈ parsedEntries base lines, a ∉ e.host.Addresses) ∧
    (∀ e ∈ GetHostsByAddress (parseLines filePath base lines) a,
        a ∈ e.host.Addresses ∧
        ∃ i : Nat, ∃ raw : Str, lines[i]? = some raw ∧
          parseStep raw ((i : Int) + 1) = some e.host ∧ e.host.LineNumber = (i : Int) + 1) := by
  have hmain := parseLines_get filePath base lines a
  refine ⟨hmain, ?_, ?_⟩
  · rw [hmain]
    simp [List.flatMap_eq_nil_iff, List.count_eq_zero]
  · intro e he
    rw [hmain, List.mem_flatMap] at he
    obtain ⟨e', he', hrep⟩ := he
    obtain ⟨hcnt, rfl⟩ := List.mem_replicate.1 hrep
    refine ⟨List.count_pos_iff.1 (Nat.pos_of_ne_zero hcnt), ?_⟩
    simp only [parsedEntries, parsedHosts, List.mem_map] at he'
    obtain ⟨⟨j, h⟩, hj, rfl⟩ := he'
    have hh : h ∈ lines.enum.filterMap (fun p => parseStep p.2 ((p.1 : Int) + 1)) := by
      have := List.mem_map_of_mem Prod.snd hj
      simpa [List.enumFrom_map_snd] using this
    rw [List.mem_filterMap] at hh
    obtain ⟨⟨i, raw⟩, hmem, hstep⟩ := hh
    refine ⟨i, raw, ?_, hstep, parseStep_lineNumber raw _ h hstep⟩
    simpa [List.mem_enum_iff_getElem?] using hmem

/-- C2 (as stated, refuted): the line `a,a ssh-rsa KEY` puts its entry twice in
the slot of `a`, while the list of the parsed entries that list `a` holds it
once. -/
theorem ParseKnownHosts_slot_not_filter :
    GetHostsByAddress (parseLines [] 0 ["a,a ssh-rsa KEY".toList]) "a".toList
      ≠ (parsedEntries 0 ["a,a ssh-rsa KEY".toList]).filter
          (fun e => decide ("a".toList ∈ e.host.Addresses)) := by
  decide

/-! ## C3, C4: removal -/

theorem mapGet_cons {V : Type} (k' : Str) (v' : V) (m : List (Str × V)) (a : Str) :
    mapGet ((k', v') :: m) a = if k' = a then some v' else mapGet m a := rfl

theorem mapDelete_cons {V : Type} (k' : Str) (v' : V) (m : List (Str × V)) (k : Str) :
    mapDelete ((k', v') :: m) k
      = if k' = k then mapDelete m k else (k', v') :: mapDelete m k := rfl

theorem mapKeys_cons {V : Type} (k : Str) (v : V) (m : List (Str × V)) :
    mapKeys ((k, v) :: m) = k :: mapKeys m := rfl

theorem mapGet_mapDelete {V : Type} (m : List (Str × V)) (k a : Str) :
    mapGet (mapDelete m k) a = if k = a then none else mapGet m a := by
  induction m with
  | nil => simp [mapDelete, mapGet]
  | cons p rest ih =>
    obtain ⟨k', v'⟩ := p
    rw [mapDelete_cons, mapGet_cons]
    by_cases h : k' = k
    · subst h
      rw [if_pos rfl, ih]
      by_cases h2 : k' = a
      · rw [if_pos h2, if_pos h2]
      · rw [if_neg h2, if_neg h2, if_neg h2]
    · rw [if_neg h, mapGet_cons, ih]
      by_cases h3 : k' = a
      · subst h3
        rw [if_pos rfl, if_neg (fun e => h e.symm), if_pos rfl]
      · rw [if_neg h3, if_neg h3]

theorem mapGet_eq_none_iff {V : Type} (m : List (Str × V)) (k : Str) :
    mapGet m k = none ↔ k ∉ mapKeys m := by
  induction m with
  | nil => exact Iff.intro (fun _ h => nomatch h) (fun _ => rfl)
  | cons p rest ih =>
    obtain ⟨k', v'⟩ := p
    rw [mapKeys_cons, List.mem_cons, not_or, mapGet_cons]
    by_cases h : k' = k
    · rw [if_pos h]
      constructor
      · intro h0; exact Option.noConfusion h0
      · intro h0; exact absurd h.symm h0.1
    · rw [if_neg h, ih]
      constructor
      · intro h0; exact ⟨fun e => h e.symm, h0⟩
      · intro h0; exact h0.2

/-- C3: `RemoveAllHosts addrA` returns 'host not found' exactly when `addrA` is
not a key of the index, and then leaves the collection unchanged; when it
succeeds the key `addrA` is gone and, for every other address, the binding and
hence the sequence `GetHostsByAddress` returns are the same as before, so every
entry returned for `addrB` before is still returned. -/
theorem RemoveAllHosts_frame (hc : HostCollection) (addrA : Str) :
    ((RemoveAllHosts hc addrA).2 = some Err.hostNotFound ↔ addrA ∉ mapKeys hc.Hosts) ∧
    ((RemoveAllHosts hc addrA).2 = none ↔ addrA ∈ mapKeys hc.Hosts) ∧
    (addrA ∉ mapKeys hc.Hosts → (RemoveAllHosts hc addrA).1 = hc) ∧
    (addrA ∈ mapKeys hc.Hosts →
      addrA ∉ mapKeys (RemoveAllHosts hc addrA).1.Hosts ∧
      (RemoveAllHosts hc addrA).1.File = hc.File) ∧
    (∀ addrB : Str, addrB ≠ addrA →
      mapGet (RemoveAllHosts hc addrA).1.Hosts addrB = mapGet hc.Hosts addrB ∧
      GetHostsByAddress (RemoveAllHosts hc addrA).1 addrB = GetHostsByAddress hc addrB ∧
      ∀ e ∈ GetHostsByAddress hc addrB, e ∈ GetHostsByAddress (RemoveAllHosts hc addrA).1 addrB) := by
  have hkey := mapGet_eq_none_iff hc.Hosts addrA
  cases hget : mapGet hc.Hosts addrA with
  | none =>
    have hn : addrA ∉ mapKeys hc.Hosts := hkey.1 hget
    simp [RemoveAllHosts, hget, hn]
  | some slot =>
    have hn : addrA ∈ mapKeys hc.Hosts := by
      by_contra h
      rw [hkey.2 h] at hget
      exact Option.noConfusion hget
    have hdel : ∀ addrB : Str, addrB ≠ addrA →
        mapGet (mapDelete hc.Hosts addrA) addrB = mapGet hc.Hosts addrB := by
      intro addrB hB
      rw [mapGet_mapDelete]
      simp [Ne.symm hB]
    refine ⟨?_, ?_, ?_, ?_, ?_⟩
    · simp [RemoveAllHosts, hget, hn]
    · simp [RemoveAllHosts, hget, hn]
    · intro h; exact absurd hn h
    · intro _
      refine ⟨?_, ?_⟩
      · rw [← mapGet_eq_none_iff]
        simp [RemoveAllHosts, hget, mapGet_mapDelete]
      · simp [RemoveAllHosts, hget]
    · intro addrB hB
      have h1 : mapGet (RemoveAllHosts hc addrA).1.Hosts addrB = mapGet hc.Hosts addrB := by
        simp [RemoveAllHosts, hget, hdel addrB hB]
      have h2 : GetHostsByAddress (RemoveAllHosts hc addrA).1 addrB
          = GetHostsByAddress hc addrB := by
        unfold GetHostsByAddress
        rw [h1]
      refine ⟨h1, h2, ?_⟩
      intro e he
      rw [h2]
      exact he

theorem mapGet_isSome_iff {V : Type} (m : List (Str × V)) (k : Str) :
    k ∈ mapKeys m ↔ ∃ v, mapGet m k = some v := by
  constructor
  · intro h
    cases hg : mapGet m k with
    | none => exact absurd h ((mapGet_eq_none_iff m k).1 hg)
    | some v => exact ⟨v, rfl⟩
  · rintro ⟨v, hv⟩
    by_contra h
    rw [(mapGet_eq_none_iff m k).2 h] at hv
    exact Option.noConfusion hv

/-- The value of `RemoveHost` when the address is bound and the index in range. -/
theorem RemoveHost_ok (hc : HostCollection) (addr : Str) (i : Int) (hosts : List HostRef)
    (hget : mapGet hc.Hosts addr = some hosts) (h0 : 0 ≤ i) (h1 : i < (hosts.length : Int)) :
    RemoveHost hc addr i =
      ({ hc with Hosts :=
          if (hosts.eraseIdx i.toNat).length = 0 then
            mapDelete (mapSet hc.Hosts addr (hosts.eraseIdx i.toNat)) addr
          else mapSet hc.Hosts addr (hosts.eraseIdx i.toNat) }, none) := by
  have hcond : ¬ (i < 0 ∨ i ≥ (hosts.length : Int)) := by omega
  have herase : hosts.take i.toNat ++ hosts.drop (i.toNat + 1) = hosts.eraseIdx i.toNat :=
    (List.eraseIdx_eq_take_drop_succ hosts i.toNat).symm
  unfold RemoveHost
  simp only [hget, hcond, if_false, herase, mapGet_mapSet, if_true, Option.getD_some]

/-- C4: `RemoveHost addr i` returns 'host not found' exactly when `addr` is not
a key of the index or `i` is outside `[0, len(index[addr]))`, and then leaves
the collection unchanged; otherwise the slot of `addr` becomes the old slot
with the element at position `i` erased (the others in their order), the key
`addr` stays in the index exactly when that slot is non-empty, and the binding
of every other address is unchanged. -/
theorem RemoveHost_spec (hc : HostCollection) (addr : Str) (i : Int) :
    ((RemoveHost hc addr i).2 = some Err.hostNotFound ↔
      (addr ∉ mapKeys hc.Hosts ∨ i < 0 ∨ ((GetHostsByAddress hc addr).length : Int) ≤ i)) ∧
    ((RemoveHost hc addr i).2 = none ↔
      (addr ∈ mapKeys hc.Hosts ∧ 0 ≤ i ∧ i < ((GetHostsByAddress hc addr).length : Int))) ∧
    ((RemoveHost hc addr i).2 = some Err.hostNotFound → (RemoveHost hc addr i).1 = hc) ∧
    ((RemoveHost hc addr i).2 = none →
      GetHostsByAddress (RemoveHost hc addr i).1 addr
        = (GetHostsByAddress hc addr).eraseIdx i.toNat ∧
      (addr ∈ mapKeys (RemoveHost hc addr i).1.Hosts ↔
        (GetHostsByAddress hc addr).eraseIdx i.toNat ≠ []) ∧
      (RemoveHost hc addr i).1.File = hc.File ∧
      ∀ other : Str, other ≠ addr →
        mapGet (RemoveHost hc addr i).1.Hosts other = mapGet hc.Hosts other) := by
  cases hget : mapGet hc.Hosts addr with
  | none =>
    have hn : addr ∉ mapKeys hc.Hosts := (mapGet_eq_none_iff _ _).1 hget
    simp [RemoveHost, hget, hn]
  | some hosts =>
    have hk : addr ∈ mapKeys hc.Hosts := (mapGet_isSome_iff _ _).2 ⟨hosts, hget⟩
    have hslot : GetHostsByAddress hc addr = hosts := by simp [GetHostsByAddress, hget]
    rw [hslot]
    by_cases hcond : i < 0 ∨ i ≥ (hosts.length : Int)
    · have hval : RemoveHost hc addr i = (hc, some Err.hostNotFound) := by
        unfold RemoveHost
        simp only [hget, hcond, if_true]
      rw [hval]
      refine ⟨?_, ?_, ?_, ?_⟩
      · simp only [true_iff]
        rcases hcond with h | h
        · exact Or.inr (Or.inl h)
        · exact Or.inr (Or.inr h)
      · constructor
        · intro h; exact Option.noConfusion h
        · intro h; omega
      · intro _; rfl
      · intro h; exact Option.noConfusion h
    · have h0 : 0 ≤ i := by omega
      have h1 : i < (hosts.length : Int) := by omega
      rw [RemoveHost_ok hc addr i hosts hget h0 h1]
      refine ⟨?_, ?_, ?_, ?_⟩
      · constructor
        · intro h; exact Option.noConfusion h
        · intro h
          rcases h with h | h | h
          · exact absurd hk h
          · omega
          · omega
      · simp [hk, h0, h1]
      · intro h; exact Option.noConfusion h
      · intro _
        by_cases hlen : (hosts.eraseIdx i.toNat).length = 0
        · have hnil : hosts.eraseIdx i.toNat = [] := List.length_eq_zero.1 hlen
          refine ⟨?_, ?_, rfl, ?_⟩
          · simp only [GetHostsByAddress, if_pos hlen, mapGet_mapDelete, if_true,
              Option.getD_none]
            exact hnil.symm
          · simp only [if_pos hlen]
            have hgone : addr ∉ mapKeys
                (mapDelete (mapSet hc.Hosts addr (hosts.eraseIdx i.toNat)) addr) := by
              rw [← mapGet_eq_none_iff, mapGet_mapDelete, if_pos rfl]
            constructor
            · intro h; exact absurd h hgone
            · intro h; exact absurd hnil h
          · intro other ho
            simp only [hlen, if_true, mapGet_mapDelete, mapGet_mapSet, if_neg (Ne.symm ho)]
        · have hnn : hosts.eraseIdx i.toNat ≠ [] := fun e => hlen (by rw [e]; rfl)
          refine ⟨?_, ?_, rfl, ?_⟩
          · simp only [GetHostsByAddress, hlen, if_false, mapGet_mapSet, if_true,
              Option.getD_some]
          · simp only [hlen, if_false, ne_eq, hnn, not_false_eq_true, iff_true]
            exact (mapGet_isSome_iff _ _).2 ⟨_, by rw [mapGet_mapSet, if_pos rfl]⟩
          · intro other ho
            simp only [hlen, if_false, mapGet_mapSet, if_neg (Ne.symm ho)]

/-! ## C5: what `SaveToFile` writes -/

theorem firstVisitsFrom_congr (l : List HostRef) :
    ∀ w w' : List Nat, (∀ x, x ∈ w ↔ x ∈ w') → firstVisitsFrom w l = firstVisitsFrom w' l := by
  induction l with
  | nil => intro w w' _; rfl
  | cons h rest ih =>
    intro w w' hw
    by_cases hm : h.ref ∈ w
    · have hm' : h.ref ∈ w' := (hw _).1 hm
      simp only [firstVisitsFrom, hm, hm', if_true]
      exact ih w w' hw
    · have hm' : h.ref ∉ w' := fun h' => hm ((hw _).2 h')
      simp only [firstVisitsFrom, hm, hm', if_false]
      rw [ih (h.ref :: w) (h.ref :: w')]
      intro x
      simp only [List.mem_cons, hw x]

theorem firstVisitsFrom_filter (r : Nat) (l : List HostRef) :
    ∀ w : List Nat,
      firstVisitsFrom w (l.filter (fun g => decide (g.ref ≠ r))) = firstVisitsFrom (r :: w) l := by
  induction l with
  | nil => intro w; rfl
  | cons h rest ih =>
    intro w
    by_cases hr : h.ref = r
    · have hf : (h :: rest).filter (fun g => decide (g.ref ≠ r))
          = rest.filter (fun g => decide (g.ref ≠ r)) := by
        simp [List.filter_cons, hr]
      have hm : h.ref ∈ r :: w := by simp [hr]
      rw [hf, ih]
      simp only [firstVisitsFrom, hm, if_true]
    · have hf : (h :: rest).filter (fun g => decide (g.ref ≠ r))
          = h :: rest.filter (fun g => decide (g.ref ≠ r)) := by
        simp [List.filter_cons, hr]
      rw [hf]
      by_cases hm : h.ref ∈ w
      · have hm' : h.ref ∈ r :: w := List.mem_cons_of_mem _ hm
        simp only [firstVisitsFrom, hm, hm', if_true]
        exact ih w
      · have hm' : h.ref ∉ r :: w := by
          intro h'
          rcases List.mem_cons.1 h' with h' | h'
          · exact hr h'
          · exact hm h'
        simp only [firstVisitsFrom, hm, hm', if_false]
        rw [ih (h.ref :: w)]
        congr 1
        apply firstVisitsFrom_congr
        intro x
        simp only [List.mem_cons]
        tauto

/-- The defining equation of "first visits": the head is kept, and every later
occurrence of its identity is dropped. -/
theorem firstVisits_cons (h : HostRef) (rest : List HostRef) :
    firstVisits (h :: rest)
      = h :: firstVisits (rest.filter (fun g => decide (g.ref ≠ h.ref))) := by
  unfold firstVisits
  rw [firstVisitsFrom_filter]
  simp [firstVisitsFrom]

theorem firstVisitsFrom_append (s1 s2 : List HostRef) :
    ∀ w : List Nat,
      firstVisitsFrom w (s1 ++ s2)
        = firstVisitsFrom w s1
          ++ firstVisitsFrom (((firstVisitsFrom w s1).map HostRef.ref).reverse ++ w) s2 := by
  induction s1 with
  | nil => intro w; simp [firstVisitsFrom]
  | cons h rest ih =>
    intro w
    by_cases hm : h.ref ∈ w
    · have e1 : firstVisitsFrom w (h :: (rest ++ s2)) = firstVisitsFrom w (rest ++ s2) := by
        simp only [firstVisitsFrom, hm, if_true]
      have e2 : firstVisitsFrom w (h :: rest) = firstVisitsFrom w rest := by
        simp only [firstVisitsFrom, hm, if_true]
      rw [List.cons_append, e1, e2]
      exact ih w
    · have e1 : firstVisitsFrom w (h :: (rest ++ s2))
          = h :: firstVisitsFrom (h.ref :: w) (rest ++ s2) := by
        simp only [firstVisitsFrom, hm, if_false]
      have e2 : firstVisitsFrom w (h :: rest) = h :: firstVisitsFrom (h.ref :: w) rest := by
        simp only [firstVisitsFrom, hm, if_false]
      rw [List.cons_append, e1, e2, ih (h.ref :: w)]
      simp

theorem saveSlot_eq (slot : List HostRef) :
    ∀ (w : List Nat) (out : Str),
      saveSlot slot (w, out)
        = (((firstVisitsFrom w slot).map HostRef.ref).reverse ++ w,
            out ++ linesOf (firstVisitsFrom w slot)) := by
  induction slot with
  | nil => intro w out; simp [saveSlot, firstVisitsFrom, linesOf]
  | cons h rest ih =>
    intro w out
    by_cases hm : h.ref ∈ w
    · simp only [saveSlot, firstVisitsFrom, hm, if_true]
      exact ih w out
    · simp only [saveSlot, firstVisitsFrom, hm, if_false]
      rw [ih]
      simp [linesOf, List.flatMap_cons]

theorem saveAddrs_eq (m : List (Str × List HostRef)) (addrs : List Str) :
    ∀ (w : List Nat) (out : Str),
      saveAddrs m addrs (w, out)
        = (((firstVisitsFrom w (visits m addrs)).map HostRef.ref).reverse ++ w,
            out ++ linesOf (firstVisitsFrom w (visits m addrs))) := by
  induction addrs with
  | nil => intro w out; simp [saveAddrs, visits, firstVisitsFrom, linesOf]
  | cons a rest ih =>
    intro w out
    have hv : visits m (a :: rest) = (mapGet m a).getD [] ++ visits m rest := by
      simp [visits, List.flatMap_cons]
    simp only [saveAddrs]
    rw [saveSlot_eq, ih, hv, firstVisitsFrom_append]
    simp [linesOf, List.flatMap_append]

/-- The text `SaveToFile` writes: the header, then one line per distinct entry. -/
theorem saveContent_eq (hc : HostCollection) :
    saveContent hc = saveHeader ++ linesOf (distinctEntries hc) := by
  unfold saveContent distinctEntries firstVisits
  rw [saveAddrs_eq]

/-! ## The order of `sort.Strings` -/

theorem char_eq_of_toNat_eq (a b : Char) (h : a.toNat = b.toNat) : a = b := by
  apply Char.ext
  apply UInt32.ext
  exact h

theorem strLe_total (a : Str) : ∀ b : Str, strLe a b = true ∨ strLe b a = true := by
  induction a with
  | nil => intro b; left; simp [strLe]
  | cons x xs ih =>
    intro b
    cases b with
    | nil => right; simp [strLe]
    | cons y ys =>
      simp only [strLe, Bool.or_eq_true, Bool.and_eq_true, decide_eq_true_eq]
      rcases Nat.lt_trichotomy x.toNat y.toNat with h | h | h
      · exact Or.inl (Or.inl h)
      · rcases ih ys with h2 | h2
        · exact Or.inl (Or.inr ⟨h, h2⟩)
        · exact Or.inr (Or.inr ⟨h.symm, h2⟩)
      · exact Or.inr (Or.inl h)

theorem strLe_trans (a : Str) :
    ∀ b c : Str, strLe a b = true → strLe b c = true → strLe a c = true := by
  induction a with
  | nil => intro b c _ _; simp [strLe]
  | cons x xs ih =>
    intro b c hab hbc
    cases b with
    | nil => simp [strLe] at hab
    | cons y ys =>
      cases c with
      | nil => simp [strLe] at hbc
      | cons z zs =>
        simp only [strLe, Bool.or_eq_true, Bool.and_eq_true, decide_eq_true_eq] at hab hbc ⊢
        rcases hab with h1 | ⟨h1, h1'⟩
        · rcases hbc with h2 | ⟨h2, _⟩
          · exact Or.inl (by omega)
          · exact Or.inl (by omega)
        · rcases hbc with h2 | ⟨h2, h2'⟩
          · exact Or.inl (by omega)
          · exact Or.inr ⟨by omega, ih ys zs h1' h2'⟩

theorem strLe_antisymm (a : Str) :
    ∀ b : Str, strLe a b = true → strLe b a = true → a = b := by
  induction a with
  | nil =>
    intro b _ hba
    cases b with
    | nil => rfl
    | cons y ys => simp [strLe] at hba
  | cons x xs ih =>
    intro b hab hba
    cases b with
    | nil => simp [strLe] at hab
    | cons y ys =>
      simp only [strLe, Bool.or_eq_true, Bool.and_eq_true, decide_eq_true_eq] at hab hba
      rcases hab with h1 | ⟨h1, h1'⟩
      · rcases hba with h2 | ⟨h2, _⟩ <;> omega
      · rcases hba with h2 | ⟨_, h2'⟩
        · omega
        · rw [char_eq_of_toNat_eq x y h1, ih ys h1' h2']

instance : IsTotal Str StrLE := ⟨fun a b => strLe_total a b⟩

instance : IsTrans Str StrLE := ⟨fun a b c => strLe_trans a b c⟩

instance : IsAntisymm Str StrLE := ⟨fun a b => strLe_antisymm a b⟩

/-- The result of `sort.Strings` is sorted and has the same elements. -/
theorem sortStrings_sorted (l : List Str) :
    (sortStrings l).Sorted StrLE ∧ (sortStrings l).Perm l :=
  ⟨List.sorted_insertionSort StrLE l, List.perm_insertionSort StrLE l⟩

/-- The result of `sort.Strings` depends on the elements only, not their order. -/
theorem sortStrings_perm (l l' : List Str) (h : l.Perm l') : sortStrings l = sortStrings l' :=
  List.eq_of_perm_of_sorted
    (((List.perm_insertionSort StrLE l).trans h).trans (List.perm_insertionSort StrLE l').symm)
    (List.sorted_insertionSort StrLE l) (List.sorted_insertionSort StrLE l')

/-! ## Properties of first visits -/

theorem firstVisitsFrom_sublist (l : List HostRef) :
    ∀ w : List Nat, (firstVisitsFrom w l).Sublist l := by
  induction l with
  | nil => intro w; simp [firstVisitsFrom]
  | cons h rest ih =>
    intro w
    by_cases hm : h.ref ∈ w
    · simp only [firstVisitsFrom, hm, if_true]
      exact (ih w).cons h
    · simp only [firstVisitsFrom, hm, if_false]
      exact (ih _).cons₂ h

theorem firstVisitsFrom_not_seen (l : List HostRef) :
    ∀ w : List Nat, ∀ g ∈ firstVisitsFrom w l, g.ref ∉ w := by
  induction l with
  | nil => intro w g hg; simp [firstVisitsFrom] at hg
  | cons h rest ih =>
    intro w g hg
    by_cases hm : h.ref ∈ w
    · simp only [firstVisitsFrom, hm, if_true] at hg
      exact ih w g hg
    · simp only [firstVisitsFrom, hm, if_false, List.mem_cons] at hg
      rcases hg with hg | hg
      · rw [hg]; exact hm
      · exact fun h' => ih _ g hg (List.mem_cons_of_mem _ h')

theorem firstVisitsFrom_nodup (l : List HostRef) :
    ∀ w : List Nat, ((firstVisitsFrom w l).map HostRef.ref).Nodup := by
  induction l with
  | nil => intro w; simp [firstVisitsFrom]
  | cons h rest ih =>
    intro w
    by_cases hm : h.ref ∈ w
    · simp only [firstVisitsFrom, hm, if_true]
      exact ih w
    · simp only [firstVisitsFrom, hm, if_false, List.map_cons, List.nodup_cons]
      refine ⟨?_, ih _⟩
      intro hmem
      obtain ⟨g, hg, hgr⟩ := List.mem_map.1 hmem
      exact firstVisitsFrom_not_seen rest (h.ref :: w) g hg (by simp [hgr])

theorem firstVisitsFrom_cover (l : List HostRef) :
    ∀ w : List Nat, ∀ h ∈ l, h.ref ∈ w ∨ ∃ g ∈ firstVisitsFrom w l, g.ref = h.ref := by
  induction l with
  | nil => intro w h hh; simp at hh
  | cons x rest ih =>
    intro w h hh
    by_cases hm : x.ref ∈ w
    · simp only [firstVisitsFrom, hm, if_true]
      rcases List.mem_cons.1 hh with e | e
      · left; rw [e]; exact hm
      · exact ih w h e
    · simp only [firstVisitsFrom, hm, if_false]
      rcases List.mem_cons.1 hh with e | e
      · right; exact ⟨x, by simp, by rw [e]⟩
      · rcases ih (x.ref :: w) h e with h1 | ⟨g, hg, hgr⟩
        · rcases List.mem_cons.1 h1 with h2 | h2
          · right; exact ⟨x, by simp, h2.symm⟩
          · left; exact h2
        · right; exact ⟨g, List.mem_cons_of_mem _ hg, hgr⟩

/-! ## The file system operations -/

theorem backup_ne (p : Str) : p ++ ".backup".toList ≠ p := by
  intro h
  have := congrArg List.length h
  simp at this

/-- A suffix without `/` stays in the directory of the path it extends. -/
theorem dirPart_append (p s : Str) (hs : ∀ c ∈ s, c ≠ '/') : dirPart (p ++ s) = dirPart p := by
  induction s using List.reverseRecOn with
  | nil => rw [List.append_nil]
  | append_singleton t a ih =>
    have ha : a ≠ '/' := hs a (by simp)
    have ht : ∀ c ∈ t, c ≠ '/' := fun c hc => hs c (by simp [hc])
    rw [← ih ht]
    unfold dirPart
    rw [← List.append_assoc]
    exact List.rdropWhile_concat_pos _ _ _ (by simpa using ha)

/-- The backup lies in the directory of the file it copies. -/
theorem noEntry_backup (fs : FS) (p : Str) (h : noEntry fs (p ++ ".backup".toList)) :
    noEntry fs p := by
  rcases h with h | h
  · exact absurd (congrArg List.length h) (by simp)
  · right
    rw [← dirPart_append p ".backup".toList (by decide)]
    exact h

theorem osOpen_ok (fs : FS) (p content : Str) (h : osOpen fs p = Except.ok content) :
    p ∉ fs.locked ∧ ¬ noEntry fs p ∧ mapGet fs.files p = some content := by
  unfold osOpen at h
  by_cases hl : p ∈ fs.locked
  · simp [hl] at h
  · by_cases hn : noEntry fs p
    · simp [hl, hn] at h
    · simp only [hl, hn, if_false] at h
      cases hg : mapGet fs.files p with
      | none => simp [hg] at h
      | some c =>
        simp only [hg, Except.ok.injEq] at h
        exact ⟨hl, hn, by rw [h]⟩

theorem osOpen_eq (fs : FS) (p content : Str) (hl : p ∉ fs.locked) (hn : ¬ noEntry fs p)
    (hg : mapGet fs.files p = some content) : osOpen fs p = Except.ok content := by
  unfold osOpen
  simp only [hl, hn, if_false, hg]

/-- When opening reports that nothing exists at the path, the path is empty or
leads into a missing directory, or its directory holds no such file. -/
theorem osOpen_notExist (fs : FS) (p : Str) (h : osOpen fs p = Except.error OsErr.notExist) :
    p ∉ fs.locked ∧ (noEntry fs p ∨ mapGet fs.files p = none) := by
  unfold osOpen at h
  by_cases hl : p ∈ fs.locked
  · simp [hl] at h
  · refine ⟨hl, ?_⟩
    by_cases hn : noEntry fs p
    · exact Or.inl hn
    · right
      simp only [hl, hn, if_false] at h
      cases hg : mapGet fs.files p with
      | none => rfl
      | some c => simp [hg] at h

theorem osCreate_ok (fs fs1 : FS) (p : Str) (h : osCreate fs p = Except.ok fs1) :
    p ∉ fs.locked ∧ fs1 = { fs with files := mapSet fs.files p [] } := by
  unfold osCreate at h
  by_cases hl : p ∈ fs.locked
  · simp [hl] at h
  · by_cases hn : noEntry fs p
    · simp [hl, hn] at h
    · simp only [hl, hn, if_false, Except.ok.injEq] at h
      exact ⟨hl, h.symm⟩

/-- A file is created only in a directory that exists. -/
theorem osCreate_entry (fs fs1 : FS) (p : Str) (h : osCreate fs p = Except.ok fs1) :
    ¬ noEntry fs p := by
  intro hn
  unfold osCreate at h
  by_cases hl : p ∈ fs.locked
  · simp [hl] at h
  · simp [hl, hn] at h

theorem osCreate_eq (fs : FS) (p : Str) (hl : p ∉ fs.locked) (hn : ¬ noEntry fs p) :
    osCreate fs p = Except.ok { fs with files := mapSet fs.files p [] } := by
  unfold osCreate
  simp only [hl, hn, if_false]

/-- Nothing is created at the empty path or in a missing directory. -/
theorem osCreate_noEntry (fs : FS) (p : Str) (hl : p ∉ fs.locked) (hn : noEntry fs p) :
    osCreate fs p = Except.error OsErr.notExist := by
  unfold osCreate
  simp only [hl, hn, if_false, if_true]

/-- The error of a failed creation. -/
theorem osCreate_error (fs : FS) (p : Str) (e : OsErr) (h : osCreate fs p = Except.error e) :
    (p ∈ fs.locked ∧ e = OsErr.permission) ∨
    (p ∉ fs.locked ∧ noEntry fs p ∧ e = OsErr.notExist) := by
  unfold osCreate at h
  by_cases hl : p ∈ fs.locked
  · simp only [hl, if_true, Except.error.injEq] at h
    exact Or.inl ⟨hl, h.symm⟩
  · by_cases hn : noEntry fs p
    · simp only [hl, hn, if_false, if_true, Except.error.injEq] at h
      exact Or.inr ⟨hl, hn, h.symm⟩
    · simp [hl, hn] at h

theorem osWrite_ok (fs fs1 : FS) (p data : Str) (h : osWrite fs p data = Except.ok fs1) :
    (data = [] ∧ fs1 = fs) ∨
    (data ≠ [] ∧ p ∉ fs.full ∧
      fs1 = { fs with files := mapSet fs.files p ((mapGet fs.files p).getD [] ++ data) }) := by
  unfold osWrite at h
  by_cases hd : data = []
  · simp only [hd, if_true, Except.ok.injEq] at h
    exact Or.inl ⟨hd, h.symm⟩
  · by_cases hf : p ∈ fs.full
    · simp [hd, hf] at h
    · simp only [hd, hf, if_false, Except.ok.injEq] at h
      exact Or.inr ⟨hd, hf, h.symm⟩

/-- A successful write leaves the failing paths alone, appends to the file
written and changes no other file. -/
theorem osWrite_frame (fs fs1 : FS) (p data : Str) (h : osWrite fs p data = Except.ok fs1) :
    fs1.locked = fs.locked ∧ fs1.full = fs.full ∧
    fs1.defaultKnownHosts = fs.defaultKnownHosts ∧
    (∀ old, mapGet fs.files p = some old → mapGet fs1.files p = some (old ++ data)) ∧
    (∀ q, q ≠ p → mapGet fs1.files q = mapGet fs.files q) := by
  rcases osWrite_ok fs fs1 p data h with ⟨hd, rfl⟩ | ⟨_, _, rfl⟩
  · refine ⟨rfl, rfl, rfl, ?_, fun _ _ => rfl⟩
    intro old ho
    rw [ho, hd, List.append_nil]
  · refine ⟨rfl, rfl, rfl, ?_, ?_⟩
    · intro old ho
      simp only [mapGet_mapSet, if_true, ho, Option.getD_some]
    · intro q hq
      simp only [mapGet_mapSet, if_neg (Ne.symm hq)]

/-- The outcome of a successful `CopyFile` to a destination other than the source. -/
theorem CopyFile_ok (fs fs1 : FS) (src dst : Str) (hne : dst ≠ src)
    (h : CopyFile fs src dst = (fs1, none)) :
    ∃ old, mapGet fs.files src = some old ∧ src ∉ fs.locked ∧
      mapGet fs1.files dst = some old ∧
      fs1.locked = fs.locked ∧ fs1.full = fs.full ∧
      fs1.defaultKnownHosts = fs.defaultKnownHosts ∧
      ∀ q, q ≠ dst → mapGet fs1.files q = mapGet fs.files q := by
  unfold CopyFile at h
  cases ho : osOpen fs src with
  | error e => simp [ho] at h
  | ok content =>
    have hsrc : src ∉ fs.locked ∧ mapGet fs.files src = some content :=
      ⟨(osOpen_ok fs src content ho).1, (osOpen_ok fs src content ho).2.2⟩
    cases hc : osCreate fs dst with
    | error e => simp [ho, hc] at h
    | ok fsa =>
      obtain ⟨_, rfl⟩ := osCreate_ok fs fsa dst hc
      simp only [ho, hc] at h
      have hread : mapGet (mapSet fs.files dst []) src = some content := by
        rw [mapGet_mapSet, if_neg hne]
        exact hsrc.2
      simp only [hread, Option.getD_some] at h
      cases hw : osWrite { fs with files := mapSet fs.files dst [] } dst content with
      | error e => simp [hw] at h
      | ok fsb =>
        simp only [hw, Prod.mk.injEq, and_true] at h
        subst h
        obtain ⟨h1, h2, h3, h4, h5⟩ := osWrite_frame _ _ _ _ hw
        refine ⟨content, hsrc.2, hsrc.1, ?_, h1, h2, h3, ?_⟩
        · have := h4 [] (by simp only [mapGet_mapSet, if_true])
          simpa using this
        · intro q hq
          rw [h5 q hq]
          simp only [mapGet_mapSet, if_neg (Ne.symm hq)]

/-- When `CopyFile` reports "not exist" nothing was touched: either the source
was not found, or the destination could not be created. -/
theorem CopyFile_notExist (fs fs1 : FS) (src dst : Str)
    (h : CopyFile fs src dst = (fs1, some OsErr.notExist)) :
    fs1 = fs ∧
    (osOpen fs src = Except.error OsErr.notExist ∨
      ((∃ content, osOpen fs src = Except.ok content) ∧ noEntry fs dst)) := by
  unfold CopyFile at h
  cases ho : osOpen fs src with
  | error e =>
    simp only [ho, Prod.mk.injEq, Option.some.injEq] at h
    obtain ⟨h1, h2⟩ := h
    subst h2
    exact ⟨h1.symm, Or.inl rfl⟩
  | ok content =>
    simp only [ho] at h
    cases hc : osCreate fs dst with
    | error e =>
      simp only [hc, Prod.mk.injEq, Option.some.injEq] at h
      rcases osCreate_error fs dst e hc with ⟨_, he⟩ | ⟨_, hn, _⟩
      · rw [he] at h
        exact OsErr.noConfusion h.2
      · exact ⟨h.1.symm, Or.inr ⟨⟨content, rfl⟩, hn⟩⟩
    | ok fsa =>
      exfalso
      simp only [hc] at h
      cases hw : osWrite fsa dst ((mapGet fsa.files src).getD []) with
      | error e =>
        simp only [hw, Prod.mk.injEq, Option.some.injEq] at h
        unfold osWrite at hw
        by_cases hd : (mapGet fsa.files src).getD [] = []
        · simp [hd] at hw
        · by_cases hf : dst ∈ fsa.full
          · simp only [hd, hf, if_true, if_false, Except.error.injEq] at hw
            rw [← hw] at h
            exact OsErr.noConfusion h.2
          · simp [hd, hf] at hw
      | ok fsb => simp [hw] at h

/-- When the backup step reports "not exist" it is the file itself that was not
found: the backup lies in the same directory. -/
theorem CopyFile_backup_notExist (fs fs1 : FS) (p : Str)
    (h : CopyFile fs p (p ++ ".backup".toList) = (fs1, some OsErr.notExist)) :
    fs1 = fs ∧ osOpen fs p = Except.error OsErr.notExist := by
  obtain ⟨h1, h2⟩ := CopyFile_notExist fs fs1 p _ h
  refine ⟨h1, ?_⟩
  rcases h2 with h2 | ⟨⟨content, ho⟩, hn⟩
  · exact h2
  · exact absurd (noEntry_backup fs p hn) (osOpen_ok fs p content ho).2.1

theorem saveContent_ne_nil (hc : HostCollection) : saveContent hc ≠ [] := by
  rw [saveContent_eq]
  simp [saveHeader]

/-- The state after the backup step of a `SaveToFile` that goes on. -/
theorem SaveToFile_steps (fs : FS) (hc : HostCollection) (p : Str) (fsc : FS)
    (r : Option OsErr) (hcopy : CopyFile fs p (p ++ ".backup".toList) = (fsc, r))
    (hr : r = none ∨ r = some OsErr.notExist) :
    SaveToFile fs hc p =
      match osCreate fsc p with
      | Except.error _ => (fsc, some Err.failedToCreateFile)
      | Except.ok fs2 =>
        match osWrite fs2 p (saveContent hc) with
        | Except.error _ => (fs2, some Err.failedToWrite)
        | Except.ok fs3 => (fs3, none) := by
  unfold SaveToFile
  simp only [hcopy]
  rcases hr with rfl | rfl
  · simp
  · simp

/-- What a successful `SaveToFile` did to the file system. -/
theorem SaveToFile_ok (fs fs' : FS) (hc : HostCollection) (p : Str)
    (h : SaveToFile fs hc p = (fs', none)) :
    p ∉ fs.locked ∧ p ∉ fs.full ∧
    mapGet fs'.files p = some (saveContent hc) ∧
    (∀ old, mapGet fs.files p = some old →
      mapGet fs'.files (p ++ ".backup".toList) = some old) ∧
    (mapGet fs.files p = none →
      mapGet fs'.files (p ++ ".backup".toList) = mapGet fs.files (p ++ ".backup".toList)) ∧
    fs'.locked = fs.locked ∧ fs'.full = fs.full ∧
    fs'.defaultKnownHosts = fs.defaultKnownHosts ∧
    (∀ q, q ≠ p → q ≠ p ++ ".backup".toList → mapGet fs'.files q = mapGet fs.files q) := by
  cases hcopy : CopyFile fs p (p ++ ".backup".toList) with
  | mk fsc r =>
    have hr : r = none ∨ r = some OsErr.notExist := by
      by_contra hcon
      rw [not_or] at hcon
      unfold SaveToFile at h
      simp only [hcopy, ne_eq, hcon.1, hcon.2, not_false_eq_true, and_self, if_true,
        Prod.mk.injEq] at h
      exact Option.noConfusion h.2
    rw [SaveToFile_steps fs hc p fsc r hcopy hr] at h
    cases hcr : osCreate fsc p with
    | error e => simp [hcr] at h
    | ok fs2 =>
      obtain ⟨hl2, rfl⟩ := osCreate_ok fsc fs2 p hcr
      simp only [hcr] at h
      cases hw : osWrite { fsc with files := mapSet fsc.files p [] } p (saveContent hc) with
      | error e => simp [hw] at h
      | ok fs3 =>
        simp only [hw, Prod.mk.injEq, and_true] at h
        subst h
        have hfull : p ∉ fsc.full := by
          rcases osWrite_ok _ _ _ _ hw with ⟨hd, _⟩ | ⟨_, hf, _⟩
          · exact absurd hd (saveContent_ne_nil hc)
          · exact hf
        obtain ⟨w1, w2, w3, w4, w5⟩ := osWrite_frame _ _ _ _ hw
        have hp : mapGet fs3.files p = some (saveContent hc) := by
          have := w4 [] (by simp only [mapGet_mapSet, if_true])
          simpa using this
        have hq : ∀ q, q ≠ p → mapGet fs3.files q = mapGet fsc.files q := by
          intro q hq
          rw [w5 q hq]
          simp only [mapGet_mapSet, if_neg (Ne.symm hq)]
        rcases hr with rfl | rfl
        · obtain ⟨old, c1, _, c3, c4, c5, c6, c7⟩ :=
            CopyFile_ok fs fsc p _ (backup_ne p) hcopy
          refine ⟨c4 ▸ hl2, c5 ▸ hfull, hp, ?_, ?_, ?_, ?_, ?_, ?_⟩
          · intro old' ho
            rw [hq _ (backup_ne p), c3, ← ho, c1]
          · intro hn
            rw [c1] at hn
            exact Option.noConfusion hn
          · rw [w1]; exact c4
          · rw [w2]; exact c5
          · rw [w3]; exact c6
          · intro q h1 h2
            rw [hq q h1, c7 q h2]
        · obtain ⟨rfl, c0⟩ := CopyFile_backup_notExist fs fsc p hcopy
          have c1 : mapGet fsc.files p = none :=
            (osOpen_notExist fsc p c0).2.resolve_left (osCreate_entry fsc _ p hcr)
          refine ⟨hl2, hfull, hp, ?_, ?_, w1, w2, w3, ?_⟩
          · intro old ho
            rw [c1] at ho
            exact Option.noConfusion ho
          · intro _
            exact hq _ (backup_ne p)
          · intro q h1 _
            exact hq q h1

/-- The line format, spelled out. -/
theorem formatKnownHostsLine_eq (h : Host) :
    formatKnownHostsLine h
      = Join h.Addresses [','] ++ [' '] ++ h.KeyType ++ [' '] ++ h.Key
        ++ (if h.Comment = [] then [] else [' '] ++ h.Comment) := by
  unfold formatKnownHostsLine
  by_cases ha : h.Addresses = []
  · by_cases hcm : h.Comment = []
    · simp [ha, hcm, Join, List.intercalate, List.intersperse]
    · simp [ha, hcm, Join, List.intercalate, List.intersperse]
  · have hl : h.Addresses.length > 0 := List.length_pos.2 ha
    by_cases hcm : h.Comment = []
    · simp [hl, hcm]
    · simp [hl, hcm]

/-- C5: after a successful `SaveToFile` the file holds the header text (the two
comment lines and the blank line that closes the block) followed by exactly one
line per distinct entry and nothing else.  The entries are visited by address
key in sorted order and in slot order within a key; an entry met again (under
another key or in the same slot) is not written again; a line is the addresses
joined by commas, the key type and the key separated by single spaces, followed
by a space and the comment exactly when the comment is not empty. -/
theorem SaveToFile_content (fs fs' : FS) (hc : HostCollection) (p : Str)
    (h : SaveToFile fs hc p = (fs', none)) :
    mapGet fs'.files p
      = some (saveHeader ++
          (distinctEntries hc).flatMap (fun e => formatKnownHostsLine e.host ++ ['\n'])) ∧
    saveHeader
      = "# SSH Known Hosts File\n# Managed by ssh-knownhosts-manager\n\n".toList ∧
    distinctEntries hc = firstVisits (visits hc.Hosts (sortStrings (mapKeys hc.Hosts))) ∧
    ((sortStrings (mapKeys hc.Hosts)).Sorted StrLE ∧
      (sortStrings (mapKeys hc.Hosts)).Perm (mapKeys hc.Hosts)) ∧
    ((distinctEntries hc).map HostRef.ref).Nodup ∧
    (distinctEntries hc).Sublist (visits hc.Hosts (sortStrings (mapKeys hc.Hosts))) ∧
    (∀ addr slot, mapGet hc.Hosts addr = some slot →
      ∀ e ∈ slot, ∃ g ∈ distinctEntries hc, g.ref = e.ref) ∧
    (∀ e : HostRef, formatKnownHostsLine e.host
      = Join e.host.Addresses [','] ++ [' '] ++ e.host.KeyType ++ [' '] ++ e.host.Key
        ++ (if e.host.Comment = [] then [] else [' '] ++ e.host.Comment)) := by
  obtain ⟨_, _, hp, _⟩ := SaveToFile_ok fs fs' hc p h
  refine ⟨?_, by decide, rfl, sortStrings_sorted _, firstVisitsFrom_nodup _ _,
    firstVisitsFrom_sublist _ _, ?_, fun e => formatKnownHostsLine_eq e.host⟩
  · rw [hp, saveContent_eq]
    rfl
  · intro addr slot hslot e he
    have haddr : addr ∈ sortStrings (mapKeys hc.Hosts) :=
      (sortStrings_sorted _).2.mem_iff.2 ((mapGet_isSome_iff _ _).2 ⟨slot, hslot⟩)
    have hv : e ∈ visits hc.Hosts (sortStrings (mapKeys hc.Hosts)) := by
      unfold visits
      rw [List.mem_flatMap]
      exact ⟨addr, haddr, by rw [hslot]; exact he⟩
    rcases firstVisitsFrom_cover _ [] e hv with h1 | h1
    · simp at h1
    · exact h1

/-- C5 on the example: the save succeeds and the file holds the header and one
line per distinct entry. -/
theorem SaveToFile_content_witness :
    SaveToFile exampleFS exampleHC "kh".toList
        = ((SaveToFile exampleFS exampleHC "kh".toList).1, none) ∧
    mapGet (SaveToFile exampleFS exampleHC "kh".toList).1.files "kh".toList
      = some (saveHeader ++
          (distinctEntries exampleHC).flatMap
            (fun e => formatKnownHostsLine e.host ++ ['\n'])) :=
  ⟨by decide, (SaveToFile_content exampleFS _ exampleHC "kh".toList (by decide)).1⟩

/-- The text written for the example, byte for byte. -/
theorem saveContent_example :
    saveContent exampleHC =
      ("# SSH Known Hosts File\n# Managed by ssh-knownhosts-manager\n\n" ++
        "b.example,a.example ssh-rsa AAAA\na.example ssh-ed25519 BBBB old key\n").toList := by
  decide

/-! ## C7, C8: saving twice, and the backup -/

/-- Whatever `CopyFile` returns, it leaves the failing paths and every file
other than the destination as they were. -/
theorem CopyFile_frame (fs : FS) (src dst : Str) :
    (CopyFile fs src dst).1.locked = fs.locked ∧
    (CopyFile fs src dst).1.full = fs.full ∧
    ∀ q, q ≠ dst → mapGet (CopyFile fs src dst).1.files q = mapGet fs.files q := by
  unfold CopyFile
  cases ho : osOpen fs src with
  | error e => exact ⟨rfl, rfl, fun _ _ => rfl⟩
  | ok content =>
    cases hc : osCreate fs dst with
    | error e => exact ⟨rfl, rfl, fun _ _ => rfl⟩
    | ok fsa =>
      obtain ⟨_, rfl⟩ := osCreate_ok fs fsa dst hc
      have hcreate : ∀ q, q ≠ dst → mapGet (mapSet fs.files dst []) q = mapGet fs.files q := by
        intro q hq
        simp only [mapGet_mapSet, if_neg (Ne.symm hq)]
      dsimp only
      cases hw : osWrite { fs with files := mapSet fs.files dst [] } dst
          ((mapGet (mapSet fs.files dst []) src).getD []) with
      | error e => exact ⟨rfl, rfl, hcreate⟩
      | ok fsb =>
        obtain ⟨h1, h2, _, _, h5⟩ := osWrite_frame _ _ _ _ hw
        refine ⟨h1, h2, ?_⟩
        intro q hq
        show mapGet fsb.files q = mapGet fs.files q
        rw [h5 q hq]
        exact hcreate q hq

/-- Whether a path leads into a missing directory depends on the missing
directories only. -/
theorem noEntry_congr (fs fs1 : FS) (p : Str) (h : fs1.missingDirs = fs.missingDirs) :
    noEntry fs1 p ↔ noEntry fs p := by
  unfold noEntry
  rw [h]

theorem osWrite_missingDirs (fs fs1 : FS) (p data : Str)
    (h : osWrite fs p data = Except.ok fs1) : fs1.missingDirs = fs.missingDirs := by
  rcases osWrite_ok fs fs1 p data h with ⟨_, rfl⟩ | ⟨_, _, rfl⟩
  · rfl
  · rfl

/-- No call of `CopyFile` makes or removes a directory. -/
theorem CopyFile_missingDirs (fs : FS) (src dst : Str) :
    (CopyFile fs src dst).1.missingDirs = fs.missingDirs := by
  unfold CopyFile
  cases ho : osOpen fs src with
  | error e => rfl
  | ok content =>
    cases hc : osCreate fs dst with
    | error e => rfl
    | ok fsa =>
      obtain ⟨_, rfl⟩ := osCreate_ok fs fsa dst hc
      dsimp only
      cases hw : osWrite { fs with files := mapSet fs.files dst [] } dst
          ((mapGet (mapSet fs.files dst []) src).getD []) with
      | error e => rfl
      | ok fsb =>
        have hdirs := osWrite_missingDirs _ _ _ _ hw
        exact hdirs

/-- A non-empty write to a path where writes succeed appends the data. -/
theorem osWrite_eq (fs : FS) (p data : Str) (hd : data ≠ []) (hf : p ∉ fs.full) :
    osWrite fs p data = Except.ok
      { fs with files := mapSet fs.files p ((mapGet fs.files p).getD [] ++ data) } := by
  unfold osWrite
  simp only [hd, if_false, hf]

theorem mapGet_perm {V : Type} (l₁ l₂ : List (Str × V)) (h : l₁.Perm l₂)
    (hnd : (mapKeys l₁).Nodup) (a : Str) : mapGet l₁ a = mapGet l₂ a := by
  induction h with
  | nil => rfl
  | cons x _ ih =>
    obtain ⟨k, v⟩ := x
    rw [mapKeys_cons, List.nodup_cons] at hnd
    rw [mapGet_cons, mapGet_cons, ih hnd.2]
  | swap x y l =>
    obtain ⟨k1, v1⟩ := x
    obtain ⟨k2, v2⟩ := y
    rw [mapKeys_cons, mapKeys_cons, List.nodup_cons] at hnd
    have hne : k2 ≠ k1 := fun e => hnd.1 (by rw [e]; exact List.mem_cons_self _ _)
    simp only [mapGet_cons]
    by_cases h1 : k1 = a
    · have h2 : ¬ k2 = a := fun e => hne (e.trans h1.symm)
      simp only [if_pos h1, if_neg h2]
    · simp only [if_neg h1]
  | trans h1 _ ih1 ih2 =>
    rw [ih1 hnd, ih2 ((h1.map Prod.fst).nodup_iff.1 hnd)]

/-- The text written depends on the bindings of the index only, not on the
order in which the map stores or enumerates them. -/
theorem saveContent_perm (hc hc' : HostCollection) (h : hc'.Hosts.Perm hc.Hosts)
    (hnd : (mapKeys hc.Hosts).Nodup) : saveContent hc' = saveContent hc := by
  have hkeys : sortStrings (mapKeys hc'.Hosts) = sortStrings (mapKeys hc.Hosts) :=
    sortStrings_perm _ _ (h.map Prod.fst)
  have hnd' : (mapKeys hc'.Hosts).Nodup := (h.map Prod.fst).nodup_iff.2 hnd
  have hv : ∀ l : List Str, visits hc'.Hosts l = visits hc.Hosts l := by
    intro l
    unfold visits
    congr 1
    funext addr
    rw [mapGet_perm hc'.Hosts hc.Hosts h hnd' addr]
  rw [saveContent_eq, saveContent_eq]
  unfold distinctEntries
  rw [hkeys, hv]

/-- The error `CopyFile` returns, in terms of the state it starts from. -/
theorem CopyFile_err (fs : FS) (src dst : Str) (hne : dst ≠ src) :
    (CopyFile fs src dst).2 =
      if src ∈ fs.locked then some OsErr.permission
      else if noEntry fs src then some OsErr.notExist
      else
        match mapGet fs.files src with
        | none => some OsErr.notExist
        | some c =>
          if dst ∈ fs.locked then some OsErr.permission
          else if noEntry fs dst then some OsErr.notExist
          else if c ≠ [] ∧ dst ∈ fs.full then some OsErr.noSpace
          else none := by
  unfold CopyFile osOpen
  by_cases hl : src ∈ fs.locked
  · simp only [hl, if_true]
  · by_cases hn : noEntry fs src
    · simp only [hl, hn, if_false, if_true]
    · simp only [hl, hn, if_false]
      cases hg : mapGet fs.files src with
      | none => rfl
      | some c =>
        simp only []
        unfold osCreate
        by_cases hd : dst ∈ fs.locked
        · simp only [hd, if_true]
        · by_cases hnd : noEntry fs dst
          · simp only [hd, hnd, if_false, if_true]
          · simp only [hd, hnd, if_false, mapGet_mapSet, if_neg hne, hg, Option.getD_some]
            unfold osWrite
            by_cases hc : c = []
            · simp [hc]
            · by_cases hf : dst ∈ fs.full
              · simp [hc, hf]
              · simp [hc, hf]

/-- A second `CopyFile` between the same two paths ends as the first did. -/
theorem CopyFile_err_again (fs : FS) (src dst : Str) (hne : dst ≠ src) :
    (CopyFile (CopyFile fs src dst).1 src dst).2 = (CopyFile fs src dst).2 := by
  obtain ⟨c1, c2, c3⟩ := CopyFile_frame fs src dst
  have c4 := CopyFile_missingDirs fs src dst
  rw [CopyFile_err _ src dst hne, CopyFile_err fs src dst hne, c1, c2,
    c3 src (fun e => hne e.symm)]
  simp only [noEntry_congr fs _ src c4, noEntry_congr fs _ dst c4]

/-- The file at `p` after `SaveToFile`, whatever the outcome: untouched when the
backup step fails or the file cannot be created, empty when the write fails, the
new text otherwise. -/
theorem SaveToFile_file (fs : FS) (hc : HostCollection) (p : Str) :
    mapGet (SaveToFile fs hc p).1.files p =
      if (CopyFile fs p (p ++ ".backup".toList)).2 ≠ none ∧
          (CopyFile fs p (p ++ ".backup".toList)).2 ≠ some OsErr.notExist then
        mapGet fs.files p
      else if noEntry fs p then mapGet fs.files p
      else if p ∈ fs.full then some []
      else some (saveContent hc) := by
  obtain ⟨c1, c2, c3⟩ := CopyFile_frame fs p (p ++ ".backup".toList)
  have c4 := CopyFile_missingDirs fs p (p ++ ".backup".toList)
  have herr := CopyFile_err fs p (p ++ ".backup".toList) (backup_ne p)
  cases hcopy : CopyFile fs p (p ++ ".backup".toList) with
  | mk fsc r =>
    rw [hcopy] at c1 c2 c3 c4 herr
    simp only at c1 c2 c3 c4 herr
    have hfile : mapGet fsc.files p = mapGet fs.files p := c3 p (fun e => backup_ne p e.symm)
    by_cases hr : r = none ∨ r = some OsErr.notExist
    · have hbad : ¬ (r ≠ none ∧ r ≠ some OsErr.notExist) := by
        rintro ⟨h1, h2⟩
        rcases hr with h | h
        · exact h1 h
        · exact h2 h
      have hl : p ∉ fs.locked := by
        intro hl
        rw [if_pos hl] at herr
        rcases hr with h | h
        · rw [h] at herr; exact Option.noConfusion herr
        · rw [h] at herr
          simp only [Option.some.injEq] at herr
          exact OsErr.noConfusion herr
      rw [SaveToFile_steps fs hc p fsc r hcopy hr, if_neg hbad]
      by_cases hn : noEntry fs p
      · rw [if_pos hn, osCreate_noEntry fsc p (by rw [c1]; exact hl)
          ((noEntry_congr fs fsc p c4).2 hn)]
        exact hfile
      · rw [if_neg hn]
        have hcr : osCreate fsc p = Except.ok { fsc with files := mapSet fsc.files p [] } :=
          osCreate_eq fsc p (by rw [c1]; exact hl) (fun h => hn ((noEntry_congr fs fsc p c4).1 h))
        simp only [hcr]
        by_cases hf : p ∈ fs.full
        · have hw : osWrite { fsc with files := mapSet fsc.files p [] } p (saveContent hc)
              = Except.error OsErr.noSpace := by
            unfold osWrite
            simp only [saveContent_ne_nil hc, if_false, c2, hf, if_true]
          simp only [hw, mapGet_mapSet, if_true, hf]
        · have hw := osWrite_eq { fsc with files := mapSet fsc.files p [] } p (saveContent hc)
            (saveContent_ne_nil hc) (by rw [c2]; exact hf)
          simp only [hw, mapGet_mapSet, if_true, Option.getD_some, List.nil_append, hf,
            if_false]
    · rw [not_or] at hr
      have hbad : r ≠ none ∧ r ≠ some OsErr.notExist := hr
      unfold SaveToFile
      simp only [hcopy, ne_eq, hr.1, hr.2, not_false_eq_true, and_self, if_true]
      exact hfile

/-- The failing paths after `SaveToFile` are those before. -/
theorem SaveToFile_full (fs : FS) (hc : HostCollection) (p : Str) :
    (SaveToFile fs hc p).1.full = fs.full := by
  obtain ⟨_, c2, _⟩ := CopyFile_frame fs p (p ++ ".backup".toList)
  unfold SaveToFile
  simp only []
  split
  · exact c2
  · cases hcr : osCreate (CopyFile fs p (p ++ ".backup".toList)).1 p with
    | error e => exact c2
    | ok fs2 =>
      obtain ⟨_, rfl⟩ := osCreate_ok _ fs2 p hcr
      simp only []
      cases hw : osWrite { (CopyFile fs p (p ++ ".backup".toList)).1 with
          files := mapSet (CopyFile fs p (p ++ ".backup".toList)).1.files p [] } p
          (saveContent hc) with
      | error e => exact c2
      | ok fs3 =>
        obtain ⟨_, w2, _⟩ := osWrite_frame _ _ _ _ hw
        exact w2.trans c2

/-- No call of `SaveToFile` makes or removes a directory. -/
theorem SaveToFile_missingDirs (fs : FS) (hc : HostCollection) (p : Str) :
    (SaveToFile fs hc p).1.missingDirs = fs.missingDirs := by
  have c4 := CopyFile_missingDirs fs p (p ++ ".backup".toList)
  unfold SaveToFile
  simp only []
  split
  · exact c4
  · cases hcr : osCreate (CopyFile fs p (p ++ ".backup".toList)).1 p with
    | error e => exact c4
    | ok fs2 =>
      obtain ⟨_, rfl⟩ := osCreate_ok _ fs2 p hcr
      simp only []
      cases hw : osWrite { (CopyFile fs p (p ++ ".backup".toList)).1 with
          files := mapSet (CopyFile fs p (p ++ ".backup".toList)).1.files p [] } p
          (saveContent hc) with
      | error e => exact c4
      | ok fs3 => exact (osWrite_missingDirs _ _ _ _ hw).trans c4

/-- Saving twice in a row: the second call leaves the file as the first left it,
whatever the outcome of either call. -/
theorem SaveToFile_twice (fs : FS) (hc : HostCollection) (p : Str) :
    mapGet (SaveToFile (SaveToFile fs hc p).1 hc p).1.files p
      = mapGet (SaveToFile fs hc p).1.files p := by
  have hdirs := noEntry_congr fs (SaveToFile fs hc p).1 p (SaveToFile_missingDirs fs hc p)
  rw [SaveToFile_file (SaveToFile fs hc p).1 hc p, SaveToFile_full]
  by_cases hbad2 : (CopyFile (SaveToFile fs hc p).1 p (p ++ ".backup".toList)).2 ≠ none ∧
      (CopyFile (SaveToFile fs hc p).1 p (p ++ ".backup".toList)).2 ≠ some OsErr.notExist
  · rw [if_pos hbad2]
  · rw [if_neg hbad2]
    by_cases hn2 : noEntry (SaveToFile fs hc p).1 p
    · rw [if_pos hn2]
    · rw [if_neg hn2, SaveToFile_file fs hc p]
      by_cases hbad1 : (CopyFile fs p (p ++ ".backup".toList)).2 ≠ none ∧
          (CopyFile fs p (p ++ ".backup".toList)).2 ≠ some OsErr.notExist
      · exfalso
        apply hbad2
        have hfs1 : (SaveToFile fs hc p).1 = (CopyFile fs p (p ++ ".backup".toList)).1 := by
          unfold SaveToFile
          simp only [hbad1, ne_eq, not_false_eq_true, and_self, if_true]
        rw [hfs1, CopyFile_err_again fs p _ (backup_ne p)]
        exact hbad1
      · rw [if_neg hbad1, if_neg (fun h => hn2 (hdirs.2 h))]

/-- C7: calling `SaveToFile` twice in a row with the same collection and path
leaves the file, after the second call, with the content it had after the first
(whatever either call returns); when the first call succeeds that content is
`saveContent hc`, a text that is the same for any other storage order of the
same bindings of the address map. -/
theorem SaveToFile_idempotent (fs : FS) (hc : HostCollection) (p : Str) :
    mapGet (SaveToFile (SaveToFile fs hc p).1 hc p).1.files p
      = mapGet (SaveToFile fs hc p).1.files p ∧
    ((SaveToFile fs hc p).2 = none →
      mapGet (SaveToFile fs hc p).1.files p = some (saveContent hc) ∧
      mapGet (SaveToFile (SaveToFile fs hc p).1 hc p).1.files p = some (saveContent hc)) ∧
    (∀ hc' : HostCollection, hc'.Hosts.Perm hc.Hosts → (mapKeys hc.Hosts).Nodup →
      saveContent hc' = saveContent hc) := by
  refine ⟨SaveToFile_twice fs hc p, ?_, fun hc' hperm hnd => saveContent_perm hc hc' hperm hnd⟩
  intro hok
  have hp := (SaveToFile_ok fs (SaveToFile fs hc p).1 hc p (Prod.ext rfl hok)).2.2.1
  exact ⟨hp, (SaveToFile_twice fs hc p).trans hp⟩

/-- C7 on the example, saved twice: both saves leave the same text. -/
theorem SaveToFile_idempotent_witness :
    mapGet (SaveToFile (SaveToFile exampleFS exampleHC "kh".toList).1 exampleHC
        "kh".toList).1.files "kh".toList
      = some (saveContent exampleHC) :=
  ((SaveToFile_idempotent exampleFS exampleHC "kh".toList).2.1 (by decide)).2

/-- A formatted line is never empty: it holds the two separating spaces. -/
theorem formatKnownHostsLine_ne_nil (h : Host) : formatKnownHostsLine h ≠ [] := by
  rw [formatKnownHostsLine_eq]
  intro hnil
  have := congrArg List.length hnil
  simp at this

theorem stashLoop_seen (h : HostRef) (rest : List HostRef) (seen : List Nat) (ex : List Str)
    (hs : h.ref ∈ seen) : stashLoop (h :: rest) seen ex = stashLoop rest seen ex := by
  simp only [stashLoop, hs, if_true]

theorem stashLoop_dup (h : HostRef) (rest : List HostRef) (seen : List Nat) (ex : List Str)
    (hs : h.ref ∉ seen) (hd : stashKey h.host ≠ [] ∧ stashKey h.host ∈ ex) :
    stashLoop (h :: rest) seen ex = stashLoop rest (h.ref :: seen) ex := by
  simp only [stashLoop, hs, if_false, hd, ne_eq, not_false_eq_true, and_self, if_true]

theorem stashLoop_new (h : HostRef) (rest : List HostRef) (seen : List Nat) (ex : List Str)
    (hs : h.ref ∉ seen) (hd : ¬ (stashKey h.host ≠ [] ∧ stashKey h.host ∈ ex)) :
    stashLoop (h :: rest) seen ex
      = h :: stashLoop rest (h.ref :: seen)
          (if stashKey h.host ≠ [] then stashKey h.host :: ex else ex) := by
  simp only [stashLoop, hs, if_false, hd, formatKnownHostsLine_ne_nil]

theorem firstVisitsFrom_seen (h : HostRef) (rest : List HostRef) (seen : List Nat)
    (hs : h.ref ∈ seen) : firstVisitsFrom seen (h :: rest) = firstVisitsFrom seen rest := by
  simp only [firstVisitsFrom, hs, if_true]

theorem firstVisitsFrom_new (h : HostRef) (rest : List HostRef) (seen : List Nat)
    (hs : h.ref ∉ seen) :
    firstVisitsFrom seen (h :: rest) = h :: firstVisitsFrom (h.ref :: seen) rest := by
  simp only [firstVisitsFrom, hs, if_false]

/-- Lines are written for distinct entries only, in their order. -/
theorem stashLoop_sublist (l : List HostRef) :
    ∀ (seen : List Nat) (ex : List Str),
      (stashLoop l seen ex).Sublist (firstVisitsFrom seen l) := by
  induction l with
  | nil => intro seen ex; simp [stashLoop, firstVisitsFrom]
  | cons h rest ih =>
    intro seen ex
    by_cases hs : h.ref ∈ seen
    · rw [stashLoop_seen h rest seen ex hs, firstVisitsFrom_seen h rest seen hs]
      exact ih seen ex
    · rw [firstVisitsFrom_new h rest seen hs]
      by_cases hd : stashKey h.host ≠ [] ∧ stashKey h.host ∈ ex
      · rw [stashLoop_dup h rest seen ex hs hd]
        exact (ih _ _).cons h
      · rw [stashLoop_new h rest seen ex hs hd]
        exact (ih _ _).cons₂ h

/-- No line is written for a non-empty key that is already in `existing`. -/
theorem stashLoop_fresh (l : List HostRef) :
    ∀ (seen : List Nat) (ex : List Str),
      ∀ h ∈ stashLoop l seen ex, stashKey h.host ≠ [] → stashKey h.host ∉ ex := by
  induction l with
  | nil => intro seen ex h hh; simp [stashLoop] at hh
  | cons x rest ih =>
    intro seen ex h hh hk
    by_cases hs : x.ref ∈ seen
    · rw [stashLoop_seen x rest seen ex hs] at hh
      exact ih seen ex h hh hk
    · by_cases hd : stashKey x.host ≠ [] ∧ stashKey x.host ∈ ex
      · rw [stashLoop_dup x rest seen ex hs hd] at hh
        exact ih _ ex h hh hk
      · rw [stashLoop_new x rest seen ex hs hd, List.mem_cons] at hh
        rcases hh with rfl | hh
        · exact fun hmem => hd ⟨hk, hmem⟩
        · have := ih _ _ h hh hk
          by_cases hx : stashKey x.host ≠ []
          · rw [if_pos hx] at this
            exact fun hmem => this (List.mem_cons_of_mem _ hmem)
          · rw [if_neg hx] at this
            exact this

/-- The non-empty keys of the lines written in one call are pairwise distinct. -/
theorem stashLoop_nodup (l : List HostRef) :
    ∀ (seen : List Nat) (ex : List Str),
      (((stashLoop l seen ex).map (fun h => stashKey h.host)).filter
        (fun k => decide (k ≠ []))).Nodup := by
  induction l with
  | nil => intro seen ex; simp [stashLoop]
  | cons x rest ih =>
    intro seen ex
    by_cases hs : x.ref ∈ seen
    · rw [stashLoop_seen x rest seen ex hs]
      exact ih seen ex
    · by_cases hd : stashKey x.host ≠ [] ∧ stashKey x.host ∈ ex
      · rw [stashLoop_dup x rest seen ex hs hd]
        exact ih _ ex
      · rw [stashLoop_new x rest seen ex hs hd]
        by_cases hx : stashKey x.host ≠ []
        · rw [if_pos hx, List.map_cons, List.filter_cons_of_pos (by simpa using hx),
            List.nodup_cons]
          refine ⟨?_, ih _ _⟩
          intro hmem
          rw [List.mem_filter, List.mem_map] at hmem
          obtain ⟨⟨g, hg, hgk⟩, _⟩ := hmem
          have hfresh := stashLoop_fresh rest (x.ref :: seen) (stashKey x.host :: ex) g hg
            (by rw [hgk]; exact hx)
          exact hfresh (by rw [hgk]; exact List.mem_cons_self _ _)
        · rw [if_neg hx, List.map_cons, List.filter_cons_of_neg (by simpa using hx)]
          exact ih _ _

/-- The rule of the loop: at the visit of a distinct entry `h`, with the distinct
entries `pre` before it, a line is written exactly when the key of `h` is empty,
or is neither in `existing` nor the key of an entry of `pre` for which a line
was written. -/
theorem stashLoop_rule (l : List HostRef) :
    ∀ (seen : List Nat) (ex : List Str) (pre : List HostRef) (h : HostRef)
      (post : List HostRef), firstVisitsFrom seen l = pre ++ h :: post →
      (h ∈ stashLoop l seen ex ↔
        stashKey h.host = [] ∨
        (stashKey h.host ∉ ex ∧
          ∀ g ∈ pre, g ∈ stashLoop l seen ex → stashKey g.host ≠ stashKey h.host)) := by
  induction l with
  | nil =>
    intro seen ex pre h post hD
    simp [firstVisitsFrom] at hD
  | cons x rest ih =>
    intro seen ex pre h post hD
    by_cases hs : x.ref ∈ seen
    · rw [stashLoop_seen x rest seen ex hs]
      rw [firstVisitsFrom_seen x rest seen hs] at hD
      exact ih seen ex pre h post hD
    · rw [firstVisitsFrom_new x rest seen hs] at hD
      have hnotin : ∀ (ex' : List Str), ∀ g ∈ stashLoop rest (x.ref :: seen) ex', g ≠ x := by
        intro ex' g hg hgx
        have := firstVisitsFrom_not_seen rest (x.ref :: seen) g
          ((stashLoop_sublist rest (x.ref :: seen) ex').subset hg)
        exact this (by rw [hgx]; exact List.mem_cons_self _ _)
      cases pre with
      | nil =>
        simp only [List.nil_append, List.cons.injEq] at hD
        obtain ⟨rfl, _⟩ := hD
        by_cases hd : stashKey x.host ≠ [] ∧ stashKey x.host ∈ ex
        · rw [stashLoop_dup x rest seen ex hs hd]
          constructor
          · intro hx; exact absurd rfl (hnotin ex x hx)
          · rintro (h0 | ⟨h0, _⟩)
            · exact absurd h0 hd.1
            · exact absurd hd.2 h0
        · rw [stashLoop_new x rest seen ex hs hd]
          constructor
          · intro _
            by_cases hk : stashKey x.host = []
            · exact Or.inl hk
            · exact Or.inr ⟨fun hm => hd ⟨hk, hm⟩, fun g hg => nomatch hg⟩
          · intro _; exact List.mem_cons_self _ _
      | cons p pre' =>
        simp only [List.cons_append, List.cons.injEq] at hD
        obtain ⟨rfl, hD'⟩ := hD
        have hhx : h ≠ x := by
          intro e
          have hmem : h ∈ firstVisitsFrom (x.ref :: seen) rest := by
            rw [hD']; simp
          exact firstVisitsFrom_not_seen rest (x.ref :: seen) h hmem
            (by rw [e]; exact List.mem_cons_self _ _)
        have hpre : ∀ g ∈ pre', g ≠ x := by
          intro g hg e
          have hmem : g ∈ firstVisitsFrom (x.ref :: seen) rest := by
            rw [hD']; simp [hg]
          exact firstVisitsFrom_not_seen rest (x.ref :: seen) g hmem
            (by rw [e]; exact List.mem_cons_self _ _)
        by_cases hd : stashKey x.host ≠ [] ∧ stashKey x.host ∈ ex
        · rw [stashLoop_dup x rest seen ex hs hd, ih (x.ref :: seen) ex pre' h post hD']
          constructor
          · rintro (h0 | ⟨h0, h1⟩)
            · exact Or.inl h0
            · refine Or.inr ⟨h0, ?_⟩
              intro g hg hgA
              rcases List.mem_cons.1 hg with rfl | hg
              · exact absurd rfl (hnotin ex g hgA)
              · exact h1 g hg hgA
          · rintro (h0 | ⟨h0, h1⟩)
            · exact Or.inl h0
            · exact Or.inr ⟨h0, fun g hg hgA => h1 g (List.mem_cons_of_mem _ hg) hgA⟩
        · rw [stashLoop_new x rest seen ex hs hd]
          have hiff := ih (x.ref :: seen)
            (if stashKey x.host ≠ [] then stashKey x.host :: ex else ex) pre' h post hD'
          rw [List.mem_cons, or_iff_right hhx, hiff]
          by_cases hx : stashKey x.host ≠ []
          · simp only [if_pos hx, List.mem_cons, not_or]
            constructor
            · rintro (h0 | ⟨⟨h0, h0'⟩, h1⟩)
              · exact Or.inl h0
              · refine Or.inr ⟨h0', ?_⟩
                intro g hg hgA
                rcases hg with rfl | hg
                · exact fun e => h0 e.symm
                · rcases hgA with e | hgA
                  · exact absurd e (hpre g hg)
                  · exact h1 g hg hgA
            · rintro (h0 | ⟨h0, h1⟩)
              · exact Or.inl h0
              · refine Or.inr ⟨⟨?_, h0⟩, ?_⟩
                · exact fun e => h1 x (Or.inl rfl) (Or.inl rfl) e.symm
                · intro g hg hgA
                  exact h1 g (Or.inr hg) (Or.inr hgA)
          · simp only [if_neg hx, List.mem_cons]
            have hx0 : stashKey x.host = [] := by
              by_contra hne
              exact hx hne
            constructor
            · rintro (h0 | ⟨h0, h1⟩)
              · exact Or.inl h0
              · by_cases hk : stashKey h.host = []
                · exact Or.inl hk
                · refine Or.inr ⟨h0, ?_⟩
                  intro g hg hgA
                  rcases hg with rfl | hg
                  · rw [hx0]; exact fun e => hk e.symm
                  · rcases hgA with e | hgA
                    · exact absurd e (hpre g hg)
                    · exact h1 g hg hgA
            · rintro (h0 | ⟨h0, h1⟩)
              · exact Or.inl h0
              · exact Or.inr ⟨h0, fun g hg hgA => h1 g (Or.inr hg) (Or.inr hgA)⟩

/-! ## The entries of a parsed collection -/

theorem mapSet_cons {V : Type} (k' : Str) (v' : V) (m : List (Str × V)) (k : Str) (v : V) :
    mapSet ((k', v') :: m) k v
      = if k' = k then (k, v) :: m else (k', v') :: mapSet m k v := rfl

theorem mapKeys_mapSet {V : Type} (m : List (Str × V)) (k : Str) (v : V) :
    mapKeys (mapSet m k v) = if k ∈ mapKeys m then mapKeys m else mapKeys m ++ [k] := by
  induction m with
  | nil => rfl
  | cons p rest ih =>
    obtain ⟨k', v'⟩ := p
    rw [mapSet_cons, mapKeys_cons]
    by_cases h : k' = k
    · subst h
      rw [if_pos rfl, if_pos (List.mem_cons_self _ _), mapKeys_cons]
    · have h' : ¬ k = k' := fun e => h e.symm
      rw [if_neg h, mapKeys_cons, ih]
      by_cases hm : k ∈ mapKeys rest
      · rw [if_pos hm, if_pos (List.mem_cons_of_mem _ hm)]
      · have hm' : k ∉ k' :: mapKeys rest := by
          intro hc
          rcases List.mem_cons.1 hc with e | e
          · exact h' e
          · exact hm e
        rw [if_neg hm, if_neg hm', List.cons_append]

theorem mapSet_nodup {V : Type} (m : List (Str × V)) (k : Str) (v : V)
    (h : (mapKeys m).Nodup) : (mapKeys (mapSet m k v)).Nodup := by
  rw [mapKeys_mapSet]
  by_cases hm : k ∈ mapKeys m
  · rw [if_pos hm]; exact h
  · rw [if_neg hm]
    exact List.Nodup.append h (List.nodup_singleton k) (by simpa using hm)

theorem addHostLoop_nodup (addrs : List Str) (e : HostRef) :
    ∀ m : List (Str × List HostRef), (mapKeys m).Nodup →
      (mapKeys (addHostLoop addrs e m)).Nodup := by
  induction addrs with
  | nil => intro m h; exact h
  | cons a rest ih =>
    intro m h
    simp only [addHostLoop]
    apply ih
    apply mapSet_nodup
    by_cases hn : (mapGet m a).isNone = true
    · rw [if_pos hn]; exact mapSet_nodup m a [] h
    · rw [if_neg hn]; exact h

theorem AddHost_nodup (hc : HostCollection) (e : Option HostRef)
    (h : (mapKeys hc.Hosts).Nodup) : (mapKeys (AddHost hc e).Hosts).Nodup := by
  cases e with
  | none => exact h
  | some e =>
    unfold AddHost
    by_cases hl : e.host.Addresses.length = 0
    · simp only [hl, if_true]; exact h
    · simp only [hl, if_false]
      exact addHostLoop_nodup _ e _ h

theorem parseLoop_nodup (lines : List Str) :
    ∀ (k : Int) (next : Nat) (hc : HostCollection), (mapKeys hc.Hosts).Nodup →
      (mapKeys (parseLoop lines k next hc).Hosts).Nodup := by
  induction lines with
  | nil => intro k next hc h; exact h
  | cons raw rest ih =>
    intro k next hc h
    simp only [parseLoop]
    cases parseStep raw (k + 1) with
    | none => exact ih _ _ _ h
    | some x => exact ih _ _ _ (AddHost_nodup hc _ h)

/-- The address keys of a parsed collection are pairwise distinct. -/
theorem parseLines_nodup (filePath : Str) (base : Nat) (lines : List Str) :
    (mapKeys (parseLines filePath base lines).Hosts).Nodup :=
  parseLoop_nodup lines 0 base _ (by simp [NewHostCollection, mapKeys])

theorem mapGet_of_mem {V : Type} (m : List (Str × V)) (h : (mapKeys m).Nodup)
    (k : Str) (v : V) (hm : (k, v) ∈ m) : mapGet m k = some v := by
  induction m with
  | nil => simp at hm
  | cons p rest ih =>
    obtain ⟨k', v'⟩ := p
    rw [mapKeys_cons, List.nodup_cons] at h
    rw [mapGet_cons]
    rcases List.mem_cons.1 hm with e | e
    · simp only [Prod.mk.injEq] at e
      rw [if_pos e.1.symm, e.2]
    · have hk : k ∈ mapKeys rest := List.mem_map.2 ⟨(k, v), e, rfl⟩
      have hne : ¬ k' = k := fun e' => h.1 (e' ▸ hk)
      rw [if_neg hne]
      exact ih h.2 e

theorem mem_of_mapGet {V : Type} (m : List (Str × V)) (k : Str) (v : V)
    (h : mapGet m k = some v) : (k, v) ∈ m := by
  induction m with
  | nil => simp [mapGet] at h
  | cons p rest ih =>
    obtain ⟨k', v'⟩ := p
    rw [mapGet_cons] at h
    by_cases hk : k' = k
    · rw [if_pos hk, Option.some.injEq] at h
      rw [hk, h]
      exact List.mem_cons_self _ _
    · rw [if_neg hk] at h
      exact List.mem_cons_of_mem _ (ih h)

/-- A host returned by `parseHostLine` has at least one address. -/
theorem parseHostLine_addresses (line : Str) (n : Int) (h : Host)
    (hp : parseHostLine line n = some h) : h.Addresses ≠ [] := by
  unfold parseHostLine at hp
  simp only [] at hp
  split at hp
  · simp at hp
  · split at hp
    · simp at hp
    · split at hp
      · simp at hp
      · rename_i hlen
        simp only [Option.some.injEq] at hp
        have hA : h.Addresses = collectAddresses (Split ((Fields line).getD 0 []) ',') [] := by
          rw [← hp]
          split <;> split <;> split <;> split <;> rfl
        intro hnil
        have h0 : (collectAddresses (Split ((Fields line).getD 0 []) ',') []).length = 0 := by
          rw [← hA, hnil]
          rfl
        exact hlen h0

theorem parseStep_addresses (raw : Str) (n : Int) (h : Host)
    (hp : parseStep raw n = some h) : h.Addresses ≠ [] := by
  unfold parseStep at hp
  simp only [] at hp
  split at hp
  · simp at hp
  · exact parseHostLine_addresses _ n h hp

theorem parsedEntries_addresses (base : Nat) (lines : List Str) :
    ∀ e ∈ parsedEntries base lines, e.host.Addresses ≠ [] := by
  intro e he
  simp only [parsedEntries, parsedHosts, List.mem_map] at he
  obtain ⟨⟨j, h⟩, hj, rfl⟩ := he
  have hh : h ∈ lines.enum.filterMap (fun p => parseStep p.2 ((p.1 : Int) + 1)) := by
    have := List.mem_map_of_mem Prod.snd hj
    simpa [List.enumFrom_map_snd] using this
  rw [List.mem_filterMap] at hh
  obtain ⟨⟨i, raw⟩, _, hstep⟩ := hh
  exact parseStep_addresses raw _ h hstep

/-- The entries stored in the slots of a parsed collection are the parsed entries. -/
theorem parseLines_entries (filePath : Str) (base : Nat) (lines : List Str) (e : HostRef) :
    e ∈ (parseLines filePath base lines).Hosts.flatMap (fun p => p.2)
      ↔ e ∈ parsedEntries base lines := by
  constructor
  · intro he
    rw [List.mem_flatMap] at he
    obtain ⟨⟨k, slot⟩, hks, hes⟩ := he
    have hget := mapGet_of_mem _ (parseLines_nodup filePath base lines) k slot hks
    have hslot : GetHostsByAddress (parseLines filePath base lines) k = slot := by
      simp [GetHostsByAddress, hget]
    rw [parseLines_get] at hslot
    have hes' : e ∈ slot := hes
    rw [← hslot, List.mem_flatMap] at hes'
    obtain ⟨e', he', hrep⟩ := hes'
    rw [(List.mem_replicate.1 hrep).2]
    exact he'
  · intro he
    have hne := parsedEntries_addresses base lines e he
    obtain ⟨a, as, has⟩ := List.exists_cons_of_ne_nil hne
    have hmem : e ∈ GetHostsByAddress (parseLines filePath base lines) a := by
      rw [parseLines_get, List.mem_flatMap]
      refine ⟨e, he, ?_⟩
      rw [List.mem_replicate]
      refine ⟨?_, rfl⟩
      rw [has]
      simp
    unfold GetHostsByAddress at hmem
    cases hg : mapGet (parseLines filePath base lines).Hosts a with
    | none => rw [hg] at hmem; simp at hmem
    | some slot =>
      rw [hg] at hmem
      rw [List.mem_flatMap]
      exact ⟨(a, slot), mem_of_mapGet _ a slot hg, hmem⟩

/-- The keys in `existing` are the non-empty identity keys of the entries parsed
from the stash file. -/
theorem existingKeys_parseLines (filePath : Str) (base : Nat) (lines : List Str) (k : Str) :
    k ∈ existingKeys (parseLines filePath base lines)
      ↔ k ≠ [] ∧ ∃ e ∈ parsedEntries base lines, stashKey e.host = k := by
  unfold existingKeys
  rw [List.mem_filter, List.mem_map]
  constructor
  · rintro ⟨⟨e, he, hk⟩, hne⟩
    exact ⟨by simpa using hne, e, (parseLines_entries filePath base lines e).1 he, hk⟩
  · rintro ⟨hne, e, he, hk⟩
    exact ⟨⟨e, (parseLines_entries filePath base lines e).2 he, hk⟩, by simpa using hne⟩

/-- A successful `ParseKnownHosts` of a named file read it and parsed its lines. -/
theorem ParseKnownHosts_ok (fs : FS) (base : Nat) (p : Str) (hc : HostCollection)
    (hp : p ≠ []) (h : ParseKnownHosts fs base p = Except.ok hc) :
    ∃ content, mapGet fs.files p = some content ∧ p ∉ fs.locked ∧
      hc = parseLines p base ((splitLinesFrom content []).map dropCR) := by
  unfold ParseKnownHosts at h
  simp only [hp, if_false] at h
  cases ho : osOpen fs p with
  | error e => simp [ho] at h
  | ok content =>
    have hsrc : p ∉ fs.locked ∧ mapGet fs.files p = some content :=
      ⟨(osOpen_ok fs p content ho).1, (osOpen_ok fs p content ho).2.2⟩
    simp only [ho] at h
    split at h
    · exact Except.noConfusion h
    · simp only [Except.ok.injEq] at h
      exact ⟨content, hsrc.2, hsrc.1, h.symm⟩

/-- A sequence of writes that succeeds appends all chunks, in order, and leaves
the other files alone. -/
theorem osWriteAll_ok (chunks : List Str) :
    ∀ (fs : FS) (p old : Str), (osWriteAll fs p chunks).2 = none →
      mapGet fs.files p = some old →
      mapGet (osWriteAll fs p chunks).1.files p = some (old ++ chunks.flatten) ∧
      (osWriteAll fs p chunks).1.locked = fs.locked ∧
      (osWriteAll fs p chunks).1.full = fs.full ∧
      ∀ q, q ≠ p → mapGet (osWriteAll fs p chunks).1.files q = mapGet fs.files q := by
  induction chunks with
  | nil =>
    intro fs p old _ ho
    simp [osWriteAll, ho]
  | cons c rest ih =>
    intro fs p old hok ho
    simp only [osWriteAll] at hok ⊢
    cases hw : osWrite fs p c with
    | error e => simp [hw] at hok
    | ok fs1 =>
      simp only [hw] at hok ⊢
      obtain ⟨w1, w2, _, w4, w5⟩ := osWrite_frame fs fs1 p c hw
      obtain ⟨i1, i2, i3, i4⟩ := ih fs1 p (old ++ c) hok (w4 old ho)
      refine ⟨?_, i2.trans w1, i3.trans w2, fun q hq => (i4 q hq).trans (w5 q hq)⟩
      rw [i1]
      simp

theorem linesOf_eq (l : List HostRef) :
    (l.map (fun h => formatKnownHostsLine h.host ++ ['\n'])).flatten = linesOf l := by
  unfold linesOf
  rw [List.flatMap_def]

/-- C10: when `StashAddressWithPath` succeeds, the text appended to the stash
file is one line for each entry of `appended`, a sublist of the distinct
entries under the address.  At the visit of a distinct entry a line is appended
exactly when its identity key is empty, or is neither the key of an entry
parsed from the stash file nor the key of an entry for which a line was appended
earlier in the call.  Hence no appended line has a non-empty key already
present in the stash file, and no two appended lines share a non-empty key. -/
theorem StashAddressWithPath_dedup (fs fs' : FS) (hc hc' : HostCollection)
    (address stashPath : Str)
    (hok : StashAddressWithPath fs hc address stashPath = (fs', hc', none)) :
    ∃ (hosts : List HostRef) (lines : List Str) (appended : List HostRef),
      mapGet hc.Hosts address = some hosts ∧
      hc' = { hc with Hosts := mapDelete hc.Hosts address } ∧
      lines = (splitLinesFrom ((mapGet fs.files stashPath).getD []) []).map dropCR ∧
      appended = stashLoop hosts [] (existingKeys (parseLines stashPath 0 lines)) ∧
      (stashPath ≠ hc.File → stashPath ≠ hc.File ++ ".backup".toList →
        mapGet fs'.files stashPath
          = some ((mapGet fs.files stashPath).getD [] ++ linesOf appended)) ∧
      appended.Sublist (firstVisits hosts) ∧
      (∀ (pre : List HostRef) (h : HostRef) (post : List HostRef),
        firstVisits hosts = pre ++ h :: post →
        (h ∈ appended ↔
          stashKey h.host = [] ∨
          ((¬ ∃ e ∈ parsedEntries 0 lines, stashKey e.host = stashKey h.host) ∧
            ∀ g ∈ pre, g ∈ appended → stashKey g.host ≠ stashKey h.host))) ∧
      (∀ h ∈ appended, stashKey h.host ≠ [] →
        ∀ e ∈ parsedEntries 0 lines, stashKey e.host ≠ stashKey h.host) ∧
      ((appended.map (fun h => stashKey h.host)).filter (fun k => decide (k ≠ []))).Nodup := by
  unfold StashAddressWithPath at hok
  cases hget : mapGet hc.Hosts address with
  | none => simp [hget] at hok
  | some hosts =>
    simp only [hget] at hok
    by_cases hlen : hosts.length = 0
    · simp [hlen] at hok
    · by_cases hsp : stashPath = []
      · simp [hlen, hsp] at hok
      · simp only [hlen, hsp, if_false] at hok
        -- the file system once the stash file exists
        have hfs1 : ∃ fs1, (if osStatNotExist fs stashPath = true then osCreate fs stashPath
              else Except.ok fs) = Except.ok fs1 ∧
            (osOpenAppend fs1 stashPath = none →
              mapGet fs1.files stashPath = some ((mapGet fs.files stashPath).getD [])) := by
          by_cases hst : osStatNotExist fs stashPath = true
          · simp only [hst, if_true] at hok ⊢
            cases hcr : osCreate fs stashPath with
            | error e => simp [hcr] at hok
            | ok fsa =>
              obtain ⟨_, rfl⟩ := osCreate_ok fs fsa stashPath hcr
              refine ⟨_, rfl, fun _ => ?_⟩
              have hnone : mapGet fs.files stashPath = none := by
                unfold osStatNotExist at hst
                simp only [Bool.and_eq_true, Bool.or_eq_true, decide_eq_true_eq,
                  Option.isNone_iff_eq_none] at hst
                exact hst.2.resolve_left (osCreate_entry fs _ stashPath hcr)
              simp only [mapGet_mapSet, if_true, hnone, Option.getD_none]
          · simp only [hst] at hok ⊢
            refine ⟨fs, rfl, fun happ => ?_⟩
            unfold osOpenAppend at happ
            by_cases hl : stashPath ∈ fs.locked
            · simp [hl] at happ
            · by_cases hn : noEntry fs stashPath
              · simp [hl, hn] at happ
              · simp only [hl, hn, if_false] at happ
                cases hg : mapGet fs.files stashPath with
                | none => simp [hg] at happ
                | some c => simp
        obtain ⟨fs1, hfs1eq, hfs1old⟩ := hfs1
        rw [hfs1eq] at hok
        simp only at hok
        cases hparse : ParseKnownHosts fs1 0 stashPath with
        | error e => simp [hparse] at hok
        | ok stash =>
          simp only [hparse] at hok
          cases happ : osOpenAppend fs1 stashPath with
          | some e => simp [happ] at hok
          | none =>
            simp only [happ] at hok
            have hold := hfs1old happ
            obtain ⟨content, hcontent, _, hstash⟩ :=
              ParseKnownHosts_ok fs1 0 stashPath stash hsp hparse
            rw [hold, Option.some.injEq] at hcontent
            subst hcontent
            subst hstash
            split at hok
            · simp at hok
            · rename_i hw
              simp only [ne_eq, not_not] at hw
              split at hok
              · simp at hok
              · rename_i hsv
                simp only [ne_eq, not_not] at hsv
                simp only [Prod.mk.injEq, and_true] at hok
                obtain ⟨hfs', hhc'⟩ := hok
                refine ⟨hosts, _, _, rfl, hhc'.symm, rfl, rfl, ?_, stashLoop_sublist hosts [] _, ?_, ?_,
                  stashLoop_nodup hosts [] _⟩
                · intro hne1 hne2
                  obtain ⟨o1, _, _, o4⟩ := osWriteAll_ok _ fs1 stashPath _ hw hold
                  have hsave := SaveToFile_ok _ fs' _ _ (Prod.ext hfs' hsv)
                  rw [hsave.2.2.2.2.2.2.2.2 stashPath hne1 hne2, o1, linesOf_eq]
                · intro pre h post hD
                  rw [stashLoop_rule hosts [] _ pre h post hD, existingKeys_parseLines]
                  constructor
                  · rintro (h0 | ⟨h0, h1⟩)
                    · exact Or.inl h0
                    · by_cases hk : stashKey h.host = []
                      · exact Or.inl hk
                      · exact Or.inr ⟨fun hex => h0 ⟨hk, hex⟩, h1⟩
                  · rintro (h0 | ⟨h0, h1⟩)
                    · exact Or.inl h0
                    · exact Or.inr ⟨fun hex => h0 hex.2, h1⟩
                · intro h hh hk e he hkey
                  have := stashLoop_fresh hosts [] _ h hh hk
                  rw [existingKeys_parseLines] at this
                  exact this ⟨hk, e, he, hkey⟩

/-- C10 on an example: the stash already holds the second entry of `a.example`
(with another comment), so only the first one is appended. -/
theorem StashAddressWithPath_dedup_witness :
    StashAddressWithPath stashFS exampleHC "a.example".toList "st".toList
      = ((StashAddressWithPath stashFS exampleHC "a.example".toList "st".toList).1,
         (StashAddressWithPath stashFS exampleHC "a.example".toList "st".toList).2.1, none) ∧
    ∃ (hosts : List HostRef) (lines : List Str) (appended : List HostRef),
      mapGet exampleHC.Hosts "a.example".toList = some hosts ∧
      lines = (splitLinesFrom ((mapGet stashFS.files "st".toList).getD []) []).map dropCR ∧
      appended = stashLoop hosts [] (existingKeys (parseLines "st".toList 0 lines)) ∧
      appended.Sublist (firstVisits hosts) :=
  by
  have hok : StashAddressWithPath stashFS exampleHC "a.example".toList "st".toList
      = ((StashAddressWithPath stashFS exampleHC "a.example".toList "st".toList).1,
         (StashAddressWithPath stashFS exampleHC "a.example".toList "st".toList).2.1, none) := by
    decide
  obtain ⟨hosts, lines, appended, h1, _, h3, h4, _, h6, _⟩ :=
    StashAddressWithPath_dedup stashFS
      (StashAddressWithPath stashFS exampleHC "a.example".toList "st".toList).1 exampleHC
      (StashAddressWithPath stashFS exampleHC "a.example".toList "st".toList).2.1
      "a.example".toList "st".toList hok
  exact ⟨hok, hosts, lines, appended, h1, h3, h4, h6⟩

/-- The stash file of the example after the call: one line was appended. -/
theorem StashAddressWithPath_example :
    mapGet (StashAddressWithPath stashFS exampleHC "a.example".toList "st".toList).1.files
        "st".toList
      = some ("a.example ssh-ed25519 BBBB kept earlier\n" ++
          "b.example,a.example ssh-rsa AAAA\n").toList := by
  decide

/-! ## C6, C9: entries lost on the way to a file -/

/-- C6 (evaluation at the failing input): the file `,#foo ssh-rsa KEY` parses to
one entry with the address `#foo`; `Save` writes it as the line
`#foo ssh-rsa KEY`, and parsing the saved file yields no entry at all. -/
theorem Save_roundtrip_loses_entry :
    ∃ hc hc2 : HostCollection,
      ParseKnownHosts commentFS 0 "kh".toList = Except.ok hc ∧
      (distinctEntries hc).map (fun e => entryFields e.host)
        = [(["#foo".toList], "ssh-rsa".toList, "KEY".toList, [])] ∧
      (Save commentFS hc).2 = none ∧
      mapGet (Save commentFS hc).1.files "kh".toList
        = some (saveHeader ++ "#foo ssh-rsa KEY\n".toList) ∧
      ParseKnownHosts (Save commentFS hc).1 0 "kh".toList = Except.ok hc2 ∧
      (distinctEntries hc2).map (fun e => entryFields e.host) = [] :=
  ⟨_, _, rfl, by decide, by decide, by decide, rfl, by decide⟩

/-- C9 (evaluation at the failing input): the stash file ends with the
unterminated line `foo ssh-rsa K`; stashing `bar` succeeds, the line of `bar` is
appended right behind it, and the stash then parses to the single entry `foo`
with key `Kbar`: no entry with the addresses, type and key of `bar` is in the
stash, and the primary file no longer lists `bar` either. -/
theorem Stash_loses_entry :
    ∃ hc st after : HostCollection,
      ParseKnownHosts unterminatedFS 0 "kh".toList = Except.ok hc ∧
      (GetHostsByAddress hc "bar".toList).map (fun e => entryFields e.host)
        = [(["bar".toList], "ssh-rsa".toList, "K2".toList, [])] ∧
      (StashAddressWithPath unterminatedFS hc "bar".toList "st".toList).2.2 = none ∧
      mapGet (StashAddressWithPath unterminatedFS hc "bar".toList "st".toList).1.files
          "st".toList = some "foo ssh-rsa Kbar ssh-rsa K2\n".toList ∧
      ParseKnownHosts (StashAddressWithPath unterminatedFS hc "bar".toList "st".toList).1 0
          "st".toList = Except.ok st ∧
      (distinctEntries st).map (fun e => entryFields e.host)
        = [(["foo".toList], "ssh-rsa".toList, "Kbar".toList, "ssh-rsa K2".toList)] ∧
      ParseKnownHosts (StashAddressWithPath unterminatedFS hc "bar".toList "st".toList).1 0
          "kh".toList = Except.ok after ∧
      distinctEntries after = [] :=
  ⟨_, _, _, rfl, by decide, by decide, by decide, rfl, by decide, rfl, by decide⟩

/-! ## When `parseHostLine` returns an entry -/

theorem parseHostLine_short (line : Str) (n : Int) (h : (Fields line).length < 3) :
    parseHostLine line n = none := by
  unfold parseHostLine
  simp only [h, if_true]

theorem parseHostLine_no_address (line : Str) (n : Int)
    (h : collectAddresses (Split ((Fields line).getD 0 []) ',') [] = []) :
    parseHostLine line n = none := by
  unfold parseHostLine
  simp only [Host.zero, h, List.length_nil, if_true]
  split
  · rfl
  · split <;> rfl

/-- An entry is returned exactly for a line with at least three fields whose
first field has a surviving address token, and it is the entry built from them. -/
theorem parseHostLine_some (line : Str) (n : Int) (h : Host)
    (hp : parseHostLine line n = some h) :
    ∃ (f0 f1 f2 : Str) (rest : List Str),
      Fields line = f0 :: f1 :: f2 :: rest ∧
      collectAddresses (Split f0 ',') [] ≠ [] ∧
      h = { Addresses := collectAddresses (Split f0 ',') [],
            KeyType := f1, Key := f2, Comment := Join rest [' '], LineNumber := n,
            IsHashed := HasPrefix ((collectAddresses (Split f0 ',') []).getD 0 []) ['|'],
            HashValue :=
              if HasPrefix ((collectAddresses (Split f0 ',') []).getD 0 []) ['|'] then
                (collectAddresses (Split f0 ',') []).getD 0 []
              else [] } := by
  cases hF : Fields line with
  | nil => rw [parseHostLine_short line n (by rw [hF]; simp)] at hp; exact Option.noConfusion hp
  | cons f0 r1 =>
    cases r1 with
    | nil => rw [parseHostLine_short line n (by rw [hF]; simp)] at hp; exact Option.noConfusion hp
    | cons f1 r2 =>
      cases r2 with
      | nil =>
        rw [parseHostLine_short line n (by rw [hF]; simp)] at hp
        exact Option.noConfusion hp
      | cons f2 rest =>
        by_cases haddr : collectAddresses (Split f0 ',') [] = []
        · rw [parseHostLine_no_address line n (by rw [hF]; exact haddr)] at hp
          exact Option.noConfusion hp
        · rw [parseHostLine_eq line n f0 f1 f2 rest hF haddr, Option.some.injEq] at hp
          exact ⟨f0, f1, f2, rest, rfl, haddr, hp.symm⟩

/-! ## C17, C18: hashed entries -/

theorem HasPrefix_singleton (s : Str) (c : Char) :
    HasPrefix s [c] = true ↔ s.head? = some c := by
  cases s with
  | nil => simp [HasPrefix, List.isPrefixOf]
  | cons a as =>
    simp only [HasPrefix, List.isPrefixOf, Bool.and_true, beq_iff_eq, List.head?_cons,
      Option.some.injEq]
    exact eq_comm

/-- C17: for a line for which `parseHostLine` returns an entry, the addresses
are the surviving tokens of field 0, there is a first one, `IsHashed` is true
exactly when that first token begins with `|`, `HashValue` is that token when
`IsHashed` is true and is empty when it is false. -/
theorem parseHostLine_hashed (line : Str) (n : Int) (h : Host)
    (hp : parseHostLine line n = some h) :
    ∃ (first : Str) (others : List Str),
      ((Split ((Fields line).getD 0 []) ',').map TrimSpace).filter
          (fun t => decide (t ≠ [])) = first :: others ∧
      h.Addresses = first :: others ∧
      (h.IsHashed = true ↔ first.head? = some '|') ∧
      (h.IsHashed = true → h.HashValue = first) ∧
      (h.IsHashed = false → h.HashValue = []) := by
  obtain ⟨f0, f1, f2, rest, hF, haddr, rfl⟩ := parseHostLine_some line n h hp
  obtain ⟨first, others, hA⟩ := List.exists_cons_of_ne_nil haddr
  refine ⟨first, others, ?_, hA, ?_, ?_, ?_⟩
  · rw [hF, List.getD_cons_zero, ← hA, collectAddresses_eq, List.nil_append]
  · simp only [hA, List.getD_cons_zero]
    exact HasPrefix_singleton first '|'
  · intro hh
    simp only [hA, List.getD_cons_zero] at hh ⊢
    rw [if_pos hh]
  · intro hh
    simp only [hA, List.getD_cons_zero] at hh ⊢
    rw [hh]
    rfl

/-- C17 on the documented hashed line: it parses to a hashed entry whose hash
value is the token, and the entry is indexed under that token. -/
theorem parseHostLine_hashed_witness :
    parseHostLine hashedLine 1 = some hashedHost ∧
    (∃ (first : Str) (others : List Str),
      ((Split ((Fields hashedLine).getD 0 []) ',').map TrimSpace).filter
          (fun t => decide (t ≠ [])) = first :: others ∧
      hashedHost.Addresses = first :: others ∧
      (hashedHost.IsHashed = true ↔ first.head? = some '|') ∧
      (hashedHost.IsHashed = true → hashedHost.HashValue = first) ∧
      (hashedHost.IsHashed = false → hashedHost.HashValue = [])) ∧
    hashedHost.IsHashed = true ∧
    hashedHost.HashValue = "|1|abc123base64|def456base64=".toList ∧
    GetHostsByAddress (parseLines [] 0 [hashedLine]) "|1|abc123base64|def456base64=".toList
      = [⟨0, hashedHost⟩] :=
  ⟨by decide, parseHostLine_hashed hashedLine 1 hashedHost (by decide), rfl, rfl, by decide⟩

/-- C18 (as amended): for a line for which `parseHostLine` returns a hashed
entry, `HashValue` is the first address; the addresses are the one-element
sequence `[HashValue]` exactly when field 0 has a single surviving token; every
surviving token is kept as an address, and adding the entry to a collection
puts it in the slot of every one of them. -/
theorem parseHostLine_hashed_addresses (line : Str) (n : Int) (h : Host)
    (hp : parseHostLine line n = some h) (hh : h.IsHashed = true) :
    h.Addresses.head? = some h.HashValue ∧
    h.Addresses = ((Split ((Fields line).getD 0 []) ',').map TrimSpace).filter
        (fun t => decide (t ≠ [])) ∧
    (h.Addresses = [h.HashValue] ↔
      (((Split ((Fields line).getD 0 []) ',').map TrimSpace).filter
        (fun t => decide (t ≠ []))).length = 1) ∧
    (∀ (hc : HostCollection) (r : Nat), ∀ a ∈ h.Addresses,
      (⟨r, h⟩ : HostRef) ∈ GetHostsByAddress (AddHost hc (some ⟨r, h⟩)) a) := by
  obtain ⟨f0, f1, f2, rest, hF, haddr, rfl⟩ := parseHostLine_some line n h hp
  obtain ⟨first, others, hA⟩ := List.exists_cons_of_ne_nil haddr
  have htok : ((Split ((Fields line).getD 0 []) ',').map TrimSpace).filter
      (fun t => decide (t ≠ [])) = first :: others := by
    rw [hF, List.getD_cons_zero, ← hA, collectAddresses_eq, List.nil_append]
  simp only [hA, List.getD_cons_zero] at hh ⊢
  rw [htok, if_pos hh]
  refine ⟨rfl, rfl, ?_, ?_⟩
  · constructor
    · intro e
      rw [e]
      rfl
    · intro e
      cases others with
      | nil => rfl
      | cons o os => simp at e
  · intro hc r a ha
    rw [AddHost_get]
    apply List.mem_append_right
    rw [List.mem_replicate]
    refine ⟨?_, rfl⟩
    exact Nat.pos_iff_ne_zero.1 (List.count_pos_iff.2 ha)

/-- C18 on the documented hashed line, whose field 0 is the hash token alone. -/
theorem parseHostLine_hashed_addresses_witness :
    parseHostLine hashedLine 1 = some hashedHost ∧ hashedHost.IsHashed = true ∧
    hashedHost.Addresses.head? = some hashedHost.HashValue :=
  ⟨by decide, rfl,
    (parseHostLine_hashed_addresses hashedLine 1 hashedHost (by decide) rfl).1⟩

/-- C18 (as stated, refuted): the line `|1|abc|def=,other.example ssh-rsa KEY`
parses to a hashed entry with two addresses, which is indexed under both. -/
theorem parseHostLine_hashed_not_single :
    ∃ h : Host, parseHostLine hashedListLine 1 = some h ∧ h.IsHashed = true ∧
      h.HashValue = "|1|abc|def=".toList ∧
      h.Addresses = ["|1|abc|def=".toList, "other.example".toList] ∧
      h.Addresses ≠ [h.HashValue] ∧
      GetHostsByAddress (parseLines [] 0 [hashedListLine]) "other.example".toList
        = [⟨0, h⟩] :=
  ⟨_, rfl, by decide, by decide, by decide, by decide, by decide⟩

/-! ## C19: skipped lines -/

theorem collectAddresses_eq_nil_iff (raw : List Str) :
    collectAddresses raw [] = [] ↔ ∀ t ∈ raw, TrimSpace t = [] := by
  rw [collectAddresses_eq, List.nil_append, List.filter_eq_nil_iff]
  constructor
  · intro h t ht
    have := h (TrimSpace t) (List.mem_map_of_mem TrimSpace ht)
    simpa using this
  · intro h t ht
    obtain ⟨s, hs, rfl⟩ := List.mem_map.1 ht
    simp [h s hs]

/-- The per-line step yields no entry exactly for a blank line, a comment line,
a line with fewer than three fields and a line whose first field has no
non-empty token. -/
theorem parseStep_none_iff (raw : Str) (n : Int) :
    parseStep raw n = none ↔
      TrimSpace raw = [] ∨ (TrimSpace raw).head? = some '#' ∨
      (Fields (TrimSpace raw)).length < 3 ∨
      ∀ t ∈ Split ((Fields (TrimSpace raw)).getD 0 []) ',', t = [] := by
  unfold parseStep
  simp only [HasPrefix_singleton]
  by_cases h1 : TrimSpace raw = []
  · simp [h1]
  · by_cases h2 : (TrimSpace raw).head? = some '#'
    · simp [h2]
    · have hcond : ¬ (TrimSpace raw = [] ∨ (TrimSpace raw).head? = some '#') := by
        rintro (h | h)
        · exact h1 h
        · exact h2 h
      rw [if_neg hcond]
      constructor
      · intro hnone
        by_cases h3 : (Fields (TrimSpace raw)).length < 3
        · exact Or.inr (Or.inr (Or.inl h3))
        · refine Or.inr (Or.inr (Or.inr ?_))
          obtain ⟨f0, r1, hF⟩ : ∃ f0 r1, Fields (TrimSpace raw) = f0 :: r1 := by
            cases hF : Fields (TrimSpace raw) with
            | nil => rw [hF] at h3; simp at h3
            | cons f0 r1 => exact ⟨f0, r1, rfl⟩
          obtain ⟨f1, r2, hr1⟩ : ∃ f1 r2, r1 = f1 :: r2 := by
            cases r1 with
            | nil => rw [hF] at h3; simp at h3
            | cons f1 r2 => exact ⟨f1, r2, rfl⟩
          obtain ⟨f2, rest, hr2⟩ : ∃ f2 rest, r2 = f2 :: rest := by
            cases r2 with
            | nil => rw [hF, hr1] at h3; simp at h3
            | cons f2 rest => exact ⟨f2, rest, rfl⟩
          subst hr1 hr2
          have haddr : collectAddresses (Split f0 ',') [] = [] := by
            by_contra hne
            rw [parseHostLine_eq _ n f0 f1 f2 rest hF hne] at hnone
            exact Option.noConfusion hnone
          rw [hF, List.getD_cons_zero]
          intro t ht
          have hclean : ∀ c ∈ t, isSpace c = false := fun c hc =>
            (Fields_clean (TrimSpace raw) f0 (by rw [hF]; simp)).2 c
              (mem_of_mem_Split f0 ',' t ht c hc)
          rw [← TrimSpace_of_clean t hclean]
          exact (collectAddresses_eq_nil_iff _).1 haddr t ht
      · rintro (h | h | h | h)
        · exact absurd h h1
        · exact absurd h h2
        · exact parseHostLine_short _ n h
        · apply parseHostLine_no_address
          rw [collectAddresses_eq_nil_iff]
          intro t ht
          rw [h t ht]
          rfl

theorem splitLinesFrom_no_lf (l : Str) (hl : '\n' ∉ l) :
    ∀ cur : Str, splitLinesFrom l cur = if cur ++ l = [] then [] else [cur ++ l] := by
  induction l with
  | nil => intro cur; simp [splitLinesFrom]
  | cons c cs ih =>
    intro cur
    have hc : c ≠ '\n' := fun e => hl (by rw [e]; exact List.mem_cons_self _ _)
    have hcs : '\n' ∉ cs := fun h => hl (List.mem_cons_of_mem _ h)
    simp only [splitLinesFrom, if_neg hc]
    rw [ih hcs]
    simp

theorem length_le_byteLen (s : Str) : s.length ≤ byteLen s := by
  induction s with
  | nil => simp [byteLen]
  | cons c cs ih =>
    have hpos : 0 < c.utf8Size := Char.utf8Size_pos c
    simp only [byteLen, List.map_cons, List.sum_cons, List.length_cons] at ih ⊢
    omega

/-- `ParseKnownHosts` of a named file fails exactly when the file cannot be
opened or one of its physical lines has 65536 bytes or more; otherwise it
returns the collection parsed from the lines. -/
theorem ParseKnownHosts_cases (fs : FS) (base : Nat) (p : Str) (hp : p ≠ []) :
    (∀ e, osOpen fs p = Except.error e →
      ParseKnownHosts fs base p = Except.error Err.failedToOpenKnownHosts) ∧
    (∀ content, osOpen fs p = Except.ok content →
      ((∃ l ∈ splitLinesFrom content [], maxScanTokenSize ≤ byteLen l) →
        ParseKnownHosts fs base p = Except.error Err.errorReadingKnownHosts) ∧
      ((∀ l ∈ splitLinesFrom content [], byteLen l < maxScanTokenSize) →
        ParseKnownHosts fs base p
          = Except.ok (parseLines p base ((splitLinesFrom content []).map dropCR)))) := by
  unfold ParseKnownHosts
  simp only [hp, if_false]
  refine ⟨?_, ?_⟩
  · intro e he
    rw [he]
  · intro content hc
    rw [hc]
    simp only []
    refine ⟨?_, ?_⟩
    · rintro ⟨l, hl, hlong⟩
      have hany : (splitLinesFrom content []).any
          (fun l => decide (maxScanTokenSize ≤ byteLen l)) = true := by
        rw [List.any_eq_true]
        exact ⟨l, hl, by simpa using hlong⟩
      rw [if_pos hany]
    · intro hall
      have hany : ¬ (splitLinesFrom content []).any
          (fun l => decide (maxScanTokenSize ≤ byteLen l)) = true := by
        rw [List.any_eq_true]
        rintro ⟨l, hl, hlong⟩
        have := hall l hl
        simp only [decide_eq_true_eq] at hlong
        omega
      rw [if_neg hany]

/-- C19 (as amended): the per-line step yields no entry exactly when the
trimmed line is empty, or begins with `#`, or has fewer than three fields, or
has no non-empty token in field 0; such a line leaves the collection being
built as it is; and `ParseKnownHosts` of a file that can be opened and whose
physical lines are all shorter than 65536 bytes returns the parsed collection,
whatever lines are skipped. -/
theorem parseStep_skipped (raw : Str) (n : Int) :
    (parseStep raw n = none ↔
      TrimSpace raw = [] ∨ (TrimSpace raw).head? = some '#' ∨
      (Fields (TrimSpace raw)).length < 3 ∨
      ∀ t ∈ Split ((Fields (TrimSpace raw)).getD 0 []) ',', t = []) ∧
    (parseStep raw n = none →
      ∀ (rest : List Str) (next : Nat) (hc : HostCollection),
        parseLoop (raw :: rest) (n - 1) next hc = parseLoop rest n next hc) ∧
    (∀ (fs : FS) (base : Nat) (p content : Str), p ≠ [] →
      osOpen fs p = Except.ok content →
      (∀ l ∈ splitLinesFrom content [], byteLen l < maxScanTokenSize) →
      ParseKnownHosts fs base p
        = Except.ok (parseLines p base ((splitLinesFrom content []).map dropCR))) := by
  refine ⟨parseStep_none_iff raw n, ?_, ?_⟩
  · intro hnone rest next hc
    have hn : n - 1 + 1 = n := by omega
    simp only [parseLoop, hn, hnone]
  · intro fs base p content hp hopen hall
    exact ((ParseKnownHosts_cases fs base p hp).2 content hopen).2 hall

theorem longCommentLine_clean : ∀ c ∈ longCommentLine, isSpace c = false := by
  intro c hc
  unfold longCommentLine at hc
  rcases List.mem_cons.1 hc with rfl | h
  · decide
  · rw [(List.mem_replicate.1 h).2]
    decide

/-- C19 (as stated, refuted): a comment line of 65537 bytes is a line for which
the per-line step yields no entry, and it makes `ParseKnownHosts` fail. -/
theorem ParseKnownHosts_fails_on_long_comment :
    parseStep longCommentLine 1 = none ∧
    ParseKnownHosts longCommentFS 0 "kh".toList = Except.error Err.errorReadingKnownHosts := by
  refine ⟨?_, ?_⟩
  · rw [parseStep_none_iff, TrimSpace_of_clean longCommentLine longCommentLine_clean]
    exact Or.inr (Or.inl rfl)
  · have hopen : osOpen longCommentFS "kh".toList = Except.ok longCommentLine := by
      rfl
    have hlf : '\n' ∉ longCommentLine := by
      intro h
      have := longCommentLine_clean '\n' h
      revert this
      decide
    have hsplit : splitLinesFrom longCommentLine [] = [longCommentLine] := by
      have hne : longCommentLine ≠ [] := List.cons_ne_nil _ _
      rw [splitLinesFrom_no_lf longCommentLine hlf [], List.nil_append, if_neg hne]
    refine ((ParseKnownHosts_cases longCommentFS 0 "kh".toList (by decide)).2
      longCommentLine hopen).1 ⟨longCommentLine, ?_, ?_⟩
    · rw [hsplit]
      exact List.mem_singleton_self _
    · have hlen := length_le_byteLen longCommentLine
      have hl : longCommentLine.length = 65537 := by
        unfold longCommentLine
        rw [List.length_cons, List.length_replicate]
      simp only [maxScanTokenSize]
      omega

/-! ## C20: how often a slot holds an entry -/

/-- The parsed entries have pairwise distinct identities. -/
theorem parsedEntries_nodup (base : Nat) (lines : List Str) :
    ((parsedEntries base lines).map HostRef.ref).Nodup := by
  unfold parsedEntries
  rw [List.map_map]
  have : (HostRef.ref ∘ fun p : Nat × Host => (⟨p.1, p.2⟩ : HostRef)) = Prod.fst := by
    funext p
    rfl
  rw [this, List.enumFrom_map_fst]
  exact List.nodup_range' _ _

theorem count_flatMap_replicate (c : HostRef → Nat) (e : HostRef) (l : List HostRef)
    (hnd : l.Nodup) :
    (l.flatMap (fun x => List.replicate (c x) x)).count e = if e ∈ l then c e else 0 := by
  induction l with
  | nil => simp
  | cons x xs ih =>
    rw [List.nodup_cons] at hnd
    rw [List.flatMap_cons, List.count_append, ih hnd.2, List.count_replicate]
    by_cases hx : x = e
    · subst hx
      simp [hnd.1]
    · have hx' : ¬ e = x := fun h => hx h.symm
      have hb : (x == e) = false := by simpa using hx
      simp [hx', hb]

/-- C20 (as amended): the slot of `a` in the parsed collection holds a parsed
entry as many times as `a` occurs in the address list of the entry, and holds
nothing else; so it holds every entry at most once exactly when no parsed entry
lists `a` twice. -/
theorem ParseKnownHosts_slot_count (filePath : Str) (base : Nat) (lines : List Str)
    (a : Str) :
    (∀ e : HostRef, (GetHostsByAddress (parseLines filePath base lines) a).count e
      = if e ∈ parsedEntries base lines then e.host.Addresses.count a else 0) ∧
    ((GetHostsByAddress (parseLines filePath base lines) a).Nodup ↔
      ∀ e ∈ parsedEntries base lines, e.host.Addresses.count a ≤ 1) := by
  have hnd : (parsedEntries base lines).Nodup :=
    List.Nodup.of_map _ (parsedEntries_nodup base lines)
  have hcount : ∀ e : HostRef, (GetHostsByAddress (parseLines filePath base lines) a).count e
      = if e ∈ parsedEntries base lines then e.host.Addresses.count a else 0 := by
    intro e
    rw [parseLines_get]
    exact count_flatMap_replicate (fun x => x.host.Addresses.count a) e _ hnd
  refine ⟨hcount, ?_⟩
  rw [List.nodup_iff_count_le_one]
  constructor
  · intro h e he
    have := h e
    rw [hcount e, if_pos he] at this
    exact this
  · intro h e
    rw [hcount e]
    by_cases he : e ∈ parsedEntries base lines
    · rw [if_pos he]
      exact h e he
    · rw [if_neg he]
      exact Nat.zero_le 1

/-- C20 (as stated, refuted): the line `a,a ssh-rsa KEY` gives a slot of `a`
that holds the entry of the line twice. -/
theorem ParseKnownHosts_slot_repeats :
    ∃ e : HostRef, parsedEntries 0 ["a,a ssh-rsa KEY".toList] = [e] ∧
      (GetHostsByAddress (parseLines [] 0 ["a,a ssh-rsa KEY".toList]) "a".toList).count e = 2 ∧
      ¬ (GetHostsByAddress (parseLines [] 0 ["a,a ssh-rsa KEY".toList]) "a".toList).Nodup :=
  ⟨_, rfl, by decide, by decide⟩

/-! ## C16: the index invariant -/

theorem mem_mapSet {V : Type} (m : List (Str × V)) (k : Str) (v : V) (p : Str × V)
    (hp : p ∈ mapSet m k v) : p ∈ m ∨ p = (k, v) := by
  induction m with
  | nil =>
    simp only [mapSet, List.mem_singleton] at hp
    exact Or.inr hp
  | cons q rest ih =>
    obtain ⟨k', v'⟩ := q
    rw [mapSet_cons] at hp
    by_cases h : k' = k
    · rw [if_pos h] at hp
      rcases List.mem_cons.1 hp with e | e
      · exact Or.inr e
      · exact Or.inl (List.mem_cons_of_mem _ e)
    · rw [if_neg h] at hp
      rcases List.mem_cons.1 hp with e | e
      · exact Or.inl (e ▸ List.mem_cons_self _ _)
      · rcases ih e with e' | e'
        · exact Or.inl (List.mem_cons_of_mem _ e')
        · exact Or.inr e'

theorem mem_mapDelete {V : Type} (m : List (Str × V)) (k : Str) (p : Str × V)
    (hp : p ∈ mapDelete m k) : p ∈ m := by
  induction m with
  | nil => simp [mapDelete] at hp
  | cons q rest ih =>
    obtain ⟨k', v'⟩ := q
    rw [mapDelete_cons] at hp
    by_cases h : k' = k
    · rw [if_pos h] at hp
      exact List.mem_cons_of_mem _ (ih hp)
    · rw [if_neg h] at hp
      rcases List.mem_cons.1 hp with e | e
      · exact e ▸ List.mem_cons_self _ _
      · exact List.mem_cons_of_mem _ (ih e)

theorem addHostLoop_inv (e : HostRef) (addrs : List Str) :
    ∀ m : List (Str × List HostRef), (∀ a ∈ addrs, a ∈ e.host.Addresses) →
      (∀ p ∈ m, ∀ x ∈ p.2, p.1 ∈ x.host.Addresses) →
      ∀ p ∈ addHostLoop addrs e m, ∀ x ∈ p.2, p.1 ∈ x.host.Addresses := by
  induction addrs with
  | nil => intro m _ hm; exact hm
  | cons a rest ih =>
    intro m hsub hm
    simp only [addHostLoop]
    apply ih _ (fun b hb => hsub b (List.mem_cons_of_mem _ hb))
    have h1 : ∀ p ∈ (if (mapGet m a).isNone = true then mapSet m a [] else m),
        ∀ x ∈ p.2, p.1 ∈ x.host.Addresses := by
      intro p hp x hx
      by_cases hn : (mapGet m a).isNone = true
      · rw [if_pos hn] at hp
        rcases mem_mapSet m a [] p hp with h | h
        · exact hm p h x hx
        · rw [h] at hx
          simp at hx
      · rw [if_neg hn] at hp
        exact hm p hp x hx
    intro p hp x hx
    rcases mem_mapSet _ a _ p hp with h | h
    · exact h1 p h x hx
    · rw [h] at hx ⊢
      rcases List.mem_append.1 hx with hx | hx
      · cases hg : mapGet (if (mapGet m a).isNone = true then mapSet m a [] else m) a with
        | none => rw [hg] at hx; simp at hx
        | some slot =>
          rw [hg] at hx
          exact h1 (a, slot) (mem_of_mapGet _ a slot hg) x hx
      · rw [List.mem_singleton.1 hx]
        exact hsub a (List.mem_cons_self _ _)

theorem AddHost_inv (hc : HostCollection) (host : Option HostRef) (h : IndexInv hc) :
    IndexInv (AddHost hc host) := by
  cases host with
  | none => exact h
  | some e =>
    unfold AddHost
    by_cases hl : e.host.Addresses.length = 0
    · simp only [hl, if_true]
      exact h
    · simp only [hl, if_false]
      exact addHostLoop_inv e e.host.Addresses hc.Hosts (fun a ha => ha) h

theorem RemoveAllHosts_inv (hc : HostCollection) (address : Str) (h : IndexInv hc) :
    IndexInv (RemoveAllHosts hc address).1 := by
  unfold RemoveAllHosts
  cases mapGet hc.Hosts address with
  | none => exact h
  | some slot =>
    intro p hp
    exact h p (mem_mapDelete _ _ p hp)

theorem RemoveHost_inv (hc : HostCollection) (address : Str) (index : Int)
    (h : IndexInv hc) : IndexInv (RemoveHost hc address index).1 := by
  unfold RemoveHost
  cases hg : mapGet hc.Hosts address with
  | none => exact h
  | some hosts =>
    simp only []
    by_cases hcond : index < 0 ∨ index ≥ (hosts.length : Int)
    · rw [if_pos hcond]
      exact h
    · rw [if_neg hcond]
      have hset : ∀ p ∈ mapSet hc.Hosts address
            (hosts.take index.toNat ++ hosts.drop (index.toNat + 1)),
          ∀ x ∈ p.2, p.1 ∈ x.host.Addresses := by
        intro p hp x hx
        rcases mem_mapSet _ _ _ p hp with hm | hm
        · exact h p hm x hx
        · rw [hm] at hx ⊢
          have hxin : x ∈ hosts := by
            rcases List.mem_append.1 hx with hx | hx
            · exact List.mem_of_mem_take hx
            · exact List.mem_of_mem_drop hx
          exact h (address, hosts) (mem_of_mapGet _ _ _ hg) x hxin
      intro p hp
      simp only [] at hp
      split at hp
      · exact hset p (mem_mapDelete _ _ p hp)
      · exact hset p hp

theorem applyOps_inv (ops : List IndexOp) :
    ∀ hc : HostCollection, IndexInv hc → IndexInv (applyOps hc ops) := by
  induction ops with
  | nil => intro hc h; exact h
  | cons op rest ih =>
    intro hc h
    unfold applyOps
    rw [List.foldl_cons]
    apply ih
    cases op with
    | add host => exact AddHost_inv hc host h
    | remove address index => exact RemoveHost_inv hc address index h
    | removeAll address => exact RemoveAllHosts_inv hc address h

theorem parseLoop_inv (lines : List Str) :
    ∀ (k : Int) (next : Nat) (hc : HostCollection), IndexInv hc →
      IndexInv (parseLoop lines k next hc) := by
  induction lines with
  | nil => intro k next hc h; exact h
  | cons raw rest ih =>
    intro k next hc h
    simp only [parseLoop]
    cases parseStep raw (k + 1) with
    | none => exact ih _ _ _ h
    | some x => exact ih _ _ _ (AddHost_inv hc _ h)

theorem NewHostCollection_inv (filePath : Str) : IndexInv (NewHostCollection filePath) := by
  intro p hp
  simp [NewHostCollection] at hp

/-- Whatever `ParseKnownHosts` returns was built by the scanning loop. -/
theorem ParseKnownHosts_parsed (fs : FS) (base : Nat) (p : Str) (hc : HostCollection)
    (h : ParseKnownHosts fs base p = Except.ok hc) :
    ∃ (filePath : Str) (lines : List Str), hc = parseLines filePath base lines := by
  unfold ParseKnownHosts at h
  simp only [] at h
  split at h
  · exact Except.noConfusion h
  · split at h
    · exact Except.noConfusion h
    · simp only [Except.ok.injEq] at h
      exact ⟨_, _, h.symm⟩

/-- C16: the collection `ParseKnownHosts` returns, and every collection obtained
from an empty one by a sequence of `AddHost`, `RemoveHost` and `RemoveAllHosts`
calls, satisfies the index invariant: every entry in the slot of an address
lists that address.  The parser never returns an entry without addresses, and
no entry in a slot of such a collection is without addresses. -/
theorem index_invariant (filePath : Str) (ops : List IndexOp) :
    IndexInv (applyOps (NewHostCollection filePath) ops) ∧
    (∀ (fs : FS) (base : Nat) (p : Str) (hc : HostCollection),
      ParseKnownHosts fs base p = Except.ok hc → IndexInv (applyOps hc ops)) ∧
    (∀ (line : Str) (n : Int) (h : Host), parseHostLine line n = some h → h.Addresses ≠ []) ∧
    (∀ q ∈ (applyOps (NewHostCollection filePath) ops).Hosts, ∀ e ∈ q.2,
      e.host.Addresses ≠ []) := by
  have hnew := applyOps_inv ops _ (NewHostCollection_inv filePath)
  refine ⟨hnew, ?_, parseHostLine_addresses, ?_⟩
  · intro fs base p hc hparse
    obtain ⟨fp, lines, rfl⟩ := ParseKnownHosts_parsed fs base p hc hparse
    exact applyOps_inv ops _ (parseLoop_inv lines 0 base _ (NewHostCollection_inv fp))
  · intro q hq e he hnil
    have := hnew q hq e he
    rw [hnil] at this
    simp at this

/-! ## C14: a failed move leaves the index alone -/

/-- The outcome of `MoveHostToFile`: either an error with the collection as it
was, or success with the collection `RemoveHost` leaves. -/
theorem MoveHostToFile_outcome (fs : FS) (hc : HostCollection) (address : Str) (index : Int)
    (targetFile : Str) :
    ((MoveHostToFile fs hc address index targetFile).2.2 ≠ none ∧
      (MoveHostToFile fs hc address index targetFile).2.1 = hc) ∨
    ((MoveHostToFile fs hc address index targetFile).2.2 = none ∧
      (MoveHostToFile fs hc address index targetFile).2.1 = (RemoveHost hc address index).1 ∧
      (RemoveHost hc address index).2 = none ∧
      ∃ (host : HostRef) (fs1 : FS),
        (GetHostsByAddress hc address)[index.toNat]? = some host ∧
        osWrite fs1 targetFile (formatKnownHostsLine host.host ++ ['\n'])
          = Except.ok (MoveHostToFile fs hc address index targetFile).1) := by
  unfold MoveHostToFile
  cases hg : mapGet hc.Hosts address with
  | none => exact Or.inl ⟨by simp, rfl⟩
  | some hosts =>
    simp only []
    by_cases hcond : index < 0 ∨ index ≥ (hosts.length : Int)
    · rw [if_pos hcond]
      exact Or.inl ⟨by simp, rfl⟩
    · rw [if_neg hcond]
      have h0 : 0 ≤ index := by omega
      have h1 : index < (hosts.length : Int) := by omega
      cases hh : hosts[index.toNat]? with
      | none => exact Or.inl ⟨by simp, rfl⟩
      | some host =>
        simp only []
        cases hc1 : (if osStatNotExist fs targetFile = true then osCreate fs targetFile
            else Except.ok fs) with
        | error e => exact Or.inl ⟨by simp, rfl⟩
        | ok fs1 =>
          simp only []
          cases ho : osOpenAppend fs1 targetFile with
          | some e => exact Or.inl ⟨by simp, rfl⟩
          | none =>
            simp only []
            cases hw : osWrite fs1 targetFile (formatKnownHostsLine host.host ++ ['\n']) with
            | error e => exact Or.inl ⟨by simp, rfl⟩
            | ok fs2 =>
              simp only []
              have hrem := RemoveHost_ok hc address index hosts hg h0 h1
              have hnone : (RemoveHost hc address index).2 = none := by rw [hrem]
              refine Or.inr ⟨hnone, trivial, hnone, host, fs1, ?_, hw⟩
              simp only [GetHostsByAddress, hg, Option.getD_some]
              exact hh

/-- The outcome of `MoveAllHostsToFile`: either an error with the collection as
it was, or success after all lines were appended, with the key deleted. -/
theorem MoveAllHostsToFile_outcome (fs : FS) (hc : HostCollection) (address targetFile : Str) :
    ((MoveAllHostsToFile fs hc address targetFile).2.2 ≠ none ∧
      (MoveAllHostsToFile fs hc address targetFile).2.1 = hc) ∨
    ((MoveAllHostsToFile fs hc address targetFile).2.2 = none ∧
      (MoveAllHostsToFile fs hc address targetFile).2.1
        = { hc with Hosts := mapDelete hc.Hosts address } ∧
      ∃ fs1 : FS,
        osWriteAll fs1 targetFile
          ((firstVisits (GetHostsByAddress hc address)).map
            (fun h => formatKnownHostsLine h.host ++ ['\n']))
          = ((MoveAllHostsToFile fs hc address targetFile).1, none)) := by
  unfold MoveAllHostsToFile
  cases hg : mapGet hc.Hosts address with
  | none => exact Or.inl ⟨by simp, rfl⟩
  | some hosts =>
    simp only []
    by_cases hlen : hosts.length = 0
    · rw [if_pos hlen]
      exact Or.inl ⟨by simp, rfl⟩
    · rw [if_neg hlen]
      cases hc1 : (if osStatNotExist fs targetFile = true then osCreate fs targetFile
          else Except.ok fs) with
      | error e => exact Or.inl ⟨by simp, rfl⟩
      | ok fs1 =>
        simp only []
        cases ho : osOpenAppend fs1 targetFile with
        | some e => exact Or.inl ⟨by simp, rfl⟩
        | none =>
          simp only []
          by_cases hw : (osWriteAll fs1 targetFile
              ((firstVisitsFrom [] hosts).map
                (fun h => formatKnownHostsLine h.host ++ ['\n']))).2 ≠ none
          · rw [if_pos hw]
            exact Or.inl ⟨by simp, rfl⟩
          · rw [if_neg hw]
            refine Or.inr ⟨rfl, rfl, fs1, ?_⟩
            simp only [GetHostsByAddress, hg, Option.getD_some, firstVisits]
            exact Prod.ext rfl (not_not.1 hw)

/-- C14: when `MoveHostToFile` returns an error the collection is unchanged, so
the slot of the address has the same elements in the same order; likewise for
`MoveAllHostsToFile`.  The collection differs from the one before only when the
call succeeded, that is after the line or lines were appended: then it is what
`RemoveHost`, respectively the deletion of the key, leaves. -/
theorem Move_failure_atomic (fs : FS) (hc : HostCollection) (address : Str) (index : Int)
    (targetFile : Str) :
    ((MoveHostToFile fs hc address index targetFile).2.2 ≠ none →
      (MoveHostToFile fs hc address index targetFile).2.1 = hc ∧
      GetHostsByAddress (MoveHostToFile fs hc address index targetFile).2.1 address
        = GetHostsByAddress hc address) ∧
    ((MoveHostToFile fs hc address index targetFile).2.1 ≠ hc →
      (MoveHostToFile fs hc address index targetFile).2.2 = none ∧
      (MoveHostToFile fs hc address index targetFile).2.1 = (RemoveHost hc address index).1 ∧
      ∃ (host : HostRef) (fs1 : FS),
        (GetHostsByAddress hc address)[index.toNat]? = some host ∧
        osWrite fs1 targetFile (formatKnownHostsLine host.host ++ ['\n'])
          = Except.ok (MoveHostToFile fs hc address index targetFile).1) ∧
    ((MoveAllHostsToFile fs hc address targetFile).2.2 ≠ none →
      (MoveAllHostsToFile fs hc address targetFile).2.1 = hc) ∧
    ((MoveAllHostsToFile fs hc address targetFile).2.1 ≠ hc →
      (MoveAllHostsToFile fs hc address targetFile).2.2 = none ∧
      (MoveAllHostsToFile fs hc address targetFile).2.1
        = { hc with Hosts := mapDelete hc.Hosts address } ∧
      ∃ fs1 : FS,
        osWriteAll fs1 targetFile
          ((firstVisits (GetHostsByAddress hc address)).map
            (fun h => formatKnownHostsLine h.host ++ ['\n']))
          = ((MoveAllHostsToFile fs hc address targetFile).1, none)) := by
  refine ⟨?_, ?_, ?_, ?_⟩
  · intro herr
    rcases MoveHostToFile_outcome fs hc address index targetFile with ⟨_, h⟩ | ⟨h, _⟩
    · exact ⟨h, by rw [h]⟩
    · exact absurd h herr
  · intro hne
    rcases MoveHostToFile_outcome fs hc address index targetFile with ⟨_, h⟩ | ⟨h1, h2, _, h4⟩
    · exact absurd h hne
    · exact ⟨h1, h2, h4⟩
  · intro herr
    rcases MoveAllHostsToFile_outcome fs hc address targetFile with ⟨_, h⟩ | ⟨h, _⟩
    · exact h
    · exact absurd h herr
  · intro hne
    rcases MoveAllHostsToFile_outcome fs hc address targetFile with ⟨_, h⟩ | h
    · exact absurd h hne
    · exact h

/-! ## C11: failures of `StashAddressWithPath` -/

/-- The three ways `StashAddressWithPath` can end: refused at once with nothing
touched; failed on the stash file with the collection as it was; or past all
stash writes, with the key deleted and the primary file saved or not. -/
theorem StashAddressWithPath_outcome (fs : FS) (hc : HostCollection)
    (address stashPath : Str) :
    (StashAddressWithPath fs hc address stashPath = (fs, hc, some Err.hostNotFound) ∧
      (mapGet hc.Hosts address = none ∨ mapGet hc.Hosts address = some [])) ∨
    (StashAddressWithPath fs hc address stashPath
        = (fs, hc, some Err.stashPathNotAvailable) ∧
      (∃ hosts, mapGet hc.Hosts address = some hosts ∧ hosts ≠ []) ∧ stashPath = []) ∨
    ((StashAddressWithPath fs hc address stashPath).2.1 = hc ∧
      ((StashAddressWithPath fs hc address stashPath).2.2 = some Err.failedToCreateStash ∨
       (StashAddressWithPath fs hc address stashPath).2.2 = some Err.failedToParseStash ∨
       (StashAddressWithPath fs hc address stashPath).2.2 = some Err.failedToOpenStash ∨
       (StashAddressWithPath fs hc address stashPath).2.2 = some Err.failedToWriteStash)) ∨
    ((StashAddressWithPath fs hc address stashPath).2.1
        = { hc with Hosts := mapDelete hc.Hosts address } ∧
      ((StashAddressWithPath fs hc address stashPath).2.2 = none ∨
       (StashAddressWithPath fs hc address stashPath).2.2
         = some Err.failedToSaveAfterStash) ∧
      ∃ (hosts : List HostRef) (fs1 : FS) (stash : HostCollection),
        mapGet hc.Hosts address = some hosts ∧
        ParseKnownHosts fs1 0 stashPath = Except.ok stash ∧
        (osWriteAll fs1 stashPath
          ((stashLoop hosts [] (existingKeys stash)).map
            (fun h => formatKnownHostsLine h.host ++ ['\n']))).2 = none) := by
  unfold StashAddressWithPath
  cases hg : mapGet hc.Hosts address with
  | none => exact Or.inl ⟨rfl, Or.inl rfl⟩
  | some hosts =>
    simp only []
    by_cases hlen : hosts.length = 0
    · rw [if_pos hlen]
      exact Or.inl ⟨rfl, Or.inr (by rw [List.length_eq_zero.1 hlen])⟩
    · rw [if_neg hlen]
      have hne : hosts ≠ [] := fun e => hlen (by rw [e]; rfl)
      by_cases hsp : stashPath = []
      · rw [if_pos hsp]
        exact Or.inr (Or.inl ⟨rfl, ⟨hosts, rfl, hne⟩, hsp⟩)
      · rw [if_neg hsp]
        cases hc1 : (if osStatNotExist fs stashPath = true then osCreate fs stashPath
            else Except.ok fs) with
        | error e => exact Or.inr (Or.inr (Or.inl ⟨rfl, Or.inl rfl⟩))
        | ok fs1 =>
          simp only []
          cases hparse : ParseKnownHosts fs1 0 stashPath with
          | error e => exact Or.inr (Or.inr (Or.inl ⟨rfl, Or.inr (Or.inl rfl)⟩))
          | ok stash =>
            simp only []
            cases ho : osOpenAppend fs1 stashPath with
            | some e => exact Or.inr (Or.inr (Or.inl ⟨rfl, Or.inr (Or.inr (Or.inl rfl))⟩))
            | none =>
              simp only []
              by_cases hw : (osWriteAll fs1 stashPath
                  ((stashLoop hosts [] (existingKeys stash)).map
                    (fun h => formatKnownHostsLine h.host ++ ['\n']))).2 ≠ none
              · rw [if_pos hw]
                exact Or.inr (Or.inr (Or.inl ⟨rfl, Or.inr (Or.inr (Or.inr rfl))⟩))
              · rw [if_neg hw]
                refine Or.inr (Or.inr (Or.inr ?_))
                split
                · exact ⟨rfl, Or.inr rfl, hosts, fs1, stash, rfl, hparse, not_not.1 hw⟩
                · exact ⟨rfl, Or.inl rfl, hosts, fs1, stash, rfl, hparse, not_not.1 hw⟩

/-- C11: `StashAddressWithPath` returns 'host not found' when the address is
absent or its slot is empty, and otherwise 'stash path not available' when the
stash path is empty, in both cases with the file system and the collection as
they were.  Whenever it fails with the error of creating, parsing, opening or
writing the stash file, the collection is unchanged; the collection differs
only after all writes to the stash file succeeded, and then it is the old one
with the key of the address deleted. -/
theorem StashAddressWithPath_failure (fs : FS) (hc : HostCollection)
    (address stashPath : Str) :
    ((mapGet hc.Hosts address = none ∨ mapGet hc.Hosts address = some []) →
      StashAddressWithPath fs hc address stashPath = (fs, hc, some Err.hostNotFound)) ∧
    ((∃ hosts, mapGet hc.Hosts address = some hosts ∧ hosts ≠ []) → stashPath = [] →
      StashAddressWithPath fs hc address stashPath
        = (fs, hc, some Err.stashPathNotAvailable)) ∧
    (((StashAddressWithPath fs hc address stashPath).2.2 = some Err.failedToCreateStash ∨
      (StashAddressWithPath fs hc address stashPath).2.2 = some Err.failedToParseStash ∨
      (StashAddressWithPath fs hc address stashPath).2.2 = some Err.failedToOpenStash ∨
      (StashAddressWithPath fs hc address stashPath).2.2 = some Err.failedToWriteStash) →
      (StashAddressWithPath fs hc address stashPath).2.1 = hc) ∧
    ((StashAddressWithPath fs hc address stashPath).2.1 ≠ hc →
      (StashAddressWithPath fs hc address stashPath).2.1
        = { hc with Hosts := mapDelete hc.Hosts address } ∧
      ∃ (hosts : List HostRef) (fs1 : FS) (stash : HostCollection),
        mapGet hc.Hosts address = some hosts ∧
        ParseKnownHosts fs1 0 stashPath = Except.ok stash ∧
        (osWriteAll fs1 stashPath
          ((stashLoop hosts [] (existingKeys stash)).map
            (fun h => formatKnownHostsLine h.host ++ ['\n']))).2 = none) := by
  have hout := StashAddressWithPath_outcome fs hc address stashPath
  refine ⟨?_, ?_, ?_, ?_⟩
  · intro habs
    unfold StashAddressWithPath
    rcases habs with hg | hg
    · simp only [hg]
    · simp only [hg, List.length_nil, if_true]
  · rintro ⟨hosts, hg, hne⟩ hsp
    have hlen : ¬ hosts.length = 0 := fun e => hne (List.length_eq_zero.1 e)
    unfold StashAddressWithPath
    simp only [hg, hlen, if_false, hsp, if_true]
  · intro herr
    rcases hout with ⟨h, _⟩ | ⟨h, _⟩ | ⟨h, _⟩ | ⟨_, h, _⟩
    · rw [h]
    · rw [h]
    · exact h
    · exfalso
      rcases h with h | h <;> rcases herr with e | e | e | e <;>
        · rw [h] at e
          simp at e
  · intro hne
    rcases hout with ⟨h, _⟩ | ⟨h, _⟩ | ⟨h, _⟩ | ⟨h1, _, h3⟩
    · rw [h] at hne; exact absurd rfl hne
    · rw [h] at hne; exact absurd rfl hne
    · exact absurd h hne
    · exact ⟨h1, h3⟩

/-! ## C12: what `UnstashAddress` adds -/

theorem AddHost_File (hc : HostCollection) (host : Option HostRef) :
    (AddHost hc host).File = hc.File := by
  cases host with
  | none => rfl
  | some e =>
    unfold AddHost
    by_cases hl : e.host.Addresses.length = 0
    · simp only [hl, if_true]
    · simp only [hl, if_false]

theorem unstashLoop_skip (h : HostRef) (rest : List HostRef) (ex : List Str)
    (mc : HostCollection) (hd : stashKey h.host ≠ [] ∧ stashKey h.host ∈ ex) :
    unstashLoop (h :: rest) ex mc = unstashLoop rest ex mc := by
  simp only [unstashLoop, hd, ne_eq, not_false_eq_true, and_self, if_true]

theorem unstashLoop_add (h : HostRef) (rest : List HostRef) (ex : List Str)
    (mc : HostCollection) (hd : ¬ (stashKey h.host ≠ [] ∧ stashKey h.host ∈ ex)) :
    unstashLoop (h :: rest) ex mc
      = unstashLoop rest (if stashKey h.host ≠ [] then stashKey h.host :: ex else ex)
          (AddHost mc (some h)) := by
  simp only [unstashLoop, hd, if_false]

theorem unstashLoop_File (l : List HostRef) :
    ∀ (ex : List Str) (mc : HostCollection), (unstashLoop l ex mc).File = mc.File := by
  induction l with
  | nil => intro ex mc; rfl
  | cons h rest ih =>
    intro ex mc
    by_cases hd : stashKey h.host ≠ [] ∧ stashKey h.host ∈ ex
    · rw [unstashLoop_skip h rest ex mc hd]
      exact ih ex mc
    · rw [unstashLoop_add h rest ex mc hd, ih, AddHost_File]

/-- The loop only adds: what a slot held before, it still holds. -/
theorem unstashLoop_mono (l : List HostRef) :
    ∀ (ex : List Str) (mc : HostCollection) (a : Str),
      ∀ x ∈ GetHostsByAddress mc a, x ∈ GetHostsByAddress (unstashLoop l ex mc) a := by
  induction l with
  | nil => intro ex mc a x hx; exact hx
  | cons h rest ih =>
    intro ex mc a x hx
    by_cases hd : stashKey h.host ≠ [] ∧ stashKey h.host ∈ ex
    · rw [unstashLoop_skip h rest ex mc hd]
      exact ih ex mc a x hx
    · rw [unstashLoop_add h rest ex mc hd]
      apply ih
      rw [AddHost_get]
      exact List.mem_append_left _ hx

theorem AddHost_mem (mc : HostCollection) (e : HostRef) (a : Str) (ha : a ∈ e.host.Addresses) :
    e ∈ GetHostsByAddress (AddHost mc (some e)) a := by
  rw [AddHost_get]
  apply List.mem_append_right
  rw [List.mem_replicate]
  exact ⟨Nat.pos_iff_ne_zero.1 (List.count_pos_iff.2 ha), rfl⟩

/-- The rule of the loop: an entry is added, under every address it lists, when
its key is empty, or is neither in `existing` nor the key of an entry earlier in
the stash slot. -/
theorem unstashLoop_rule (l : List HostRef) :
    ∀ (ex : List Str) (mc : HostCollection) (pre : List HostRef) (e : HostRef)
      (post : List HostRef), l = pre ++ e :: post →
      (stashKey e.host = [] ∨
        (stashKey e.host ∉ ex ∧ ∀ g ∈ pre, stashKey g.host ≠ stashKey e.host)) →
      ∀ a ∈ e.host.Addresses, e ∈ GetHostsByAddress (unstashLoop l ex mc) a := by
  induction l with
  | nil =>
    intro ex mc pre e post hl
    simp at hl
  | cons x rest ih =>
    intro ex mc pre e post hl hcond a ha
    cases pre with
    | nil =>
      simp only [List.nil_append, List.cons.injEq] at hl
      obtain ⟨rfl, _⟩ := hl
      have hd : ¬ (stashKey x.host ≠ [] ∧ stashKey x.host ∈ ex) := by
        rintro ⟨h1, h2⟩
        rcases hcond with h | ⟨h, _⟩
        · exact h1 h
        · exact h h2
      rw [unstashLoop_add x rest ex mc hd]
      exact unstashLoop_mono rest _ _ a x (AddHost_mem mc x a ha)
    | cons p pre' =>
      simp only [List.cons_append, List.cons.injEq] at hl
      obtain ⟨rfl, hrest⟩ := hl
      by_cases hd : stashKey x.host ≠ [] ∧ stashKey x.host ∈ ex
      · rw [unstashLoop_skip x rest ex mc hd]
        refine ih ex mc pre' e post hrest ?_ a ha
        rcases hcond with h | ⟨h1, h2⟩
        · exact Or.inl h
        · exact Or.inr ⟨h1, fun g hg => h2 g (List.mem_cons_of_mem _ hg)⟩
      · rw [unstashLoop_add x rest ex mc hd]
        refine ih _ _ pre' e post hrest ?_ a ha
        rcases hcond with h | ⟨h1, h2⟩
        · exact Or.inl h
        · refine Or.inr ⟨?_, fun g hg => h2 g (List.mem_cons_of_mem _ hg)⟩
          by_cases hx : stashKey x.host ≠ []
          · rw [if_pos hx]
            intro hmem
            rcases List.mem_cons.1 hmem with h | h
            · exact h2 x (List.mem_cons_self _ _) h.symm
            · exact h1 h
          · rw [if_neg hx]
            exact h1

/-- Every stashed entry whose key is empty or not in `existing` is represented
in the result by an added entry of the slot with the same key. -/
theorem unstashLoop_represented (l : List HostRef) :
    ∀ (ex : List Str) (mc : HostCollection), ∀ e ∈ l,
      (stashKey e.host = [] ∨ stashKey e.host ∉ ex) →
      ∃ g ∈ l, stashKey g.host = stashKey e.host ∧
        ∀ a ∈ g.host.Addresses, g ∈ GetHostsByAddress (unstashLoop l ex mc) a := by
  induction l with
  | nil => intro ex mc e he; simp at he
  | cons x rest ih =>
    intro ex mc e he hcond
    by_cases hk : stashKey x.host = stashKey e.host
    · have hd : ¬ (stashKey x.host ≠ [] ∧ stashKey x.host ∈ ex) := by
        rintro ⟨h1, h2⟩
        rw [hk] at h1 h2
        rcases hcond with h | h
        · exact h1 h
        · exact h h2
      refine ⟨x, List.mem_cons_self _ _, hk, ?_⟩
      intro a ha
      rw [unstashLoop_add x rest ex mc hd]
      exact unstashLoop_mono rest _ _ a x (AddHost_mem mc x a ha)
    · have herest : e ∈ rest := by
        rcases List.mem_cons.1 he with h | h
        · rw [h] at hk; exact absurd rfl hk
        · exact h
      by_cases hd : stashKey x.host ≠ [] ∧ stashKey x.host ∈ ex
      · rw [unstashLoop_skip x rest ex mc hd]
        obtain ⟨g, hg, hgk, hga⟩ := ih ex mc e herest hcond
        exact ⟨g, List.mem_cons_of_mem _ hg, hgk, hga⟩
      · rw [unstashLoop_add x rest ex mc hd]
        have hcond' : stashKey e.host = [] ∨
            stashKey e.host ∉ (if stashKey x.host ≠ [] then stashKey x.host :: ex else ex) := by
          rcases hcond with h | h
          · exact Or.inl h
          · right
            by_cases hx : stashKey x.host ≠ []
            · rw [if_pos hx]
              intro hmem
              rcases List.mem_cons.1 hmem with h' | h'
              · exact hk h'.symm
              · exact h h'
            · rw [if_neg hx]
              exact h
        obtain ⟨g, hg, hgk, hga⟩ := ih _ (AddHost mc (some x)) e herest hcond'
        exact ⟨g, List.mem_cons_of_mem _ hg, hgk, hga⟩

theorem parseLoop_File (lines : List Str) :
    ∀ (k : Int) (next : Nat) (hc : HostCollection),
      (parseLoop lines k next hc).File = hc.File := by
  induction lines with
  | nil => intro k next hc; rfl
  | cons raw rest ih =>
    intro k next hc
    simp only [parseLoop]
    cases parseStep raw (k + 1) with
    | none => exact ih _ _ _
    | some x => rw [ih, AddHost_File]

theorem parseLines_File (filePath : Str) (base : Nat) (lines : List Str) :
    (parseLines filePath base lines).File = filePath := by
  unfold parseLines
  rw [parseLoop_File]
  rfl

/-- The collection `ParseKnownHosts` returns for a named file is bound to it. -/
theorem ParseKnownHosts_File (fs : FS) (base : Nat) (p : Str) (hc : HostCollection)
    (hp : p ≠ []) (h : ParseKnownHosts fs base p = Except.ok hc) : hc.File = p := by
  obtain ⟨_, _, _, rfl⟩ := ParseKnownHosts_ok fs base p hc hp h
  exact parseLines_File _ _ _

/-- C12 (as amended): when `UnstashAddress` succeeds, the collection `merged`
that the call builds from its own parse of the primary file, and saves back to
that file, holds a stashed entry of the address under every address key the
entry lists (so also under the address itself) when the identity key of the
entry is empty, or is neither present under the address in the parsed primary
collection nor the key of an earlier entry of the stash slot; a stashed entry
whose key is not present in the primary collection is in any case represented
by an added entry of the slot with the same key. -/
theorem UnstashAddress_adds (stashOf : Str → Str) (fs fs' : FS) (hc : HostCollection)
    (address : Str) (hok : UnstashAddress stashOf fs hc address = (fs', none)) :
    ∃ (mainCol stashCol merged : HostCollection) (stashHosts : List HostRef),
      ParseKnownHosts fs 0 hc.File = Except.ok mainCol ∧
      ParseKnownHosts fs (freshRef mainCol) (StashFilePath stashOf hc) = Except.ok stashCol ∧
      mapGet stashCol.Hosts address = some stashHosts ∧
      merged = unstashLoop stashHosts (unstashExisting mainCol address) mainCol ∧
      (SaveToFile fs merged hc.File).2 = none ∧
      (hc.File ≠ StashFilePath stashOf hc →
        hc.File ≠ StashFilePath stashOf hc ++ ".backup".toList →
        mapGet fs'.files hc.File = some (saveContent merged)) ∧
      (∀ e ∈ stashHosts, address ∈ e.host.Addresses) ∧
      (∀ (pre : List HostRef) (e : HostRef) (post : List HostRef),
        stashHosts = pre ++ e :: post →
        (stashKey e.host = [] ∨
          (stashKey e.host ∉ unstashExisting mainCol address ∧
            ∀ g ∈ pre, stashKey g.host ≠ stashKey e.host)) →
        (∀ a ∈ e.host.Addresses, e ∈ GetHostsByAddress merged a) ∧
        e ∈ GetHostsByAddress merged address) ∧
      (∀ e ∈ stashHosts, stashKey e.host ∉ unstashExisting mainCol address →
        ∃ g ∈ stashHosts, stashKey g.host = stashKey e.host ∧
          (∀ a ∈ g.host.Addresses, g ∈ GetHostsByAddress merged a) ∧
          g ∈ GetHostsByAddress merged address) := by
  unfold UnstashAddress at hok
  simp only [] at hok
  by_cases hsp : StashFilePath stashOf hc = []
  · simp [hsp] at hok
  · rw [if_neg hsp] at hok
    have hfile : hc.File ≠ [] := by
      intro h
      apply hsp
      unfold StashFilePath
      rw [if_pos h]
    by_cases hst : osStatNotExist fs (StashFilePath stashOf hc) = true
    · simp [hst] at hok
    · rw [if_neg hst] at hok
      cases hmain : ParseKnownHosts fs 0 hc.File with
      | error e => simp [hmain] at hok
      | ok mainCol =>
        simp only [hmain] at hok
        cases hstash : ParseKnownHosts fs (freshRef mainCol) (StashFilePath stashOf hc) with
        | error e => simp [hstash] at hok
        | ok stashCol =>
          simp only [hstash] at hok
          cases hg : mapGet stashCol.Hosts address with
          | none => simp [hg] at hok
          | some stashHosts =>
            simp only [hg] at hok
            by_cases hlen : stashHosts.length = 0
            · simp [hlen] at hok
            · rw [if_neg hlen] at hok
              have hmfile : mainCol.File = hc.File :=
                ParseKnownHosts_File fs 0 hc.File mainCol hfile hmain
              have hmergedFile :
                  (unstashLoop stashHosts (unstashExisting mainCol address) mainCol).File
                    = hc.File := by
                rw [unstashLoop_File, hmfile]
              have hsfile : stashCol.File = StashFilePath stashOf hc :=
                ParseKnownHosts_File fs _ (StashFilePath stashOf hc) stashCol hsp hstash
              rw [hmergedFile] at hok
              split at hok
              · simp at hok
              · rename_i hs1
                simp only [ne_eq, not_not] at hs1
                split at hok
                · simp at hok
                · rename_i hs2
                  simp only [ne_eq, not_not] at hs2
                  simp only [Prod.mk.injEq, and_true] at hok
                  have hlists : ∀ e ∈ stashHosts, address ∈ e.host.Addresses := by
                    obtain ⟨fp, lines, rfl⟩ := ParseKnownHosts_parsed fs _ _ stashCol hstash
                    intro e he
                    exact parseLoop_inv lines 0 _ _ (NewHostCollection_inv fp)
                      (address, stashHosts) (mem_of_mapGet _ _ _ hg) e he
                  refine ⟨mainCol, stashCol, _, stashHosts, rfl, hstash, hg, rfl, hs1, ?_,
                    hlists, ?_, ?_⟩
                  · intro hne1 hne2
                    have h1 := (SaveToFile_ok fs _ _ hc.File (Prod.ext rfl hs1)).2.2.1
                    have h2 := (SaveToFile_ok _ fs' _ _ (Prod.ext hok hs2)).2.2.2.2.2.2.2.2
                      hc.File (by rw [hsfile]; exact hne1) (by rw [hsfile]; exact hne2)
                    rw [h2, h1]
                  · intro pre e post hdec hcond
                    have hall := unstashLoop_rule stashHosts (unstashExisting mainCol address)
                      mainCol pre e post hdec hcond
                    refine ⟨hall, hall address (hlists e ?_)⟩
                    rw [hdec]
                    simp
                  · intro e he hkey
                    obtain ⟨g, hg1, hg2, hg3⟩ := unstashLoop_represented stashHosts
                      (unstashExisting mainCol address) mainCol e he (Or.inr hkey)
                    exact ⟨g, hg1, hg2, hg3, hg3 address (hlists g hg1)⟩

/-- C12 on an example: an empty primary file and a stash holding two lines for
`a`; the call succeeds and builds `merged` from its own two parses. -/
theorem UnstashAddress_adds_witness :
    UnstashAddress (fun _ => "stash_hosts".toList) twinStashFS
        (NewHostCollection "kh".toList) "a".toList
      = ((UnstashAddress (fun _ => "stash_hosts".toList) twinStashFS
          (NewHostCollection "kh".toList) "a".toList).1, none) ∧
    ∃ (mainCol stashCol merged : HostCollection) (stashHosts : List HostRef),
      ParseKnownHosts twinStashFS 0 (NewHostCollection "kh".toList).File = Except.ok mainCol ∧
      ParseKnownHosts twinStashFS (freshRef mainCol)
        (StashFilePath (fun _ => "stash_hosts".toList) (NewHostCollection "kh".toList))
        = Except.ok stashCol ∧
      mapGet stashCol.Hosts "a".toList = some stashHosts ∧
      merged = unstashLoop stashHosts (unstashExisting mainCol "a".toList) mainCol := by
  have hok : UnstashAddress (fun _ => "stash_hosts".toList) twinStashFS
        (NewHostCollection "kh".toList) "a".toList
      = ((UnstashAddress (fun _ => "stash_hosts".toList) twinStashFS
          (NewHostCollection "kh".toList) "a".toList).1, none) := by
    decide
  obtain ⟨mainCol, stashCol, merged, stashHosts, h1, h2, h3, h4, _⟩ :=
    UnstashAddress_adds (fun _ => "stash_hosts".toList) twinStashFS _
      (NewHostCollection "kh".toList) "a".toList hok
  exact ⟨hok, mainCol, stashCol, merged, stashHosts, h1, h2, h3, h4⟩

/-- C12 (as stated, refuted): the stash holds two lines for `a` with the same
key and the comments `first` and `second`; the primary file is empty.  The call
succeeds.  The second stashed entry has a key that is not present under `a` in
the primary collection, yet it is neither in the index of the collection the
call builds and saves, nor in the index of the receiver, which the call does
not touch; the saved primary file holds the first entry only. -/
theorem UnstashAddress_skips_twin :
    ∃ (mainCol stashCol after : HostCollection) (second : HostRef),
      ParseKnownHosts twinStashFS 0 "kh".toList = Except.ok mainCol ∧
      ParseKnownHosts twinStashFS (freshRef mainCol) "stash_hosts".toList
        = Except.ok stashCol ∧
      second ∈ GetHostsByAddress stashCol "a".toList ∧
      second.host.Comment = "second".toList ∧
      stashKey second.host ∉ unstashExisting mainCol "a".toList ∧
      (UnstashAddress (fun _ => "stash_hosts".toList) twinStashFS mainCol "a".toList).2
        = none ∧
      second ∉ GetHostsByAddress
        (unstashLoop (GetHostsByAddress stashCol "a".toList)
          (unstashExisting mainCol "a".toList) mainCol) "a".toList ∧
      second ∉ GetHostsByAddress mainCol "a".toList ∧
      ParseKnownHosts
        (UnstashAddress (fun _ => "stash_hosts".toList) twinStashFS mainCol "a".toList).1 0
        "kh".toList = Except.ok after ∧
      (GetHostsByAddress after "a".toList).map (fun e => entryFields e.host)
        = [(["a".toList], "ssh-rsa".toList, "K".toList, "first".toList)] :=
  ⟨_, _, _,
    ⟨1, { Addresses := ["a".toList], KeyType := "ssh-rsa".toList, Key := "K".toList,
          Comment := "second".toList, LineNumber := 2, IsHashed := false, HashValue := [] }⟩,
    rfl, rfl, by decide, rfl, by decide, by decide, by decide, by decide, rfl, by decide⟩

/-! ## C13: deleting a host that shares a line -/

/-- C13 (evaluation at the failing input): the file holds the documented line for
`example.com,192.168.1.1`.  `deleteHost` of `example.com` succeeds, the saved
file still holds the line, and parsing it again returns the entry for
`example.com`. -/
theorem deleteHost_keeps_shared_entry :
    ∃ after : HostCollection,
      (deleteHost "kh".toList sharedFS "kh".toList "example.com".toList).2 = none ∧
      mapGet (deleteHost "kh".toList sharedFS "kh".toList "example.com".toList).1.files
          "kh".toList
        = some (saveHeader ++
            "example.com,192.168.1.1 ssh-rsa AAAAB3NzaC1yc2EA... comment here\n".toList) ∧
      ParseKnownHosts
          (deleteHost "kh".toList sharedFS "kh".toList "example.com".toList).1 0 "kh".toList
        = Except.ok after ∧
      (GetHostsByAddress after "example.com".toList).map (fun e => entryFields e.host)
        = [(["example.com".toList, "192.168.1.1".toList], "ssh-rsa".toList,
            "AAAAB3NzaC1yc2EA...".toList, "comment here".toList)] :=
  ⟨_, by decide, by decide, rfl, by decide⟩

/-! ## C15: the identity key -/

theorem Join_ne_nil (a : Str) (rest : List Str) (sep : Str) (ha : a ≠ []) :
    Join (a :: rest) sep ≠ [] := by
  obtain ⟨c, cs, rfl⟩ := List.exists_cons_of_ne_nil ha
  intro h
  have hmem : c ∈ Join ((c :: cs) :: rest) sep :=
    mem_intercalate_of_mem sep _ (c :: cs) (List.mem_cons_self _ _) c (List.mem_cons_self _ _)
  rw [h] at hmem
  exact absurd hmem (List.not_mem_nil c)

/-- The address tokens of a parsed entry are not empty. -/
theorem parseHostLine_tokens (line : Str) (n : Int) (h : Host)
    (hp : parseHostLine line n = some h) : ∀ a ∈ h.Addresses, a ≠ [] := by
  obtain ⟨f0, f1, f2, rest, _, _, rfl⟩ := parseHostLine_some line n h hp
  intro a ha
  simp only [collectAddresses_eq, List.nil_append, List.mem_filter] at ha
  simpa using ha.2

/-- The address field the code computes is the one the specification words. -/
theorem stashKey_addressField (h : Host) (hwf : ∀ a ∈ h.Addresses, a ≠ []) :
    (if Join h.Addresses [','] = [] ∧ h.IsHashed = true ∧ h.HashValue ≠ [] then h.HashValue
      else Join h.Addresses [',']) = specAddressField h := by
  unfold specAddressField
  cases hA : h.Addresses with
  | nil =>
    have hJ : Join ([] : List Str) [','] = [] := rfl
    rw [hJ]
    by_cases hh : h.IsHashed = true
    · by_cases hv : h.HashValue = []
      · simp [hh, hv]
      · simp [hh, hv]
    · simp [hh]
  | cons a rest =>
    have hJ : Join (a :: rest) [','] ≠ [] :=
      Join_ne_nil a rest [','] (hwf a (by rw [hA]; exact List.mem_cons_self _ _))
    simp [hJ]

/-- C15: for an entry `h` (its address tokens are non-empty, as for every entry
the parser builds), `stashKey h` is the address field, a space, the key type, a
space and the key, where the address field is the addresses joined by commas,
or the hash value when the address list is empty and the entry is hashed; it is
empty exactly when the address field, the key type or the key is empty; and an
entry with an empty key is never skipped: at its first visit in the stash loop
a line is written for it, and the unstash loop adds it under every address it
lists. -/
theorem stashKey_spec (h : Host) (hwf : ∀ a ∈ h.Addresses, a ≠ []) :
    stashKey h
      = (if specAddressField h = [] ∨ h.KeyType = [] ∨ h.Key = [] then []
         else specAddressField h ++ [' '] ++ h.KeyType ++ [' '] ++ h.Key) ∧
    (stashKey h = [] ↔ specAddressField h = [] ∨ h.KeyType = [] ∨ h.Key = []) ∧
    (stashKey h = [] →
      ∀ (r : Nat) (hosts : List HostRef) (existing : List Str) (pre post : List HostRef),
        firstVisits hosts = pre ++ (⟨r, h⟩ : HostRef) :: post →
        (⟨r, h⟩ : HostRef) ∈ stashLoop hosts [] existing) ∧
    (stashKey h = [] →
      ∀ (r : Nat) (stashHosts : List HostRef) (existing : List Str) (mainCol : HostCollection)
        (pre post : List HostRef),
        stashHosts = pre ++ (⟨r, h⟩ : HostRef) :: post →
        ∀ a ∈ h.Addresses,
          (⟨r, h⟩ : HostRef) ∈ GetHostsByAddress (unstashLoop stashHosts existing mainCol) a) := by
  have hkey : stashKey h
      = (if specAddressField h = [] ∨ h.KeyType = [] ∨ h.Key = [] then []
         else specAddressField h ++ [' '] ++ h.KeyType ++ [' '] ++ h.Key) := by
    unfold stashKey
    simp only []
    rw [stashKey_addressField h hwf]
  refine ⟨hkey, ?_, ?_, ?_⟩
  · rw [hkey]
    constructor
    · intro h0
      by_contra hcon
      rw [if_neg hcon] at h0
      have := congrArg List.length h0
      simp at this
    · intro hcond
      rw [if_pos hcond]
  · intro hk r hosts existing pre post hdec
    exact (stashLoop_rule hosts [] existing pre ⟨r, h⟩ post hdec).2 (Or.inl hk)
  · intro hk r stashHosts existing mainCol pre post hdec a ha
    exact unstashLoop_rule stashHosts existing mainCol pre ⟨r, h⟩ post hdec (Or.inl hk) a ha

/-- C15 on the entry of the documented hashed line. -/
theorem stashKey_spec_witness :
    (∀ a ∈ hashedHost.Addresses, a ≠ []) ∧
    stashKey hashedHost = "|1|abc123base64|def456base64= ssh-ed25519 AAAAC3...".toList ∧
    stashKey hashedHost
      = (if specAddressField hashedHost = [] ∨ hashedHost.KeyType = [] ∨ hashedHost.Key = []
         then []
         else specAddressField hashedHost ++ [' '] ++ hashedHost.KeyType ++ [' ']
           ++ hashedHost.Key) :=
  ⟨by decide, by decide, (stashKey_spec hashedHost (by decide)).1⟩

/-! ## Splitting and joining -/

theorem splitOnP_no_sep (p : Char → Bool) (l : Str) :
    ∀ t ∈ List.splitOnP p l, ∀ c ∈ t, p c = false := by
  induction l with
  | nil =>
    intro t ht c hc
    simp only [List.splitOnP_nil, List.mem_singleton] at ht
    rw [ht] at hc
    exact absurd hc (List.not_mem_nil c)
  | cons x xs ih =>
    intro t ht c hc
    rw [List.splitOnP_cons] at ht
    by_cases hx : p x = true
    · rw [if_pos hx] at ht
      rcases List.mem_cons.1 ht with h | h
      · rw [h] at hc
        exact absurd hc (List.not_mem_nil c)
      · exact ih t h c hc
    · rw [if_neg hx] at ht
      cases hs : List.splitOnP p xs with
      | nil => exact absurd hs (List.splitOnP_ne_nil p xs)
      | cons first others =>
        rw [hs] at ht ih
        simp only [List.modifyHead, List.mem_cons] at ht
        rcases ht with h | h
        · rw [h] at hc
          rcases List.mem_cons.1 hc with e | e
          · rw [e]
            simpa using hx
          · exact ih first (List.mem_cons_self _ _) c e
        · exact ih t (List.mem_cons_of_mem _ h) c hc

/-- A token of `Split s sep` does not hold the separator. -/
theorem sep_not_mem_Split (s : Str) (sep : Char) (t : Str) (ht : t ∈ Split s sep) :
    sep ∉ t := by
  intro hmem
  have := splitOnP_no_sep (fun c => c == sep) s t ht sep hmem
  simp at this

theorem intercalate_cons_cons {α : Type} (sep l l2 : List α) (ls : List (List α)) :
    sep.intercalate (l :: l2 :: ls) = l ++ sep ++ sep.intercalate (l2 :: ls) := by
  simp [List.intercalate, List.intersperse]

theorem intercalate_singleton {α : Type} (sep l : List α) : sep.intercalate [l] = l := by
  simp [List.intercalate, List.intersperse]

theorem mem_intercalate {α : Type} (sep : List α) (ls : List (List α)) (c : α)
    (hc : c ∈ sep.intercalate ls) : c ∈ sep ∨ ∃ l ∈ ls, c ∈ l := by
  induction ls with
  | nil => simp [List.intercalate, List.intersperse] at hc
  | cons l rest ih =>
    cases rest with
    | nil =>
      rw [intercalate_singleton] at hc
      exact Or.inr ⟨l, List.mem_cons_self _ _, hc⟩
    | cons l2 ls2 =>
      rw [intercalate_cons_cons] at hc
      rcases List.mem_append.1 hc with h | h
      · rcases List.mem_append.1 h with h | h
        · exact Or.inr ⟨l, List.mem_cons_self _ _, h⟩
        · exact Or.inl h
      · rcases ih h with h | ⟨m, hm, hcm⟩
        · exact Or.inl h
        · exact Or.inr ⟨m, List.mem_cons_of_mem _ hm, hcm⟩

theorem fieldsFrom_append_clean (f : Str) (hf : ∀ c ∈ f, isSpace c = false) :
    ∀ (s cur : Str), fieldsFrom (f ++ s) cur = fieldsFrom s (cur ++ f) := by
  induction f with
  | nil => intro s cur; simp
  | cons c cs ih =>
    intro s cur
    have hc : isSpace c = false := hf c (List.mem_cons_self _ _)
    have hcs : ∀ d ∈ cs, isSpace d = false := fun d hd => hf d (List.mem_cons_of_mem _ hd)
    have hstep : fieldsFrom (c :: (cs ++ s)) cur = fieldsFrom (cs ++ s) (cur ++ [c]) := by
      simp [fieldsFrom, hc]
    rw [List.cons_append, hstep, ih hcs]
    simp

/-- Splitting a string that was joined with single spaces from non-empty fields
without white space gives the fields back. -/
theorem Fields_Join (fs : List Str)
    (hfs : ∀ f ∈ fs, f ≠ [] ∧ ∀ c ∈ f, isSpace c = false) :
    Fields (Join fs [' ']) = fs := by
  unfold Fields Join
  induction fs with
  | nil => simp [List.intercalate, List.intersperse, fieldsFrom]
  | cons f rest ih =>
    obtain ⟨hne, hclean⟩ := hfs f (List.mem_cons_self _ _)
    have hrest : ∀ g ∈ rest, g ≠ [] ∧ ∀ c ∈ g, isSpace c = false :=
      fun g hg => hfs g (List.mem_cons_of_mem _ hg)
    cases rest with
    | nil =>
      rw [intercalate_singleton]
      have := fieldsFrom_append_clean f hclean [] []
      rw [List.append_nil, List.nil_append] at this
      rw [this]
      simp [fieldsFrom, hne]
    | cons g gs =>
      rw [intercalate_cons_cons, List.append_assoc, fieldsFrom_append_clean f hclean,
        List.nil_append]
      have hsp : isSpace ' ' = true := by decide
      have hstep : fieldsFrom ([' '] ++ [' '].intercalate (g :: gs)) f
          = f :: fieldsFrom ([' '].intercalate (g :: gs)) [] := by
        simp [fieldsFrom, hsp, hne]
      rw [hstep, ih hrest]

/-! ## The shape of a parsed entry -/

/-- The tokens `parseHostLine` keeps as addresses are tokens of field 0: not
empty, free of white space and free of commas. -/
theorem collectAddresses_tokens (line : Str) (f0 : Str) (hf0 : f0 ∈ Fields line) :
    ∀ a ∈ collectAddresses (Split f0 ',') [],
      a ≠ [] ∧ (∀ c ∈ a, isSpace c = false) ∧ ',' ∉ a := by
  intro a ha
  rw [collectAddresses_eq, List.nil_append, List.mem_filter, List.mem_map] at ha
  obtain ⟨⟨t, ht, hta⟩, hne⟩ := ha
  have hclean : ∀ c ∈ t, isSpace c = false := fun c hc =>
    (Fields_clean line f0 hf0).2 c (mem_of_mem_Split f0 ',' t ht c hc)
  rw [TrimSpace_of_clean t hclean] at hta
  subst hta
  exact ⟨by simpa using hne, hclean, sep_not_mem_Split f0 ',' t ht⟩

/-- The joined address field of a parsed entry is not empty and free of white
space, and splitting it on commas gives the addresses back. -/
theorem addressField_of_tokens (A : List Str) (hA : A ≠ [])
    (htok : ∀ a ∈ A, a ≠ [] ∧ (∀ c ∈ a, isSpace c = false) ∧ ',' ∉ a) :
    Join A [','] ≠ [] ∧ (∀ c ∈ Join A [','], isSpace c = false) ∧
    collectAddresses (Split (Join A [',']) ',') [] = A := by
  obtain ⟨a, rest, rfl⟩ := List.exists_cons_of_ne_nil hA
  refine ⟨Join_ne_nil a rest [','] (htok a (List.mem_cons_self _ _)).1, ?_, ?_⟩
  · intro c hc
    rcases mem_intercalate [','] (a :: rest) c hc with h | ⟨l, hl, hcl⟩
    · rw [List.mem_singleton.1 h]
      decide
    · exact (htok l hl).2.1 c hcl
  · have hsplit : Split (Join (a :: rest) [',']) ',' = a :: rest :=
      List.splitOn_intercalate (a :: rest) ',' (fun l hl => (htok l hl).2.2) hA
    rw [hsplit, collectAddresses_eq, List.nil_append]
    have hmap : (a :: rest).map TrimSpace = a :: rest := by
      conv_rhs => rw [← List.map_id (a :: rest)]
      apply List.map_congr_left
      intro t ht
      exact TrimSpace_of_clean t (htok t ht).2.1
    rw [hmap, List.filter_eq_self]
    intro t ht
    simpa using (htok t ht).1

/-- The formatted line of a parsed entry is its fields joined by single spaces. -/
theorem formatKnownHostsLine_parsed (A : List Str) (f1 f2 : Str) (rest : List Str) (n : Int)
    (hashed : Bool) (hv : Str) (hrest : ∀ r ∈ rest, r ≠ []) :
    formatKnownHostsLine
        { Addresses := A, KeyType := f1, Key := f2, Comment := Join rest [' '],
          LineNumber := n, IsHashed := hashed, HashValue := hv }
      = Join (Join A [','] :: f1 :: f2 :: rest) [' '] := by
  rw [formatKnownHostsLine_eq]
  cases rest with
  | nil =>
    have hJ : Join ([] : List Str) [' '] = [] := rfl
    simp only [hJ, if_true, List.append_nil]
    unfold Join
    rw [intercalate_cons_cons, intercalate_cons_cons, intercalate_singleton]
    simp
  | cons r rs =>
    have hne : Join (r :: rs) [' '] ≠ [] :=
      Join_ne_nil r rs [' '] (hrest r (List.mem_cons_self _ _))
    simp only [hne, if_false]
    unfold Join
    rw [intercalate_cons_cons, intercalate_cons_cons, intercalate_cons_cons]
    simp

/-! ## C21: the line round trip -/

/-- C21: when `parseHostLine line n` returns an entry `h`, parsing the formatted
line of `h` with the same line number returns `h` again, equal in every field;
hence formatting the parsed entry is an idempotent normalisation of lines:
normalising a normalised line changes nothing. -/
theorem parseHostLine_roundtrip (line : Str) (n : Int) (h : Host)
    (hp : parseHostLine line n = some h) :
    parseHostLine (formatKnownHostsLine h) n = some h ∧
    ((parseHostLine (formatKnownHostsLine h) n).map formatKnownHostsLine
      = some (formatKnownHostsLine h)) ∧
    (((parseHostLine line n).map formatKnownHostsLine).bind
        (fun l => (parseHostLine l n).map formatKnownHostsLine)
      = (parseHostLine line n).map formatKnownHostsLine) := by
  have hmain : parseHostLine (formatKnownHostsLine h) n = some h := by
    obtain ⟨f0, f1, f2, rest, hF, haddr, rfl⟩ := parseHostLine_some line n h hp
    have hmemF : ∀ f ∈ f0 :: f1 :: f2 :: rest, f ≠ [] ∧ ∀ c ∈ f, isSpace c = false :=
      fun f hf => Fields_clean line f (by rw [hF]; exact hf)
    have htok := collectAddresses_tokens line f0 (by rw [hF]; exact List.mem_cons_self _ _)
    obtain ⟨hJne, hJclean, hJsplit⟩ :=
      addressField_of_tokens (collectAddresses (Split f0 ',') []) haddr htok
    have hrest : ∀ r ∈ rest, r ≠ [] := fun r hr => (hmemF r (by simp [hr])).1
    rw [formatKnownHostsLine_parsed _ f1 f2 rest n _ _ hrest]
    have hfields : Fields (Join (Join (collectAddresses (Split f0 ',') []) [','] ::
        f1 :: f2 :: rest) [' '])
        = Join (collectAddresses (Split f0 ',') []) [','] :: f1 :: f2 :: rest := by
      apply Fields_Join
      intro f hf
      rcases List.mem_cons.1 hf with e | e
      · rw [e]
        exact ⟨hJne, hJclean⟩
      · exact hmemF f (List.mem_cons_of_mem _ e)
    rw [parseHostLine_eq _ n _ f1 f2 rest hfields (by rw [hJsplit]; exact haddr), hJsplit]
  refine ⟨hmain, ?_, ?_⟩
  · rw [hmain]
    rfl
  · rw [hp]
    simp only [Option.map_some', Option.some_bind]
    rw [hmain]
    rfl

/-- C21 on the documented example line. -/
theorem parseHostLine_roundtrip_witness :
    parseHostLine
        "example.com,192.168.1.1   ssh-rsa AAAAB3NzaC1yc2EA...  comment   here".toList 7
      = some { Addresses := ["example.com".toList, "192.168.1.1".toList],
               KeyType := "ssh-rsa".toList, Key := "AAAAB3NzaC1yc2EA...".toList,
               Comment := "comment here".toList, LineNumber := 7, IsHashed := false,
               HashValue := [] } ∧
    parseHostLine
        (formatKnownHostsLine
          { Addresses := ["example.com".toList, "192.168.1.1".toList],
            KeyType := "ssh-rsa".toList, Key := "AAAAB3NzaC1yc2EA...".toList,
            Comment := "comment here".toList, LineNumber := 7, IsHashed := false,
            HashValue := [] }) 7
      = some { Addresses := ["example.com".toList, "192.168.1.1".toList],
               KeyType := "ssh-rsa".toList, Key := "AAAAB3NzaC1yc2EA...".toList,
               Comment := "comment here".toList, LineNumber := 7, IsHashed := false,
               HashValue := [] } :=
  ⟨by decide,
    (parseHostLine_roundtrip
      "example.com,192.168.1.1   ssh-rsa AAAAB3NzaC1yc2EA...  comment   here".toList 7 _
      (by decide)).1⟩

/-! ## C22: the identity key of parsed entries -/

/-- The identity key of a parsed entry is its address field, key type and key
joined by single spaces, and these three are recovered from it. -/
theorem stashKey_parsed (line : Str) (n : Int) (h : Host)
    (hp : parseHostLine line n = some h) :
    stashKey h = Join [Join h.Addresses [','], h.KeyType, h.Key] [' '] ∧
    Fields (stashKey h) = [Join h.Addresses [','], h.KeyType, h.Key] ∧
    Split (Join h.Addresses [',']) ',' = h.Addresses := by
  obtain ⟨f0, f1, f2, rest, hF, haddr, rfl⟩ := parseHostLine_some line n h hp
  have hmemF : ∀ f ∈ f0 :: f1 :: f2 :: rest, f ≠ [] ∧ ∀ c ∈ f, isSpace c = false :=
    fun f hf => Fields_clean line f (by rw [hF]; exact hf)
  have htok := collectAddresses_tokens line f0 (by rw [hF]; exact List.mem_cons_self _ _)
  obtain ⟨hJne, hJclean, _⟩ :=
    addressField_of_tokens (collectAddresses (Split f0 ',') []) haddr htok
  have h1 := hmemF f1 (by simp)
  have h2 := hmemF f2 (by simp)
  have hkey : stashKey
      { Addresses := collectAddresses (Split f0 ',') [], KeyType := f1, Key := f2,
        Comment := Join rest [' '], LineNumber := n,
        IsHashed := HasPrefix ((collectAddresses (Split f0 ',') []).getD 0 []) ['|'],
        HashValue :=
          if HasPrefix ((collectAddresses (Split f0 ',') []).getD 0 []) ['|'] then
            (collectAddresses (Split f0 ',') []).getD 0 []
          else [] }
      = Join [Join (collectAddresses (Split f0 ',') []) [','], f1, f2] [' '] := by
    unfold stashKey
    simp only [hJne, false_and, if_false, h1.1, h2.1, false_or]
    unfold Join
    rw [intercalate_cons_cons, intercalate_cons_cons, intercalate_singleton]
    simp
  refine ⟨hkey, ?_, ?_⟩
  · rw [hkey]
    apply Fields_Join
    intro f hf
    simp only [List.mem_cons, List.mem_singleton, List.not_mem_nil, or_false] at hf
    rcases hf with e | e | e
    · rw [e]; exact ⟨hJne, hJclean⟩
    · rw [e]; exact h1
    · rw [e]; exact h2
  · exact List.splitOn_intercalate _ ',' (fun l hl => (htok l hl).2.2) haddr

/-- C22: for two entries returned by `parseHostLine` the identity keys are not
empty, and they are equal exactly when the entries have the same addresses, the
same key type and the same key; comments and line numbers play no part. -/
theorem stashKey_injective (line1 line2 : Str) (n1 n2 : Int) (h1 h2 : Host)
    (hp1 : parseHostLine line1 n1 = some h1) (hp2 : parseHostLine line2 n2 = some h2) :
    stashKey h1 ≠ [] ∧ stashKey h2 ≠ [] ∧
    (stashKey h1 = stashKey h2 ↔
      h1.Addresses = h2.Addresses ∧ h1.KeyType = h2.KeyType ∧ h1.Key = h2.Key) := by
  obtain ⟨k1, f1, s1⟩ := stashKey_parsed line1 n1 h1 hp1
  obtain ⟨k2, f2, s2⟩ := stashKey_parsed line2 n2 h2 hp2
  have hne : ∀ (h : Host), Fields (stashKey h) = [Join h.Addresses [','], h.KeyType, h.Key] →
      stashKey h ≠ [] := by
    intro h hf h0
    rw [h0] at hf
    simp [Fields, fieldsFrom] at hf
  refine ⟨hne h1 f1, hne h2 f2, ?_⟩
  constructor
  · intro heq
    rw [heq, f2] at f1
    simp only [List.cons.injEq, and_true] at f1
    obtain ⟨hJ, hT, hK⟩ := f1
    refine ⟨?_, hT.symm, hK.symm⟩
    rw [← s1, ← s2, hJ]
  · rintro ⟨hA, hT, hK⟩
    rw [k1, k2, hA, hT, hK]

/-- C22 on two lines that differ in white space, comment and line number only:
both parse, and the two entries have the same identity key. -/
theorem stashKey_injective_witness :
    parseHostLine "a.example,b.example ssh-rsa AAAA first".toList 1
      = some { Addresses := ["a.example".toList, "b.example".toList],
               KeyType := "ssh-rsa".toList, Key := "AAAA".toList, Comment := "first".toList,
               LineNumber := 1, IsHashed := false, HashValue := [] } ∧
    parseHostLine "a.example,b.example   ssh-rsa AAAA second one".toList 5
      = some { Addresses := ["a.example".toList, "b.example".toList],
               KeyType := "ssh-rsa".toList, Key := "AAAA".toList,
               Comment := "second one".toList, LineNumber := 5, IsHashed := false,
               HashValue := [] } ∧
    stashKey { Addresses := ["a.example".toList, "b.example".toList],
               KeyType := "ssh-rsa".toList, Key := "AAAA".toList, Comment := "first".toList,
               LineNumber := 1, IsHashed := false, HashValue := [] }
      = stashKey { Addresses := ["a.example".toList, "b.example".toList],
                   KeyType := "ssh-rsa".toList, Key := "AAAA".toList,
                   Comment := "second one".toList, LineNumber := 5, IsHashed := false,
                   HashValue := [] } :=
  ⟨by decide, by decide,
    (stashKey_injective "a.example,b.example ssh-rsa AAAA first".toList
      "a.example,b.example   ssh-rsa AAAA second one".toList 1 5 _ _
      (by decide) (by decide)).2.2.2 ⟨rfl, rfl, rfl⟩⟩

end KnownHosts
